import Mathlib

/-!
Red-black tree (`rb_tree.hpp`): shallow embedding

The C++ class `rb_tree<T>` is embedded for `T = int` (the instantiation used
by `main.cpp`).

* Node pointers are addresses, modelled as natural numbers.  Address `0` is the
  null pointer.  The enumerators of `color_t` have the values `black = 0` and
  `red = 1`; the fixup after `remove` compares node pointers with these
  enumerators and assigns one to a pointer (lines 343, 344, 353 of the header),
  which is modelled on those values.
* The memory is a total map from addresses to node records.  The static
  sentinel `_empty_leaf` lives at the address `empty_leaf`; it is part of the
  memory and can be written to, as in the source.
* `new node(k, p)` takes the next unused address (`fresh`); `delete` leaves the
  memory map untouched (the cell is no longer reachable).
* Every `while` loop and every recursion takes a fuel argument; running out of
  fuel is reported as `Err.fuel`, a failed `assert` as `Err.assertion`
  (`main.cpp` includes `<cassert>` and does not define `NDEBUG`), and the two
  exception classes thrown by `validate` as `Err.invalid_binary_search_tree`
  and `Err.invalid_rb_tree`.
* `size_t` values (sizes and black-heights) are natural numbers: they count
  distinct live nodes, so they stay below the range of `size_t`.
-/

/-- Colours of `enum color_t { black, red }`. -/
inductive color_t where
  | black : color_t
  | red : color_t
deriving DecidableEq, Repr

/-- Integer value of an enumerator of `color_t`. -/
def color_t.val : color_t → Nat
  | .black => 0
  | .red => 1

/-- The record `struct node`: three links, a colour and a key. -/
structure node where
  parent : Nat
  left : Nat
  right : Nat
  color : color_t
  key : Int
deriving DecidableEq, Repr

/-- Address of the static sentinel `_empty_leaf` (the pointer `empty_leaf`). -/
def empty_leaf : Nat := 2

/-- Default constructor `node()`, used only for the sentinel: all links point
to the node itself, the colour is black, the key is value-initialised. -/
def node.sentinel : node :=
  { parent := empty_leaf, left := empty_leaf, right := empty_leaf, color := .black, key := 0 }

/-- Constructor `node(k, p)`: a red node with parent `p` and no children. -/
def node.mk_red (k : Int) (p : Nat) : node :=
  { parent := p, left := empty_leaf, right := empty_leaf, color := .red, key := k }

/-- Messages of the exception `invalid_rb_tree`, in the order of the source. -/
inductive rb_msg where
  | not_red_not_black : rb_msg
  | red_child_of_red : rb_msg
  | black_height_differs : rb_msg
  | empty_leaf_changed : rb_msg
  | root_not_black : rb_msg
deriving DecidableEq, Repr

/-- Abnormal outcomes of an operation. -/
inductive Err where
  | fuel : Err
  | assertion : Err
  | invalid_binary_search_tree : Err
  | invalid_rb_tree : rb_msg → Err
deriving DecidableEq, Repr

/-- Program state seen by one tree: the memory (sentinel included), the member
`root`, and the next unused address. -/
structure rb_tree where
  mem : Nat → node
  root : Nat
  fresh : Nat

namespace rb_tree

/-- Memory write `p->parent = v`. -/
def setParent (m : Nat → node) (p v : Nat) : Nat → node :=
  fun a => if a = p then { m p with parent := v } else m a

/-- Memory write `p->left = v`. -/
def setLeft (m : Nat → node) (p v : Nat) : Nat → node :=
  fun a => if a = p then { m p with left := v } else m a

/-- Memory write `p->right = v`. -/
def setRight (m : Nat → node) (p v : Nat) : Nat → node :=
  fun a => if a = p then { m p with right := v } else m a

/-- Memory write `p->color = c`. -/
def setColor (m : Nat → node) (p : Nat) (c : color_t) : Nat → node :=
  fun a => if a = p then { m p with color := c } else m a

/-- Memory write `p->key = k`. -/
def setKey (m : Nat → node) (p : Nat) (k : Int) : Nat → node :=
  fun a => if a = p then { m p with key := k } else m a

/-- Constructor `rb_tree()`: the root is the sentinel.  The memory holds the
freshly constructed sentinel. -/
def empty : rb_tree :=
  { mem := fun _ => node.sentinel, root := empty_leaf, fresh := empty_leaf + 1 }

/-- Function `_min(x)`: walk left until the left child is the sentinel. -/
def _min (m : Nat → node) : Nat → Nat → Except Err Nat
  | 0, _ => .error .fuel
  | f + 1, x => if (m x).left ≠ empty_leaf then _min m f (m x).left else .ok x

/-- Function `_max(x)`: walk right until the right child is the sentinel. -/
def _max (m : Nat → node) : Nat → Nat → Except Err Nat
  | 0, _ => .error .fuel
  | f + 1, x => if (m x).right ≠ empty_leaf then _max m f (m x).right else .ok x

/-- The `while` loop of `_next`: climb while `x` is the right child of `y`. -/
def _next_loop (m : Nat → node) : Nat → Nat → Nat → Except Err Nat
  | 0, _, _ => .error .fuel
  | f + 1, x, y =>
    if y ≠ empty_leaf ∧ x = (m y).right then _next_loop m f y (m y).parent else .ok y

/-- Function `_next(x)`: the successor of `x`. -/
def _next (m : Nat → node) (fuel x : Nat) : Except Err Nat :=
  if (m x).right ≠ empty_leaf then _min m fuel (m x).right
  else _next_loop m fuel x (m x).parent

/-- The `while` loop of `_prev`: climb while `x` is the left child of `y`. -/
def _prev_loop (m : Nat → node) : Nat → Nat → Nat → Except Err Nat
  | 0, _, _ => .error .fuel
  | f + 1, x, y =>
    if y ≠ empty_leaf ∧ x = (m y).left then _prev_loop m f y (m y).parent else .ok y

/-- Function `_prev(x)`: the predecessor of `x`. -/
def _prev (m : Nat → node) (fuel x : Nat) : Except Err Nat :=
  if (m x).left ≠ empty_leaf then _max m fuel (m x).left
  else _prev_loop m fuel x (m x).parent

/-- Function `_size(x)`: number of nodes below `x`. -/
def _size (m : Nat → node) : Nat → Nat → Except Err Nat
  | 0, _ => .error .fuel
  | f + 1, x =>
    if x = empty_leaf then .ok 0
    else do
      let l ← _size m f (m x).left
      let r ← _size m f (m x).right
      pure (l + r + 1)

/-- Member `size()`. -/
def size (s : rb_tree) (fuel : Nat) : Except Err Nat :=
  _size s.mem fuel s.root

/-- Function `_rotate_left(x)`, statement by statement. -/
def _rotate_left (s : rb_tree) (x : Nat) : Except Err rb_tree :=
  if x = 0 then .error .assertion
  else if empty_leaf = (s.mem x).right then .error .assertion
  else
    let y := (s.mem x).right
    let m1 := setRight s.mem x (s.mem y).left
    let m2 := if (m1 y).left ≠ empty_leaf then setParent m1 (m1 y).left x else m1
    let m3 := setParent m2 y (m2 x).parent
    let s4 : rb_tree :=
      if (m3 x).parent = empty_leaf then { s with mem := m3, root := y }
      else if x = (m3 (m3 x).parent).left then { s with mem := setLeft m3 (m3 x).parent y }
      else { s with mem := setRight m3 (m3 x).parent y }
    let m5 := setLeft s4.mem y x
    let m6 := setParent m5 x y
    .ok { s4 with mem := m6 }

/-- Function `_rotate_right(x)`, statement by statement. -/
def _rotate_right (s : rb_tree) (x : Nat) : Except Err rb_tree :=
  if x = 0 then .error .assertion
  else if empty_leaf = (s.mem x).left then .error .assertion
  else
    let y := (s.mem x).left
    let m1 := setLeft s.mem x (s.mem y).right
    let m2 := if (m1 y).right ≠ empty_leaf then setParent m1 (m1 y).right x else m1
    let m3 := setParent m2 y (m2 x).parent
    let s4 : rb_tree :=
      if (m3 x).parent = empty_leaf then { s with mem := m3, root := y }
      else if x = (m3 (m3 x).parent).left then { s with mem := setLeft m3 (m3 x).parent y }
      else { s with mem := setRight m3 (m3 x).parent y }
    let m5 := setRight s4.mem y x
    let m6 := setParent m5 x y
    .ok { s4 with mem := m6 }

/-- One pass through the body of the `while` loop of `_rebalance_after_insert`
(lines 238-294); every path through the body returns to the loop test.  The
result is the new state and the new value of `x`. -/
def insert_step (s : rb_tree) (x : Nat) : Except Err (rb_tree × Nat) :=
  if (s.mem x).parent = (s.mem (s.mem (s.mem x).parent).parent).left then
    let u := (s.mem (s.mem (s.mem x).parent).parent).right
    if (s.mem u).color = .red then
      let m1 := setColor s.mem (s.mem (s.mem x).parent).parent .red
      let m2 := setColor m1 u .black
      let m3 := setColor m2 (m2 x).parent .black
      .ok ({ s with mem := m3 }, (m3 (m3 x).parent).parent)
    else
      let r2 : Except Err (rb_tree × Nat) :=
        if (s.mem (s.mem x).parent).right = x then
          match _rotate_left s (s.mem x).parent with
          | .ok t => .ok (t, (s.mem x).parent)
          | .error e => .error e
        else .ok (s, x)
      match r2 with
      | .error e => .error e
      | .ok (s2, x2) =>
        let m3 := setColor s2.mem (s2.mem x2).parent .black
        let m4 := setColor m3 (m3 (m3 x2).parent).parent .red
        match _rotate_right { s2 with mem := m4 } (m4 (m4 x2).parent).parent with
        | .ok t => .ok (t, x2)
        | .error e => .error e
  else
    let u := (s.mem (s.mem (s.mem x).parent).parent).left
    if (s.mem u).color = .red then
      let m1 := setColor s.mem (s.mem (s.mem x).parent).parent .red
      let m2 := setColor m1 u .black
      let m3 := setColor m2 (m2 x).parent .black
      .ok ({ s with mem := m3 }, (m3 (m3 x).parent).parent)
    else
      let r2 : Except Err (rb_tree × Nat) :=
        if (s.mem (s.mem x).parent).left = x then
          match _rotate_right s (s.mem x).parent with
          | .ok t => .ok (t, (s.mem x).parent)
          | .error e => .error e
        else .ok (s, x)
      match r2 with
      | .error e => .error e
      | .ok (s2, x2) =>
        let m3 := setColor s2.mem (s2.mem x2).parent .black
        let m4 := setColor m3 (m3 (m3 x2).parent).parent .red
        match _rotate_left { s2 with mem := m4 } (m4 (m4 x2).parent).parent with
        | .ok t => .ok (t, x2)
        | .error e => .error e

/-- Function `_rebalance_after_insert(x)`: the loop runs while
`x->parent->color != red` (line 237); after it, `root->color = black`. -/
def _rebalance_after_insert : Nat → rb_tree → Nat → Except Err rb_tree
  | 0, _, _ => .error .fuel
  | f + 1, s, x =>
    if (s.mem (s.mem x).parent).color ≠ .red then
      match insert_step s x with
      | .ok (s1, x1) => _rebalance_after_insert f s1 x1
      | .error e => .error e
    else .ok { s with mem := setColor s.mem s.root .black }

/-- Outcome of one pass through the loop body of `_rebalance_after_remove`
(lines 311-360): the new state and the new value of `x`. -/
def remove_step (s : rb_tree) (x : Nat) : Except Err (rb_tree × Nat) :=
  if x = (s.mem (s.mem x).parent).left then
    let w := (s.mem (s.mem x).parent).right
    -- 1. eset
    let r1 : Except Err (rb_tree × Nat) :=
      if (s.mem w).color = .red then
        let m1 := setColor s.mem w .black
        let m2 := setColor m1 (m1 x).parent .red
        match _rotate_left { s with mem := m2 } (m2 x).parent with
        | .ok t => .ok (t, (t.mem (t.mem x).parent).right)
        | .error e => .error e
      else .ok (s, w)
    match r1 with
    | .error e => .error e
    | .ok (s1, w1) =>
      -- 2. eset: `w->left->color == w->right->color == black`
      if (if (s1.mem (s1.mem w1).left).color = (s1.mem (s1.mem w1).right).color then 1 else 0)
          = color_t.black.val then
        let m2 := setColor s1.mem w1 .red
        .ok ({ s1 with mem := m2 }, (m2 x).parent)
      else
        -- 3. eset: `w->right == black`
        let r3 : Except Err (rb_tree × Nat) :=
          if (s1.mem w1).right = color_t.black.val then
            let m3 := setRight s1.mem w1 color_t.red.val
            let m4 := setColor m3 (m3 w1).left .black
            match _rotate_right { s1 with mem := m4 } w1 with
            | .ok t => .ok (t, (t.mem (t.mem x).parent).right)
            | .error e => .error e
          else .ok (s1, w1)
        match r3 with
        | .error e => .error e
        | .ok (s3, w3) =>
          -- 4. eset: `w->color == black && w->right == red`
          if (s3.mem w3).color = .black ∧ (s3.mem w3).right = color_t.red.val then
            let m4 := setColor s3.mem (s3.mem w3).left .black
            let m5 := setColor m4 (m4 x).parent .black
            .ok ({ s3 with mem := m5 }, x)
          else .ok (s3, x)
  else
    -- `node * w =( x->parent->left);` and nothing else
    .ok (s, x)

/-- Function `_rebalance_after_remove(x)`: the loop runs while
`x != root && x->color != red`; after it, `x->color = black`. -/
def _rebalance_after_remove : Nat → rb_tree → Nat → Except Err rb_tree
  | 0, _, _ => .error .fuel
  | f + 1, s, x =>
    if x ≠ s.root ∧ (s.mem x).color ≠ .red then
      match remove_step s x with
      | .ok (s1, x1) => _rebalance_after_remove f s1 x1
      | .error e => .error e
    else .ok { s with mem := setColor s.mem x .black }

/-- The search loop of `find` (lines 369-373), which is also the search loop of
`remove` (lines 413-417): the result is the final value of the cursor. -/
def search_loop (m : Nat → node) (k : Int) : Nat → Nat → Except Err Nat
  | 0, _ => .error .fuel
  | f + 1, x =>
    if x ≠ empty_leaf ∧ k ≠ (m x).key then
      if k < (m x).key then search_loop m k f (m x).left
      else search_loop m k f (m x).right
    else .ok x

/-- Member `find(k)`. -/
def find (s : rb_tree) (fuel : Nat) (k : Int) : Except Err Bool :=
  match search_loop s.mem k fuel s.root with
  | .ok x => .ok (decide (x ≠ empty_leaf))
  | .error e => .error e

/-- The search loop of `insert` (lines 383-389): the result is the final pair
`(y, x)`. -/
def insert_loop (m : Nat → node) (k : Int) : Nat → Nat → Nat → Except Err (Nat × Nat)
  | 0, _, _ => .error .fuel
  | f + 1, y, x =>
    if x ≠ empty_leaf ∧ k ≠ (m x).key then
      if k < (m x).key then insert_loop m k f x (m x).left
      else insert_loop m k f x (m x).right
    else .ok (y, x)

/-- Member `insert(k)`. -/
def insert (s : rb_tree) (fuel : Nat) (k : Int) : Except Err rb_tree :=
  match insert_loop s.mem k fuel empty_leaf s.root with
  | .error e => .error e
  | .ok (y, x) =>
    if x ≠ empty_leaf then .ok s
    else
      let z := s.fresh
      let m1 : Nat → node := fun a => if a = z then node.mk_red k y else s.mem a
      let s1 : rb_tree := { s with mem := m1, fresh := s.fresh + 1 }
      let s2 : rb_tree :=
        if y = empty_leaf then { s1 with root := z }
        else if (m1 z).key < (m1 y).key then { s1 with mem := setLeft m1 y z }
        else { s1 with mem := setRight m1 y z }
      _rebalance_after_insert fuel s2 z

/-- The middle of `remove` (lines 423-449): the node `y` is cut out of the tree
at the found node `z`.  The result is the state after `delete y`, the node `x`
that took the place of `y`, and the flag `y_black`. -/
def remove_splice (s : rb_tree) (fuel z : Nat) : Except Err (rb_tree × Nat × Bool) :=
  let ry : Except Err Nat :=
    if (s.mem z).left = empty_leaf ∨ (s.mem z).right = empty_leaf then .ok z
    else _next s.mem fuel z
  match ry with
  | .error e => .error e
  | .ok y =>
    let x := if (s.mem y).left ≠ empty_leaf then (s.mem y).left else (s.mem y).right
    let m1 := setParent s.mem x (s.mem y).parent
    let s2 : rb_tree :=
      if (m1 y).parent = empty_leaf then { s with mem := m1, root := x }
      else if y = (m1 (m1 y).parent).left then { s with mem := setLeft m1 (m1 y).parent x }
      else { s with mem := setRight m1 (m1 y).parent x }
    let m3 := if y ≠ z then setKey s2.mem z (s2.mem y).key else s2.mem
    let y_black : Bool := decide ((m3 y).color = .black)
    .ok ({ s2 with mem := m3 }, x, y_black)

/-- Member `remove(k)`: the search, the early return on a miss, the splice and,
when `y_black` holds, the fixup. -/
def remove (s : rb_tree) (fuel : Nat) (k : Int) : Except Err rb_tree :=
  match search_loop s.mem k fuel s.root with
  | .error e => .error e
  | .ok z =>
    if z = empty_leaf then .ok s
    else
      match remove_splice s fuel z with
      | .error e => .error e
      | .ok (s3, x, y_black) =>
        if y_black then _rebalance_after_remove fuel s3 x else .ok s3

/-- Function `_validate(x)`: the black-height of the subtree at `x`, or an
exception at the first violation. -/
def _validate (m : Nat → node) : Nat → Nat → Except Err Nat
  | 0, _ => .error .fuel
  | f + 1, x =>
    if x = empty_leaf then .ok 0
    else if (m x).color ≠ .red ∧ (m x).color ≠ .black then
      .error (.invalid_rb_tree .not_red_not_black)
    else if (m x).color = .red ∧ (m (m x).parent).color = .red then
      .error (.invalid_rb_tree .red_child_of_red)
    else
      match _validate m f (m x).left with
      | .error e => .error e
      | .ok left_black_height =>
        match _validate m f (m x).right with
        | .error e => .error e
        | .ok right_black_height =>
          if left_black_height ≠ right_black_height then
            .error (.invalid_rb_tree .black_height_differs)
          else .ok (left_black_height + (if (m x).color = .black then 1 else 0))

/-- The `while` loop of `validate` (lines 496-500) with cursor `x` and the
last key `prev`; `fuel` is what each call of `_next` receives. -/
def validate_loop (m : Nat → node) (fuel : Nat) : Nat → Nat → Int → Except Err Unit
  | 0, _, _ => .error .fuel
  | f + 1, x, prev =>
    match _next m fuel x with
    | .error e => .error e
    | .ok x1 =>
      if x1 ≠ empty_leaf then
        if ¬ (prev < (m x1).key) then .error .invalid_binary_search_tree
        else validate_loop m fuel f x1 (m x1).key
      else .ok ()

/-- The first block of `validate` (lines 493-501): the in-order walk. -/
def validate_bst (s : rb_tree) (fuel : Nat) : Except Err Unit :=
  if s.root ≠ empty_leaf then
    match _min s.mem fuel s.root with
    | .error e => .error e
    | .ok x => validate_loop s.mem fuel fuel x (s.mem x).key
  else .ok ()

/-- Member `validate()`. -/
def validate (s : rb_tree) (fuel : Nat) : Except Err Unit :=
  match validate_bst s fuel with
  | .error e => .error e
  | .ok _ =>
    if (s.mem empty_leaf).left ≠ empty_leaf ∨ (s.mem empty_leaf).right ≠ empty_leaf ∨
        (s.mem empty_leaf).color ≠ .black then
      .error (.invalid_rb_tree .empty_leaf_changed)
    else if (s.mem s.root).color ≠ .black then
      .error (.invalid_rb_tree .root_not_black)
    else
      match _validate s.mem fuel s.root with
      | .error e => .error e
      | .ok _ => .ok ()

/-- The loop `for (int e : elemek) bal.insert(e);` of the tests. -/
def insert_all (s : rb_tree) (fuel : Nat) : List Int → Except Err rb_tree
  | [] => .ok s
  | e :: es =>
    match insert s fuel e with
    | .ok s1 => insert_all s1 fuel es
    | .error err => .error err

/-- The loop of the tests that removes the keys of a list one by one. -/
def remove_all (s : rb_tree) (fuel : Nat) : List Int → Except Err rb_tree
  | [] => .ok s
  | e :: es =>
    match remove s fuel e with
    | .ok s1 => remove_all s1 fuel es
    | .error err => .error err

/-- A mutating call of the public interface. -/
inductive op where
  | insert : Int → op
  | remove : Int → op
deriving DecidableEq, Repr

/-- A sequence of mutating calls, run in order. -/
def run_ops (s : rb_tree) (fuel : Nat) : List op → Except Err rb_tree
  | [] => .ok s
  | .insert k :: os =>
    match insert s fuel k with
    | .ok s1 => run_ops s1 fuel os
    | .error err => .error err
  | .remove k :: os =>
    match remove s fuel k with
    | .ok s1 => run_ops s1 fuel os
    | .error err => .error err

/-- Reference set of the cross-check (the `std::set` of `big_random_test`):
insert adds the key, remove erases it. -/
def ref_ops (r : Finset Int) : List op → Finset Int
  | [] => r
  | .insert k :: os => ref_ops (Insert.insert k r) os
  | .remove k :: os => ref_ops (r.erase k) os

/-- A state whose memory is given by a list of cells: the cell at address `a`
is the entry number `a`.  Addresses 0 and 1 hold no node, address 2 is the
sentinel. -/
def of_list (l : List node) (root : Nat) : rb_tree :=
  { mem := fun a => l.getD a node.sentinel, root := root, fresh := l.length }

/-- The red-black tree holding the keys 1..10 that a red-black insertion of
1, 2, ..., 10 in this order builds (the tree of `test_remove`); the key `i`
is stored at address `i + 2`.

```
            4B
       2B        6B
     1B  3B    5B    8R
                   7B   9B
                          10R
```
-/
def t10 : rb_tree :=
  of_list
    [ node.sentinel, node.sentinel, node.sentinel,
      ⟨4, 2, 2, .black, 1⟩,
      ⟨6, 3, 5, .black, 2⟩,
      ⟨4, 2, 2, .black, 3⟩,
      ⟨2, 4, 8, .black, 4⟩,
      ⟨8, 2, 2, .black, 5⟩,
      ⟨6, 7, 10, .black, 6⟩,
      ⟨10, 2, 2, .black, 7⟩,
      ⟨8, 9, 11, .red, 8⟩,
      ⟨10, 2, 12, .black, 9⟩,
      ⟨11, 2, 2, .red, 10⟩ ] 6

/-- The mirror image of `t10`, holding the keys -1..-10 (the tree `jobb` of
`test_remove`); the key `-i` is stored at address `i + 2`. -/
def t10_mirror : rb_tree :=
  of_list
    [ node.sentinel, node.sentinel, node.sentinel,
      ⟨4, 2, 2, .black, -1⟩,
      ⟨6, 5, 3, .black, -2⟩,
      ⟨4, 2, 2, .black, -3⟩,
      ⟨2, 8, 4, .black, -4⟩,
      ⟨8, 2, 2, .black, -5⟩,
      ⟨6, 10, 7, .black, -6⟩,
      ⟨10, 2, 2, .black, -7⟩,
      ⟨8, 11, 9, .red, -8⟩,
      ⟨10, 12, 2, .black, -9⟩,
      ⟨11, 2, 2, .red, -10⟩ ] 6

end rb_tree

/-- Abstract shape of the nodes reachable from a pointer: colour, left
subtree, key, right subtree. -/
inductive tree where
  | nil : tree
  | node : color_t → tree → Int → tree → tree
deriving DecidableEq, Repr

namespace tree

/-- In-order key sequence. -/
def keys : tree → List Int
  | nil => []
  | node _ l k r => keys l ++ k :: keys r

/-- Number of nodes. -/
def size : tree → Nat
  | nil => 0
  | node _ l _ r => size l + size r + 1

/-- Number of nodes on the longest path from the root down to a leaf. -/
def height : tree → Nat
  | nil => 0
  | node _ l _ r => max (height l) (height r) + 1

/-- Number of edges of the right spine. -/
def rlen : tree → Nat
  | nil => 0
  | node _ _ _ nil => 0
  | node _ _ _ r => rlen r + 1

/-- Colour of the root; the empty tree is a (black) leaf. -/
def root_color : tree → color_t
  | nil => .black
  | node c _ _ _ => c

/-- No red node has a red parent: both children of a red node are black. -/
def no_red_red : tree → Prop
  | nil => True
  | node c l _ r =>
    (c = .red → root_color l = .black ∧ root_color r = .black) ∧ no_red_red l ∧ no_red_red r

/-- Decision procedure for `no_red_red`. -/
instance no_red_red_dec : ∀ (t : tree), Decidable (no_red_red t)
  | nil => inferInstanceAs (Decidable True)
  | node _ l _ r =>
    @instDecidableAnd _ _ inferInstance
      (@instDecidableAnd _ _ (no_red_red_dec l) (no_red_red_dec r))

/-- Black-height: the number of black nodes on the leftmost path. -/
def black_height : tree → Nat
  | nil => 0
  | node c l _ _ => black_height l + (if c = .black then 1 else 0)

/-- At every node the left and the right subtree have equal black-height. -/
def balanced : tree → Prop
  | nil => True
  | node _ l _ r => black_height l = black_height r ∧ balanced l ∧ balanced r

/-- Decision procedure for `balanced`. -/
instance balanced_dec : ∀ (t : tree), Decidable (balanced t)
  | nil => inferInstanceAs (Decidable True)
  | node _ l _ r =>
    @instDecidableAnd _ _ inferInstance
      (@instDecidableAnd _ _ (balanced_dec l) (balanced_dec r))

/-- The checks of `_validate` on a subtree whose parent has colour `pc`. -/
def rb_ok : color_t → tree → Prop
  | _, nil => True
  | pc, node c l _ r =>
    ¬ (c = .red ∧ pc = .red) ∧ rb_ok c l ∧ rb_ok c r ∧ black_height l = black_height r

end tree

namespace rb_tree

/-- The nodes reachable from `p` through `left` and `right` form the tree `t`:
colours and keys are those of `t`, and the sentinel stands for every leaf. -/
def is_tree (m : Nat → node) : tree → Nat → Prop
  | .nil, p => p = empty_leaf
  | .node c l k r, p =>
    p ≠ empty_leaf ∧ (m p).color = c ∧ (m p).key = k ∧
      is_tree m l (m p).left ∧ is_tree m r (m p).right

/-- Parent links of the tree `t` at `p`, whose parent is `par`: every node
points back to its parent, and the two children of a node are different nodes
unless both are the sentinel. -/
def linked (m : Nat → node) : tree → Nat → Nat → Prop
  | .nil, _, _ => True
  | .node _ l _ r, p, par =>
    (m p).parent = par ∧ ((m p).left = (m p).right → (m p).left = empty_leaf) ∧
      linked m l (m p).left p ∧ linked m r (m p).right p

/-- Decision procedure for `is_tree`. -/
instance is_tree_dec (m : Nat → node) : ∀ (t : tree) (p : Nat), Decidable (is_tree m t p)
  | .nil, p => inferInstanceAs (Decidable (p = empty_leaf))
  | .node _ l _ r, p =>
    @instDecidableAnd _ _ inferInstance
      (@instDecidableAnd _ _ inferInstance
        (@instDecidableAnd _ _ inferInstance
          (@instDecidableAnd _ _ (is_tree_dec m l (m p).left) (is_tree_dec m r (m p).right))))

/-- Decision procedure for `linked`. -/
instance linked_dec (m : Nat → node) : ∀ (t : tree) (p par : Nat), Decidable (linked m t p par)
  | .nil, _, _ => inferInstanceAs (Decidable True)
  | .node _ l _ r, p, _ =>
    @instDecidableAnd _ _ inferInstance
      (@instDecidableAnd _ _ inferInstance
        (@instDecidableAnd _ _ (linked_dec m l (m p).left p) (linked_dec m r (m p).right p)))

/-- A well-formed tree: the nodes reachable from the root form the tree `t`,
each child's parent link points back to its parent, and the parent of the root
is the sentinel. -/
def well_formed (s : rb_tree) (t : tree) : Prop :=
  is_tree s.mem t s.root ∧ linked s.mem t s.root empty_leaf

/-- Decision procedure for `well_formed`. -/
instance well_formed_dec (s : rb_tree) (t : tree) : Decidable (well_formed s t) :=
  inferInstanceAs (Decidable (is_tree s.mem t s.root ∧ linked s.mem t s.root empty_leaf))

/-- Address of the leftmost node of the tree `t` at `p`, or `d` for the empty
tree. -/
def first (m : Nat → node) : tree → Nat → Nat → Nat
  | .nil, _, d => d
  | .node _ l _ _, p, _ => first m l (m p).left p

/-- Address of the rightmost node of the tree `t` at `p`, or `d` for the empty
tree. -/
def last (m : Nat → node) : tree → Nat → Nat → Nat
  | .nil, _, d => d
  | .node _ _ _ r, p, _ => last m r (m p).right p

/-- The invariants that `validate` checks, on a well-formed tree `t` of
state `s`: strictly increasing in-order keys, an intact black sentinel, a black
root, no red node with a red parent, equal black-heights. -/
def invariants (s : rb_tree) (t : tree) : Prop :=
  t.keys.Sorted (· < ·) ∧
    ((s.mem empty_leaf).color = .black ∧ (s.mem empty_leaf).left = empty_leaf ∧
      (s.mem empty_leaf).right = empty_leaf) ∧
    (s.mem s.root).color = .black ∧ t.no_red_red ∧ t.balanced

/-- Decision procedure for `invariants`. -/
instance invariants_dec (s : rb_tree) (t : tree) : Decidable (invariants s t) :=
  inferInstanceAs (Decidable (t.keys.Sorted (· < ·) ∧
    ((s.mem empty_leaf).color = .black ∧ (s.mem empty_leaf).left = empty_leaf ∧
      (s.mem empty_leaf).right = empty_leaf) ∧
    (s.mem s.root).color = .black ∧ t.no_red_red ∧ t.balanced))

/-- The two exception classes of `exceptions.hpp` that `validate` throws. -/
def is_exception : Err → Bool
  | .invalid_binary_search_tree => true
  | .invalid_rb_tree _ => true
  | _ => false

/-- Shape of `t10`. -/
def t10_shape : tree :=
  .node .black
    (.node .black (.node .black .nil 1 .nil) 2 (.node .black .nil 3 .nil))
    4
    (.node .black (.node .black .nil 5 .nil) 6
      (.node .red (.node .black .nil 7 .nil) 8
        (.node .black .nil 9 (.node .red .nil 10 .nil))))

end rb_tree

namespace rb_tree

/-- The one-node tree: a black root holding 10 at address 3 (what a red-black
insertion of 10 into the empty tree gives). -/
def t1 : rb_tree :=
  of_list [node.sentinel, node.sentinel, node.sentinel, ⟨2, 2, 2, .black, 10⟩] 3

/-- The tree of three black nodes 1, 2, 3 with root 2; the key `i` is stored at
address `i + 2`. -/
def t3 : rb_tree :=
  of_list
    [ node.sentinel, node.sentinel, node.sentinel,
      ⟨4, 2, 2, .black, 1⟩,
      ⟨2, 3, 5, .black, 2⟩,
      ⟨4, 2, 2, .black, 3⟩ ] 4

/-- The state of `insert(k)` on the empty tree at the call of
`_rebalance_after_insert(z)`: the new red node `z` at address 3 is the root. -/
def attached_root (k : Int) : rb_tree :=
  { mem := fun a => if a = 3 then node.mk_red k empty_leaf else node.sentinel,
    root := 3, fresh := 4 }

/-- The walk that `validate` uses, as a list: starting at `x`, the nodes
visited by repeated `_next` until the sentinel is reached. -/
def walk_loop (m : Nat → node) (fuel : Nat) : Nat → Nat → Except Err (List Nat)
  | 0, _ => .error .fuel
  | f + 1, x =>
    if x = empty_leaf then .ok []
    else
      match _next m fuel x with
      | .error e => .error e
      | .ok x1 =>
        match walk_loop m fuel f x1 with
        | .error e => .error e
        | .ok l => .ok (x :: l)

/-- The in-order walk of the whole tree: from `_min(root)` by `_next`. -/
def walk (s : rb_tree) (fuel : Nat) : Except Err (List Nat) :=
  if s.root = empty_leaf then .ok []
  else
    match _min s.mem fuel s.root with
    | .error e => .error e
    | .ok x => walk_loop s.mem fuel fuel x

/-- Key sequence of the in-order walk. -/
def walk_keys (s : rb_tree) (fuel : Nat) : Except Err (List Int) :=
  match walk s fuel with
  | .error e => .error e
  | .ok l => .ok (l.map (fun a => (s.mem a).key))

end rb_tree

namespace rb_tree

/-- Addresses of the nodes of the tree `t` at `p`, in in-order. -/
def addrs (m : Nat → node) : tree → Nat → List Nat
  | .nil, _ => []
  | .node _ l _ r, p => addrs m l (m p).left ++ p :: addrs m r (m p).right

/-- In the list `L` every node is followed by its `_next`, and the `_next` of
the last node is `q`. -/
def next_chain (m : Nat → node) (G : Nat) : List Nat → Nat → Prop
  | [], _ => True
  | [a], q => _next m G a = .ok q
  | a :: b :: rest, q => _next m G a = .ok b ∧ next_chain m G (b :: rest) q

end rb_tree

namespace rb_tree

/-- The tree `t` at `p` with the subtree at address `x` replaced by `u`. -/
def replace_at (m : Nat → node) (x : Nat) (u : tree) : tree → Nat → tree
  | .nil, _ => .nil
  | .node c l k r, p =>
    if p = x then u
    else .node c (replace_at m x u l (m p).left) k (replace_at m x u r (m p).right)

end rb_tree

namespace rb_tree

/-- The tree `t` with the colour of its root set to `c`. -/
def recol (c : color_t) : tree → tree
  | .nil => .nil
  | .node _ l k r => .node c l k r

end rb_tree

namespace rb_tree

/-- The node `y` that `remove` cuts out of the tree when its search ended at
`z` (lines 424-428): `z` itself if it has at most one real child, otherwise
the successor of `z`. -/
def removed_node (s : rb_tree) (fuel z : Nat) : Except Err Nat :=
  if (s.mem z).left = empty_leaf ∨ (s.mem z).right = empty_leaf then .ok z
  else _next s.mem fuel z

/-- What the splice of `remove` (lines 436-445) leaves in the memory `m1`, given
the memory `m` before it: the node `x` got the parent `q` of `y`, the node `q`
got `x` in the place of `y`, the node `z` got the key of `y` when `y` is not
`z`, and nothing else changed. -/
def splice_spec (m m1 : Nat → node) (z y x q : Nat) : Prop :=
  (∀ a, a ≠ x → (a ≠ q ∨ q = empty_leaf) → (a ≠ z ∨ y = z) → m1 a = m a) ∧
    ((x ≠ q ∨ q = empty_leaf) → (x ≠ z ∨ y = z) →
      (m1 x).left = (m x).left ∧ (m1 x).right = (m x).right ∧ (m1 x).key = (m x).key ∧
        (m1 x).parent = q) ∧
    (q ≠ empty_leaf → q ≠ x → (q ≠ z ∨ y = z) →
      m1 q = (if y = (m q).left then { m q with left := x } else { m q with right := x })) ∧
    (y ≠ z → z ≠ x → (z ≠ q ∨ q = empty_leaf) → m1 z = { m z with key := (m y).key }) ∧
    (y ≠ z → z = q → q ≠ empty_leaf → q ≠ x →
      m1 z = (if y = (m q).left then { m q with left := x, key := (m y).key }
        else { m q with right := x, key := (m y).key }))

end rb_tree

/-! ## Theorems -/

namespace rb_tree

/-! ### Evaluation of `insert` on the empty tree -/

theorem insert_empty_eq (fuel : Nat) (k : Int) :
    insert empty (fuel + 1) k = .error .assertion := rfl

theorem insert_all_empty_cons (fuel : Nat) (k : Int) (ks : List Int) :
    insert_all empty (fuel + 1) (k :: ks) = .error .assertion := by
  simp only [insert_all, insert_empty_eq]

/-! ### The two search loops agree -/

theorem insert_loop_snd (m : Nat → node) (k : Int) :
    ∀ (f y x : Nat), (insert_loop m k f y x).map Prod.snd = search_loop m k f x := by
  intro f
  induction f with
  | zero => intro y x; rfl
  | succ f ih =>
    intro y x
    simp only [insert_loop, search_loop]
    split
    · split
      · exact ih _ _
      · exact ih _ _
    · rfl

theorem insert_loop_of_search (m : Nat → node) (k : Int) (f y x z : Nat)
    (h : search_loop m k f x = .ok z) : ∃ y1, insert_loop m k f y x = .ok (y1, z) := by
  have h1 := insert_loop_snd m k f y x
  rw [h] at h1
  cases h2 : insert_loop m k f y x with
  | error e => rw [h2] at h1; cases h1
  | ok r =>
    rw [h2] at h1
    obtain ⟨y1, z1⟩ := r
    refine ⟨y1, ?_⟩
    have h3 : z1 = z := by
      simpa [Except.map] using h1
    rw [h3]

theorem find_eq_ok (s : rb_tree) (fuel : Nat) (k : Int) (b : Bool)
    (h : find s fuel k = .ok b) :
    ∃ x, search_loop s.mem k fuel s.root = .ok x ∧ b = decide (x ≠ empty_leaf) := by
  unfold find at h
  cases h1 : search_loop s.mem k fuel s.root with
  | error e => rw [h1] at h; cases h
  | ok x =>
    rw [h1] at h
    refine ⟨x, rfl, ?_⟩
    cases h
    rfl

/-! ### Fixup loops that make no progress -/

theorem fixup_stuck (s : rb_tree) (x : Nat) (h1 : x ≠ s.root ∧ (s.mem x).color ≠ .red)
    (h2 : remove_step s x = .ok (s, x)) :
    ∀ f, _rebalance_after_remove f s x = .error .fuel := by
  intro f
  induction f with
  | zero => rfl
  | succ f ih => simp only [_rebalance_after_remove, if_pos h1, h2, ih]

theorem fixup_stuck_after (s : rb_tree) (x : Nat) (s1 : rb_tree) (x1 : Nat)
    (h0 : x ≠ s.root ∧ (s.mem x).color ≠ .red) (hs : remove_step s x = .ok (s1, x1))
    (h1 : x1 ≠ s1.root ∧ (s1.mem x1).color ≠ .red)
    (h2 : remove_step s1 x1 = .ok (s1, x1)) :
    ∀ f, _rebalance_after_remove f s x = .error .fuel := by
  intro f
  cases f with
  | zero => rfl
  | succ f => simp only [_rebalance_after_remove, if_pos h0, hs, fixup_stuck s1 x1 h1 h2 f]

theorem remove_stuck_after (s : rb_tree) (fuel : Nat) (k : Int) (z : Nat) (s3 : rb_tree)
    (x : Nat) (s4 : rb_tree) (x4 : Nat)
    (hz : search_loop s.mem k fuel s.root = .ok z) (hne : z ≠ empty_leaf)
    (hc : remove_splice s fuel z = .ok (s3, x, true))
    (h0 : x ≠ s3.root ∧ (s3.mem x).color ≠ .red) (hs : remove_step s3 x = .ok (s4, x4))
    (h1 : x4 ≠ s4.root ∧ (s4.mem x4).color ≠ .red)
    (h2 : remove_step s4 x4 = .ok (s4, x4)) : remove s fuel k = .error .fuel := by
  simp only [remove, hz, if_neg hne, hc, if_true,
    fixup_stuck_after s3 x s4 x4 h0 hs h1 h2 fuel]

/-! ### C1 -/

/-- C1, the code at the failing inputs: `validate()` succeeds on the empty tree,
but `insert(k)` into the empty tree stops at the failed assertion of
`_rotate_right` (called on the sentinel), for every key `k`; so does the first
call of the test sequence 10, 5, 11, 1, 7, 0 and of the mirrored sequence.
On the valid tree holding 1..10, `insert(11)` returns (the parent of the new
node is red, so the loop is not entered) and `validate()` then throws. -/
theorem insert_empty_fails_assertion (fuel : Nat) (k : Int) :
    validate empty (fuel + 1) = .ok () ∧
      insert empty (fuel + 1) k = .error .assertion ∧
      insert_all empty (fuel + 1) [10, 5, 11, 1, 7, 0] = .error .assertion ∧
      insert_all empty (fuel + 1) [-10, -5, -11, -1, -7, 0] = .error .assertion ∧
      validate t10 (fuel + 11) = .ok () ∧
      (insert t10 (fuel + 12) 11).bind (fun s => validate s (fuel + 12)) =
        .error (.invalid_rb_tree .red_child_of_red) :=
  ⟨rfl, rfl, insert_all_empty_cons _ _ _, insert_all_empty_cons _ _ _, rfl, rfl⟩

/-! ### C2 -/

/-- C2, the code at the failing input: `validate()` succeeds on the tree
holding 1..10, and after `remove(7)` it throws `invalid_rb_tree` (a red node
with a red parent); on the mirrored tree `validate()` succeeds and
`remove(-7)` runs out of every amount of fuel. -/
theorem remove_seven_breaks_validate :
    (∀ fuel, validate t10 (fuel + 11) = .ok ()) ∧
      (∀ fuel, (remove t10 (fuel + 11) 7).bind (fun s => validate s (fuel + 11)) =
        .error (.invalid_rb_tree .red_child_of_red)) ∧
      (∀ fuel, validate t10_mirror (fuel + 11) = .ok ()) ∧
      (∀ fuel, remove t10_mirror fuel (-7) = .error .fuel) := by
  refine ⟨fun _ => rfl, fun _ => rfl, fun _ => rfl, ?_⟩
  intro fuel
  rcases fuel with _ | _ | _ | _ | n
  · rfl
  · rfl
  · rfl
  · rfl
  · exact remove_stuck_after t10_mirror (n + 4) (-7) 9 _ _ _ _ rfl (by decide) rfl
      (by decide) rfl (by decide) rfl

/-! ### C3 -/

/-- C3, the code at the failing input: `insert(k)` followed by `find(k)` on the
empty tree stops at the failed assertion inside `insert`, for every key `k`;
the same happens for `insert(0)` on the valid tree holding 1..10. -/
theorem insert_then_find_fails (fuel : Nat) (k : Int) :
    (insert empty (fuel + 1) k).bind (fun s => find s (fuel + 1) k) = .error .assertion ∧
      (insert t10 (fuel + 4) 0).bind (fun s => find s (fuel + 4) 0) = .error .assertion :=
  ⟨rfl, rfl⟩

/-! ### C4 -/

/-- C4, the code at the failing input: on the valid tree holding 1..10,
`remove(5)` never returns: it runs out of every amount of fuel (the fixup loop
repeats in the same state), so no `find` is ever answered afterwards. -/
theorem remove_five_diverges :
    (∀ fuel, validate t10 (fuel + 11) = .ok ()) ∧
      (∀ fuel, remove t10 fuel 5 = .error .fuel) := by
  refine ⟨fun _ => rfl, ?_⟩
  intro fuel
  rcases fuel with _ | _ | _ | _ | n
  · rfl
  · rfl
  · rfl
  · rfl
  · exact remove_stuck_after t10 (n + 4) 5 7 _ _ _ _ rfl (by decide) rfl
      (by decide) rfl (by decide) rfl

/-! ### C5 -/

theorem keys_sorted_node {c : color_t} {l r : tree} {k : Int}
    (h : (tree.node c l k r).keys.Sorted (· < ·)) :
    l.keys.Sorted (· < ·) ∧ r.keys.Sorted (· < ·) ∧ (∀ a ∈ l.keys, a < k) ∧
      (∀ b ∈ r.keys, k < b) := by
  have h1 : (l.keys ++ k :: r.keys).Pairwise (· < ·) := h
  rw [List.pairwise_append, List.pairwise_cons] at h1
  obtain ⟨hl, ⟨hk, hr⟩, hlr⟩ := h1
  exact ⟨hl, hr, fun a ha => hlr a ha k (List.mem_cons_self _ _), hk⟩

theorem search_loop_spec (m : Nat → node) (k : Int) :
    ∀ (t : tree) (p fuel : Nat), is_tree m t p → t.keys.Sorted (· < ·) → t.height < fuel →
      ∃ x, search_loop m k fuel p = .ok x ∧ (x ≠ empty_leaf ↔ k ∈ t.keys) := by
  intro t
  induction t with
  | nil =>
    intro p fuel hp _ hf
    obtain ⟨f, rfl⟩ : ∃ f, fuel = f + 1 := ⟨fuel - 1, by omega⟩
    have hp1 : p = empty_leaf := hp
    refine ⟨p, ?_, ?_⟩
    · simp only [search_loop, hp1, ne_eq, not_true_eq_false, false_and, if_false]
    · simp [hp1, tree.keys]
  | node c l kk r ihl ihr =>
    intro p fuel hp hs hf
    obtain ⟨f, rfl⟩ : ∃ f, fuel = f + 1 := ⟨fuel - 1, by omega⟩
    obtain ⟨hne, _, hkey, hl, hr⟩ := hp
    obtain ⟨hsl, hsr, hlt, hgt⟩ := keys_sorted_node hs
    simp only [tree.height] at hf
    by_cases hk : k = kk
    · refine ⟨p, ?_, ?_⟩
      · simp only [search_loop, hkey, hk, ne_eq, not_true_eq_false, and_false, if_false]
      · simp [hne, tree.keys, hk]
    · have hcond : p ≠ empty_leaf ∧ k ≠ kk := ⟨hne, hk⟩
      by_cases hlt1 : k < kk
      · obtain ⟨x, hx, hiff⟩ := ihl (m p).left f hl hsl (by omega)
        refine ⟨x, ?_, ?_⟩
        · simp only [search_loop, if_pos hcond, hkey, if_pos hlt1, hx]
        · rw [hiff]
          simp only [tree.keys, List.mem_append, List.mem_cons]
          constructor
          · intro h; exact Or.inl h
          · rintro (h | h | h)
            · exact h
            · exact absurd h hk
            · have := hgt k h
              omega
      · obtain ⟨x, hx, hiff⟩ := ihr (m p).right f hr hsr (by omega)
        refine ⟨x, ?_, ?_⟩
        · simp only [search_loop, if_pos hcond, hkey, if_neg hlt1, hx]
        · rw [hiff]
          simp only [tree.keys, List.mem_append, List.mem_cons]
          constructor
          · intro h; exact Or.inr (Or.inr h)
          · rintro (h | h | h)
            · have := hlt k h
              omega
            · exact absurd h hk
            · exact h

/-- C5: on a tree whose in-order key sequence is strictly increasing, `find(k)`
returns (with fuel above the height) and its result is true exactly when some
node of the tree holds `k`. -/
theorem find_correct (s : rb_tree) (t : tree) (k : Int) (fuel : Nat)
    (ht : is_tree s.mem t s.root) (hs : t.keys.Sorted (· < ·)) (hf : t.height < fuel) :
    find s fuel k = .ok (decide (k ∈ t.keys)) := by
  obtain ⟨x, hx, hiff⟩ := search_loop_spec s.mem k t s.root fuel ht hs hf
  simp only [find, hx]
  congr 1
  simp only [decide_eq_decide]
  exact hiff

theorem find_correct_witness :
    is_tree t10.mem t10_shape t10.root ∧ t10_shape.keys.Sorted (· < ·) ∧
      t10_shape.height < 6 ∧ find t10 6 7 = .ok (decide ((7 : Int) ∈ t10_shape.keys)) :=
  ⟨by decide, by decide, by decide, find_correct t10 t10_shape 7 6 (by decide) (by decide) (by decide)⟩

/-! ### C6 -/

/-- C6, the code at the failing input: for every non-empty list of keys
`k :: ks` and every removal order `rs`, inserting the keys into the empty tree
and then removing stops at the failed assertion inside the first `insert`. -/
theorem round_trip_fails (fuel : Nat) (k : Int) (ks rs : List Int) :
    (insert_all empty (fuel + 1) (k :: ks)).bind (fun s => remove_all s (fuel + 1) rs) =
      .error .assertion := by
  rw [insert_all_empty_cons]
  rfl

/-! ### C7 -/

theorem remove_empty_eq (fuel : Nat) (k : Int) :
    remove empty (fuel + 1) k = .ok empty := rfl

/-- C7, the code at the failing input: a sequence of calls on the empty tree
that starts with removals (no-ops) and then inserts a key stops at the failed
assertion inside that `insert`, while the reference set of `[insert 10]` has
one element. -/
theorem cross_check_fails (fuel : Nat) (rs : List Int) (k : Int) (os : List op) :
    run_ops empty (fuel + 1) (rs.map op.remove ++ op.insert k :: os) = .error .assertion ∧
      (ref_ops ∅ [op.insert 10]).card = 1 := by
  refine ⟨?_, rfl⟩
  induction rs with
  | nil => simp only [List.map, List.nil_append, run_ops, insert_empty_eq]
  | cons r rs ih =>
    simp only [List.map, List.cons_append, run_ops, remove_empty_eq]
    exact ih

/-! ### C8 -/

/-- C8: if `find(k)` is true (the search reaches a node holding `k`), then
`insert(k)` returns the state unchanged: same memory (nodes, links, colours,
sentinel), same root; hence `size()` and every `find` are unchanged. -/
theorem insert_duplicate_noop (s : rb_tree) (fuel : Nat) (k : Int)
    (h : find s fuel k = .ok true) : insert s fuel k = .ok s := by
  obtain ⟨x, hx, hb⟩ := find_eq_ok s fuel k true h
  obtain ⟨y1, hy⟩ := insert_loop_of_search s.mem k fuel empty_leaf s.root x hx
  have hne : x ≠ empty_leaf := by
    simpa using hb.symm
  simp only [insert, hy, if_pos hne]

theorem insert_duplicate_noop_witness :
    find t10 4 7 = .ok true ∧ insert t10 4 7 = .ok t10 :=
  ⟨rfl, insert_duplicate_noop t10 4 7 rfl⟩

/-! ### C9 -/

/-- C9: if `find(k)` is false (the search reaches the sentinel), then
`remove(k)` returns the state unchanged: same memory (nodes, links, colours and
the sentinel's fields) and same root; hence `validate()` gives the same outcome
after the call as before. -/
theorem remove_absent_noop (s : rb_tree) (fuel : Nat) (k : Int)
    (h : find s fuel k = .ok false) :
    remove s fuel k = .ok s ∧
      ∀ f, (remove s fuel k).bind (fun s1 => validate s1 f) = validate s f := by
  obtain ⟨x, hx, hb⟩ := find_eq_ok s fuel k false h
  have he : x = empty_leaf := by
    simpa using hb.symm
  have hr : remove s fuel k = .ok s := by
    simp only [remove, hx, if_pos he]
  refine ⟨hr, fun f => ?_⟩
  rw [hr]
  rfl

theorem remove_absent_noop_witness :
    find t10 6 11 = .ok false ∧ remove t10 6 11 = .ok t10 :=
  ⟨rfl, (remove_absent_noop t10 6 11 rfl).1⟩

/-! ### C10: the in-order walk of `validate` -/

theorem is_tree_root_eq_iff (m : Nat → node) (t : tree) (p : Nat) (h : is_tree m t p) :
    p = empty_leaf ↔ t = .nil := by
  cases t with
  | nil => exact ⟨fun _ => rfl, fun _ => h⟩
  | node c l k r => exact ⟨fun hp => absurd hp h.1, fun ht => by cases ht⟩

theorem size_pos_of_ne_nil (t : tree) (h : t ≠ .nil) : 0 < t.size := by
  cases t with
  | nil => exact absurd rfl h
  | node c l k r => simp only [tree.size]; omega

theorem rlen_lt_size (t : tree) (h : t ≠ .nil) : t.rlen < t.size := by
  induction t with
  | nil => exact absurd rfl h
  | node c l k r _ ihr =>
    cases r with
    | nil => simp only [tree.rlen, tree.size]; omega
    | node c2 l2 k2 r2 =>
      have := ihr (by simp)
      simp only [tree.rlen, tree.size] at this ⊢
      omega

theorem first_ne (m : Nat → node) :
    ∀ (t : tree) (p d : Nat), is_tree m t p → d ≠ empty_leaf → first m t p d ≠ empty_leaf := by
  intro t
  induction t with
  | nil => intro p d _ hd; exact hd
  | node c l k r ihl _ =>
    intro p d hp _
    exact ihl (m p).left p hp.2.2.2.1 hp.1

theorem min_eq_first (m : Nat → node) :
    ∀ (t : tree) (p d G : Nat), is_tree m t p → t ≠ .nil → t.size ≤ G →
      _min m G p = .ok (first m t p d) := by
  intro t
  induction t with
  | nil => intro p d G _ h; exact absurd rfl h
  | node c l k r ihl _ =>
    intro p d G hp _ hG
    obtain ⟨G1, rfl⟩ : ∃ G1, G = G1 + 1 := ⟨G - 1, by simp only [tree.size] at hG; omega⟩
    simp only [tree.size] at hG
    obtain ⟨_, _, _, hl, _⟩ := hp
    cases l with
    | nil =>
      have h0 : (m p).left = empty_leaf := hl
      simp only [_min, first, h0, ne_eq, not_true_eq_false, if_false]
    | node c2 l2 k2 r2 =>
      have h0 : (m p).left ≠ empty_leaf := hl.1
      simp only [_min, if_pos h0]
      exact ihl (m p).left p G1 hl (by simp) (by omega)

theorem next_last (m : Nat → node) :
    ∀ (t : tree) (p par d G : Nat), is_tree m t p → linked m t p par → t ≠ .nil →
      t.rlen < G → _next m G (last m t p d) = _next_loop m (G - t.rlen) p par := by
  intro t
  induction t with
  | nil => intro p par d G _ _ h; exact absurd rfl h
  | node c l k r _ ihr =>
    intro p par d G hp hlk _ hG
    obtain ⟨hne, _, _, _, hr⟩ := hp
    obtain ⟨hpar, _, _, hlr⟩ := hlk
    cases r with
    | nil =>
      have h0 : (m p).right = empty_leaf := hr
      simp only [last, _next, h0, ne_eq, not_true_eq_false, if_false, hpar, tree.rlen,
        Nat.sub_zero]
    | node c2 l2 k2 r2 =>
      have ih := ihr (m p).right p p G hr hlr (by simp)
        (by simp only [tree.rlen] at hG ⊢; omega)
      have hlast : last m (.node c l k (.node c2 l2 k2 r2)) p d
          = last m (.node c2 l2 k2 r2) (m p).right p := rfl
      rw [hlast, ih]
      have hrl : (tree.node c l k (.node c2 l2 k2 r2)).rlen = (tree.node c2 l2 k2 r2).rlen + 1 :=
        rfl
      rw [hrl]
      obtain ⟨G1, hG1⟩ : ∃ G1, G - (tree.node c2 l2 k2 r2).rlen = G1 + 1 :=
        ⟨G - (tree.node c2 l2 k2 r2).rlen - 1, by rw [hrl] at hG; omega⟩
      have hG2 : G - ((tree.node c2 l2 k2 r2).rlen + 1) = G1 := by omega
      have hcond : p ≠ empty_leaf ∧ (m p).right = (m p).right := ⟨hne, rfl⟩
      rw [hG1, hG2]
      show (if p ≠ empty_leaf ∧ (m p).right = (m p).right then _next_loop m G1 p (m p).parent
        else Except.ok p) = _next_loop m G1 p par
      rw [if_pos hcond, hpar]

theorem keys_first (m : Nat → node) :
    ∀ (t : tree) (p d : Nat), is_tree m t p → t ≠ .nil →
      ∃ tl, t.keys = (m (first m t p d)).key :: tl := by
  intro t
  induction t with
  | nil => intro p d _ h; exact absurd rfl h
  | node c l k r ihl _ =>
    intro p d hp _
    obtain ⟨_, _, hkey, hl, _⟩ := hp
    cases l with
    | nil => exact ⟨r.keys, by simp only [tree.keys, first, hkey, List.nil_append]⟩
    | node c2 l2 k2 r2 =>
      obtain ⟨tl, htl⟩ := ihl (m p).left p hl (by simp)
      refine ⟨tl ++ k :: r.keys, ?_⟩
      have hfirst : first m (.node c (.node c2 l2 k2 r2) k r) p d
          = first m (.node c2 l2 k2 r2) (m p).left p := rfl
      rw [hfirst]
      have hk : (tree.node c (.node c2 l2 k2 r2) k r).keys
          = (tree.node c2 l2 k2 r2).keys ++ k :: r.keys := rfl
      rw [hk, htl]
      rfl

theorem keys_last (m : Nat → node) :
    ∀ (t : tree) (p d : Nat), is_tree m t p → t ≠ .nil →
      ∃ init, t.keys = init ++ [(m (last m t p d)).key] := by
  intro t
  induction t with
  | nil => intro p d _ h; exact absurd rfl h
  | node c l k r _ ihr =>
    intro p d hp _
    obtain ⟨_, _, hkey, _, hr⟩ := hp
    cases r with
    | nil => exact ⟨l.keys, by simp only [tree.keys, last, hkey]⟩
    | node c2 l2 k2 r2 =>
      obtain ⟨init, hinit⟩ := ihr (m p).right p hr (by simp)
      refine ⟨l.keys ++ k :: init, ?_⟩
      have hlast : last m (.node c l k (.node c2 l2 k2 r2)) p d
          = last m (.node c2 l2 k2 r2) (m p).right p := rfl
      rw [hlast]
      have hk : (tree.node c l k (.node c2 l2 k2 r2)).keys
          = l.keys ++ k :: (tree.node c2 l2 k2 r2).keys := rfl
      rw [hk, hinit]
      simp only [List.append_assoc, List.cons_append]

theorem next_of_last_left (m : Nat → node) (c : color_t) (l r : tree) (k : Int) (p par G : Nat)
    (hp : is_tree m (.node c l k r) p) (hlk : linked m (.node c l k r) p par)
    (hl : l ≠ .nil) (hG : l.size ≤ G) :
    _next m G (last m l (m p).left p) = .ok p := by
  obtain ⟨hne, _, _, hl1, _⟩ := hp
  obtain ⟨_, hdist, hll, _⟩ := hlk
  have hrl := rlen_lt_size l hl
  rw [next_last m l (m p).left p p G hl1 hll hl (by omega)]
  obtain ⟨G1, hG1⟩ : ∃ G1, G - l.rlen = G1 + 1 := ⟨G - l.rlen - 1, by omega⟩
  rw [hG1]
  have hlne : (m p).left ≠ empty_leaf := fun h => hl ((is_tree_root_eq_iff m l _ hl1).1 h)
  have hcond : ¬ (p ≠ empty_leaf ∧ (m p).left = (m p).right) := fun h => hlne (hdist h.2)
  simp only [_next_loop, if_neg hcond]

theorem next_of_node_right (m : Nat → node) (c : color_t) (l r : tree) (k : Int) (p G : Nat)
    (hp : is_tree m (.node c l k r) p) (hr : r ≠ .nil) (hG : r.size ≤ G) :
    _next m G p = .ok (first m r (m p).right p) := by
  obtain ⟨_, _, _, _, hr1⟩ := hp
  have hrne : (m p).right ≠ empty_leaf := fun h => hr ((is_tree_root_eq_iff m r _ hr1).1 h)
  simp only [_next, if_pos hrne]
  exact min_eq_first m r (m p).right p G hr1 hr hG

theorem next_of_last_root (m : Nat → node) (t : tree) (p G : Nat)
    (hp : is_tree m t p) (hlk : linked m t p empty_leaf) (ht : t ≠ .nil) (hG : t.size ≤ G) :
    _next m G (last m t p empty_leaf) = .ok empty_leaf := by
  have hrl := rlen_lt_size t ht
  rw [next_last m t p empty_leaf empty_leaf G hp hlk ht (by omega)]
  obtain ⟨G1, hG1⟩ : ∃ G1, G - t.rlen = G1 + 1 := ⟨G - t.rlen - 1, by omega⟩
  rw [hG1]
  simp only [_next_loop, ne_eq, not_true_eq_false, false_and, if_false]

theorem chain_snoc (init : List Int) (x k : Int) :
    (init ++ [x] ++ [k]).Chain' (· < ·) ↔ (init ++ [x]).Chain' (· < ·) ∧ x < k := by
  rw [List.append_assoc, List.singleton_append, List.chain'_split, List.chain'_pair]

theorem walk_left (m : Nat → node) (G : Nat) (c : color_t) (l r : tree) (k : Int) (p par : Nat)
    (hp : is_tree m (.node c l k r) p) (hlk : linked m (.node c l k r) p par)
    (hG : l.size ≤ G)
    (ih : ∀ f, l ≠ .nil →
      validate_loop m G (f + (l.size - 1)) (first m l (m p).left p)
          (m (first m l (m p).left p)).key
        = if l.keys.Chain' (· < ·) then
            validate_loop m G f (last m l (m p).left p) (m (last m l (m p).left p)).key
          else .error .invalid_binary_search_tree) (f : Nat) :
    validate_loop m G (f + l.size) (first m l (m p).left p) (m (first m l (m p).left p)).key
      = if (l.keys ++ [k]).Chain' (· < ·) then validate_loop m G f p k
        else .error .invalid_binary_search_tree := by
  have hkey : (m p).key = k := hp.2.2.1
  have hne : p ≠ empty_leaf := hp.1
  by_cases hl : l = .nil
  · subst hl
    simp only [tree.size, first, hkey, tree.keys, List.nil_append, List.chain'_singleton,
      if_true, Nat.add_zero]
  · have hsz := size_pos_of_ne_nil l hl
    have hf : f + l.size = (f + 1) + (l.size - 1) := by omega
    rw [hf, ih (f + 1) hl]
    obtain ⟨init, hinit⟩ := keys_last m l (m p).left p hp.2.2.2.1 hl
    have hnext := next_of_last_left m c l r k p par G hp hlk hl hG
    have hch : (l.keys ++ [k]).Chain' (· < ·) ↔
        l.keys.Chain' (· < ·) ∧ (m (last m l (m p).left p)).key < k := by
      rw [hinit]
      exact chain_snoc _ _ _
    by_cases hc : l.keys.Chain' (· < ·)
    · rw [if_pos hc]
      simp only [validate_loop, hnext, if_pos hne, hkey]
      by_cases hlt : (m (last m l (m p).left p)).key < k
      · rw [if_neg (not_not.2 hlt), if_pos (hch.2 ⟨hc, hlt⟩)]
      · rw [if_pos hlt, if_neg (fun h => hlt (hch.1 h).2)]
    · rw [if_neg hc, if_neg (fun h => hc (hch.1 h).1)]

theorem walk_right (m : Nat → node) (G : Nat) (c : color_t) (l r : tree) (k : Int) (p : Nat)
    (hp : is_tree m (.node c l k r) p) (hG : r.size ≤ G)
    (ih : ∀ f, r ≠ .nil →
      validate_loop m G (f + (r.size - 1)) (first m r (m p).right p)
          (m (first m r (m p).right p)).key
        = if r.keys.Chain' (· < ·) then
            validate_loop m G f (last m r (m p).right p) (m (last m r (m p).right p)).key
          else .error .invalid_binary_search_tree) (f : Nat) :
    validate_loop m G (f + r.size) p k
      = if (k :: r.keys).Chain' (· < ·) then
          validate_loop m G f (last m r (m p).right p) (m (last m r (m p).right p)).key
        else .error .invalid_binary_search_tree := by
  have hkey : (m p).key = k := hp.2.2.1
  have hne : p ≠ empty_leaf := hp.1
  by_cases hr : r = .nil
  · subst hr
    simp only [tree.size, last, hkey, tree.keys, List.chain'_singleton, if_true, Nat.add_zero]
  · have hsz := size_pos_of_ne_nil r hr
    have hf : f + r.size = (f + (r.size - 1)) + 1 := by omega
    obtain ⟨tl, htl⟩ := keys_first m r (m p).right p hp.2.2.2.2 hr
    have hnext := next_of_node_right m c l r k p G hp hr hG
    have hfne := first_ne m r (m p).right p hp.2.2.2.2 hne
    rw [hf]
    simp only [validate_loop, hnext, if_pos hfne]
    rw [ih f hr]
    by_cases hlt : k < (m (first m r (m p).right p)).key
    · rw [if_neg (not_not.2 hlt)]
      by_cases hc : r.keys.Chain' (· < ·)
      · have hc2 : (k :: r.keys).Chain' (· < ·) := by
          rw [htl] at hc ⊢
          exact List.chain'_cons.2 ⟨hlt, hc⟩
        rw [if_pos hc, if_pos hc2]
      · have hc2 : ¬ (k :: r.keys).Chain' (· < ·) := by
          intro h
          rw [htl] at h hc
          exact hc (List.chain'_cons.1 h).2
        rw [if_neg hc, if_neg hc2]
    · have hc2 : ¬ (k :: r.keys).Chain' (· < ·) := by
        intro h
        rw [htl] at h
        exact hlt (List.chain'_cons.1 h).1
      rw [if_pos hlt, if_neg hc2]

theorem walk_subtree (m : Nat → node) (G : Nat) :
    ∀ (t : tree) (p par d f : Nat), is_tree m t p → linked m t p par → t ≠ .nil →
      t.size ≤ G →
      validate_loop m G (f + (t.size - 1)) (first m t p d) (m (first m t p d)).key
        = if t.keys.Chain' (· < ·) then
            validate_loop m G f (last m t p d) (m (last m t p d)).key
          else .error .invalid_binary_search_tree := by
  intro t
  induction t with
  | nil => intro p par d f _ _ h; exact absurd rfl h
  | node c l k r ihl ihr =>
    intro p par d f hp hlk _ hG
    simp only [tree.size] at hG
    have hf : f + ((tree.node c l k r).size - 1) = (f + r.size) + l.size := by
      simp only [tree.size]; omega
    have hfirst : first m (.node c l k r) p d = first m l (m p).left p := rfl
    have hlast : last m (.node c l k r) p d = last m r (m p).right p := rfl
    have hkeys : (tree.node c l k r).keys = l.keys ++ k :: r.keys := rfl
    rw [hf, hfirst, hlast, hkeys]
    rw [walk_left m G c l r k p par hp hlk (by omega)
      (fun f1 h1 => ihl (m p).left p p f1 hp.2.2.2.1 hlk.2.2.1 h1 (by omega)) (f + r.size)]
    rw [walk_right m G c l r k p hp (by omega)
      (fun f1 h1 => ihr (m p).right p p f1 hp.2.2.2.2 hlk.2.2.2 h1 (by omega)) f]
    by_cases h1 : (l.keys ++ [k]).Chain' (· < ·)
    · by_cases h2 : (k :: r.keys).Chain' (· < ·)
      · rw [if_pos h1, if_pos h2, if_pos (List.chain'_split.2 ⟨h1, h2⟩)]
      · rw [if_pos h1, if_neg h2, if_neg (fun h => h2 (List.chain'_split.1 h).2)]
    · rw [if_neg h1, if_neg (fun h => h1 (List.chain'_split.1 h).1)]

theorem validate_bst_spec (s : rb_tree) (t : tree) (fuel : Nat) (hwf : well_formed s t)
    (hf : t.size < fuel) :
    validate_bst s fuel
      = if t.keys.Sorted (· < ·) then .ok () else .error .invalid_binary_search_tree := by
  obtain ⟨hp, hlk⟩ := hwf
  by_cases ht : t = .nil
  · subst ht
    have h0 : s.root = empty_leaf := hp
    simp [validate_bst, h0, tree.keys]
  · have hroot : s.root ≠ empty_leaf := fun h => ht ((is_tree_root_eq_iff s.mem t _ hp).1 h)
    have hsz := size_pos_of_ne_nil t ht
    have hmin := min_eq_first s.mem t s.root empty_leaf fuel hp ht (by omega)
    have hfu : fuel = (fuel - t.size + 1) + (t.size - 1) := by omega
    have hw := walk_subtree s.mem fuel t s.root empty_leaf empty_leaf (fuel - t.size + 1)
      hp hlk ht (by omega)
    rw [← hfu] at hw
    have hnext := next_of_last_root s.mem t s.root fuel hp hlk ht (by omega)
    simp only [validate_bst, if_pos hroot, hmin, hw]
    have hiff : t.keys.Chain' (· < ·) ↔ t.keys.Sorted (· < ·) := List.chain'_iff_pairwise
    by_cases hc : t.keys.Chain' (· < ·)
    · rw [if_pos hc, if_pos (hiff.1 hc)]
      simp only [validate_loop, hnext, ne_eq, not_true_eq_false, if_false]
    · rw [if_neg hc, if_neg (fun h => hc (hiff.2 h))]

/-! ### C10: the recursive check `_validate` -/

theorem validate_rec_spec (m : Nat → node) :
    ∀ (t : tree) (p par G : Nat), is_tree m t p → linked m t p par → t.size < G →
      (tree.rb_ok (m par).color t → _validate m G p = .ok t.black_height) ∧
        (¬ tree.rb_ok (m par).color t → ∃ msg, _validate m G p = .error (.invalid_rb_tree msg)) := by
  intro t
  induction t with
  | nil =>
    intro p par G hp _ hG
    obtain ⟨G1, rfl⟩ : ∃ G1, G = G1 + 1 := ⟨G - 1, by omega⟩
    have h0 : p = empty_leaf := hp
    refine ⟨fun _ => ?_, fun h => absurd trivial h⟩
    simp only [_validate, h0, if_true, tree.black_height]
  | node c l k r ihl ihr =>
    intro p par G hp hlk hG
    obtain ⟨G1, rfl⟩ : ∃ G1, G = G1 + 1 := ⟨G - 1, by omega⟩
    simp only [tree.size] at hG
    obtain ⟨hne, hcol, _, hl, hr⟩ := hp
    obtain ⟨hpar, _, hll, hlr⟩ := hlk
    have hl1 := ihl (m p).left p G1 hl hll (by omega)
    have hr1 := ihr (m p).right p G1 hr hlr (by omega)
    rw [hcol] at hl1 hr1
    have hcc : ¬ ((m p).color ≠ .red ∧ (m p).color ≠ .black) := by
      rw [hcol]
      cases c <;> simp
    by_cases hrr : c = .red ∧ (m par).color = .red
    · have hrr1 : (m p).color = .red ∧ (m (m p).parent).color = .red := by
        rw [hcol, hpar]; exact hrr
      refine ⟨fun h => absurd hrr h.1, fun _ => ⟨.red_child_of_red, ?_⟩⟩
      simp only [_validate, if_neg hne, if_neg hcc, if_pos hrr1]
    · have hrr1 : ¬ ((m p).color = .red ∧ (m (m p).parent).color = .red) := by
        rw [hcol, hpar]; exact hrr
      by_cases hokl : tree.rb_ok c l
      · have hvl := hl1.1 hokl
        by_cases hokr : tree.rb_ok c r
        · have hvr := hr1.1 hokr
          by_cases hbh : l.black_height = r.black_height
          · refine ⟨fun _ => ?_, fun h => absurd ⟨hrr, hokl, hokr, hbh⟩ h⟩
            simp only [_validate, if_neg hne, if_neg hcc, if_neg hrr1, hvl, hvr]
            rw [if_neg (not_not.2 hbh), hcol]
            rfl
          · refine ⟨fun h => absurd h.2.2.2 hbh, fun _ => ⟨.black_height_differs, ?_⟩⟩
            simp only [_validate, if_neg hne, if_neg hcc, if_neg hrr1, hvl, hvr]
            rw [if_pos hbh]
        · obtain ⟨msg, hmsg⟩ := hr1.2 hokr
          refine ⟨fun h => absurd h.2.2.1 hokr, fun _ => ⟨msg, ?_⟩⟩
          simp only [_validate, if_neg hne, if_neg hcc, if_neg hrr1, hvl, hmsg]
      · obtain ⟨msg, hmsg⟩ := hl1.2 hokl
        refine ⟨fun h => absurd h.2.1 hokl, fun _ => ⟨msg, ?_⟩⟩
        simp only [_validate, if_neg hne, if_neg hcc, if_neg hrr1, hmsg]

theorem rb_ok_iff :
    ∀ (t : tree) (pc : color_t),
      tree.rb_ok pc t ↔ (pc = .red → t.root_color = .black) ∧ t.no_red_red ∧ t.balanced := by
  intro t
  induction t with
  | nil =>
    intro pc
    simp only [tree.rb_ok, tree.root_color, tree.no_red_red, tree.balanced, implies_true,
      and_self]
  | node c l k r ihl ihr =>
    intro pc
    simp only [tree.rb_ok, tree.root_color, tree.no_red_red, tree.balanced, ihl c, ihr c]
    constructor
    · rintro ⟨h1, ⟨h2, h3, h4⟩, ⟨h5, h6, h7⟩, h8⟩
      refine ⟨fun hpc => ?_, ⟨fun hc => ⟨h2 hc, h5 hc⟩, h3, h6⟩, h8, h4, h7⟩
      cases c with
      | black => rfl
      | red => exact absurd ⟨rfl, hpc⟩ h1
    · rintro ⟨h1, ⟨h2, h3, h4⟩, h5, h6, h7⟩
      refine ⟨fun hc => ?_, ⟨fun h => (h2 h).1, h3, h6⟩, ⟨fun h => (h2 h).2, h4, h7⟩, h5⟩
      have := h1 hc.2
      rw [hc.1] at this
      cases this

/-! ### C10: `validate` -/

/-- C10: on a well-formed tree (the nodes reachable from the root form a tree,
each child's parent link points back to its parent, the root's parent is the
sentinel), with fuel above the number of nodes, `validate()` returns normally
if and only if the in-order key sequence is strictly increasing, the sentinel
is black with left and right links to itself, the root is black, no red node
has a red parent, and at every node the two subtrees have equal black-height;
otherwise it throws one of its two exceptions. -/
theorem validate_sound_complete (s : rb_tree) (t : tree) (fuel : Nat)
    (hwf : well_formed s t) (hf : t.size < fuel) :
    (validate s fuel = .ok () ↔ invariants s t) ∧
      (¬ invariants s t → ∃ e, is_exception e = true ∧ validate s fuel = .error e) := by
  have hbst := validate_bst_spec s t fuel hwf hf
  obtain ⟨hrec1, hrec2⟩ := validate_rec_spec s.mem t s.root empty_leaf fuel hwf.1 hwf.2 hf
  by_cases hs : t.keys.Sorted (· < ·)
  · rw [if_pos hs] at hbst
    by_cases hsent : (s.mem empty_leaf).left ≠ empty_leaf ∨
        (s.mem empty_leaf).right ≠ empty_leaf ∨ (s.mem empty_leaf).color ≠ .black
    · have hv : validate s fuel = .error (.invalid_rb_tree .empty_leaf_changed) := by
        simp only [validate, hbst, if_pos hsent]
      have hni : ¬ invariants s t := by
        rintro ⟨_, ⟨h1, h2, h3⟩, _⟩
        rcases hsent with h | h | h
        · exact h h2
        · exact h h3
        · exact h h1
      refine ⟨⟨fun h => ?_, fun h => absurd h hni⟩,
        fun _ => ⟨.invalid_rb_tree .empty_leaf_changed, rfl, hv⟩⟩
      rw [hv] at h
      cases h
    · have hs1 : (s.mem empty_leaf).color = .black ∧ (s.mem empty_leaf).left = empty_leaf ∧
          (s.mem empty_leaf).right = empty_leaf := by
        refine ⟨?_, ?_, ?_⟩
        · by_contra h; exact hsent (Or.inr (Or.inr h))
        · by_contra h; exact hsent (Or.inl h)
        · by_contra h; exact hsent (Or.inr (Or.inl h))
      by_cases hroot : (s.mem s.root).color ≠ .black
      · have hv : validate s fuel = .error (.invalid_rb_tree .root_not_black) := by
          simp only [validate, hbst, if_neg hsent, if_pos hroot]
        have hni : ¬ invariants s t := fun h => hroot h.2.2.1
        refine ⟨⟨fun h => ?_, fun h => absurd h hni⟩,
          fun _ => ⟨.invalid_rb_tree .root_not_black, rfl, hv⟩⟩
        rw [hv] at h
        cases h
      · have hroot1 : (s.mem s.root).color = .black := not_not.1 hroot
        have hiff : tree.rb_ok (s.mem empty_leaf).color t ↔ t.no_red_red ∧ t.balanced := by
          rw [rb_ok_iff, hs1.1]
          simp
        by_cases hok : tree.rb_ok (s.mem empty_leaf).color t
        · have hv : validate s fuel = .ok () := by
            simp only [validate, hbst, if_neg hsent, if_neg hroot, hrec1 hok]
          have hi : invariants s t := ⟨hs, hs1, hroot1, (hiff.1 hok).1, (hiff.1 hok).2⟩
          exact ⟨⟨fun _ => hi, fun _ => hv⟩, fun h => absurd hi h⟩
        · obtain ⟨msg, hmsg⟩ := hrec2 hok
          have hv : validate s fuel = .error (.invalid_rb_tree msg) := by
            simp only [validate, hbst, if_neg hsent, if_neg hroot, hmsg]
          have hni : ¬ invariants s t := fun h => hok (hiff.2 ⟨h.2.2.2.1, h.2.2.2.2⟩)
          refine ⟨⟨fun h => ?_, fun h => absurd h hni⟩,
            fun _ => ⟨.invalid_rb_tree msg, rfl, hv⟩⟩
          rw [hv] at h
          cases h
  · rw [if_neg hs] at hbst
    have hv : validate s fuel = .error .invalid_binary_search_tree := by
      simp only [validate, hbst]
    have hni : ¬ invariants s t := fun h => hs h.1
    refine ⟨⟨fun h => ?_, fun h => absurd h hni⟩,
      fun _ => ⟨.invalid_binary_search_tree, rfl, hv⟩⟩
    rw [hv] at h
    cases h

theorem validate_sound_complete_witness :
    well_formed t10 t10_shape ∧ t10_shape.size < 11 ∧ invariants t10 t10_shape ∧
      validate t10 11 = .ok () :=
  ⟨by decide, by decide, by decide,
    (validate_sound_complete t10 t10_shape 11 (by decide) (by decide)).1.2 (by decide)⟩

/-! ### C11 -/

/-- C11, the code at the failing input: for every non-empty sequence of keys
`k :: ks`, inserting into the empty tree stops at the failed assertion inside
the first `insert`, so no in-order traversal of a resulting tree exists. -/
theorem ordering_after_inserts_fails (fuel : Nat) (k : Int) (ks : List Int) :
    (insert_all empty (fuel + 1) (k :: ks)).bind (fun s => walk_keys s (fuel + 1)) =
      .error .assertion := by
  rw [insert_all_empty_cons]
  rfl

/-! ### C12 -/

/-- C12, the code at the failing input: in `insert(k)` on the empty tree the
fixup is called on the new root, its loop body runs and calls `_rotate_right`
on the sentinel, whose left child is the sentinel: the assertion fires, for
every key `k`. -/
theorem insert_rotation_assert_fires (fuel : Nat) (k : Int) :
    validate empty (fuel + 1) = .ok () ∧
      ((attached_root k).mem ((attached_root k).mem 3).parent).color = .black ∧
      ((attached_root k).mem (attached_root k).root).parent = empty_leaf ∧
      ((attached_root k).mem empty_leaf).left = empty_leaf ∧
      insert_step (attached_root k) 3 = .error .assertion ∧
      _rotate_right (attached_root k) empty_leaf = .error .assertion ∧
      _rebalance_after_insert (fuel + 1) (attached_root k) 3 = .error .assertion ∧
      insert empty (fuel + 1) k = .error .assertion :=
  ⟨rfl, rfl, rfl, rfl, rfl, rfl, rfl, rfl⟩

/-! ### C13 -/

/-- C13, the code at the failing input: on the valid tree of three black nodes
1, 2, 3, `remove(3)` (the deficient node is a right child) and `remove(1)` (it
is a left child whose sibling has two black children) run out of every amount
of fuel: the fixup loop repeats in an unchanged state. -/
theorem remove_does_not_terminate :
    (∀ fuel, validate t3 (fuel + 4) = .ok ()) ∧
      (∀ fuel, remove t3 fuel 3 = .error .fuel) ∧
      (∀ fuel, remove t3 fuel 1 = .error .fuel) := by
  refine ⟨fun _ => rfl, ?_, ?_⟩
  · intro fuel
    rcases fuel with _ | _ | n
    · rfl
    · rfl
    · exact remove_stuck_after t3 (n + 2) 3 5 _ _ _ _ rfl (by decide) rfl
        (by decide) rfl (by decide) rfl
  · intro fuel
    rcases fuel with _ | _ | n
    · rfl
    · rfl
    · exact remove_stuck_after t3 (n + 2) 1 3 _ _ _ _ rfl (by decide) rfl
        (by decide) rfl (by decide) rfl

/-! ### C16 -/

/-- C16, the code at the failing input: on the valid one-node tree (black root
10) the absent key 5 has the black root as attachment parent; `insert(5)`
enters the fixup loop, rotates, and stops at a failed assertion.  The same
happens for `insert(0)` on the three black nodes 1, 2, 3. -/
theorem insert_black_parent_runs_fixup (fuel : Nat) :
    validate t1 (fuel + 2) = .ok () ∧
      find t1 (fuel + 2) 5 = .ok false ∧
      insert t1 (fuel + 2) 5 = .error .assertion ∧
      validate t3 (fuel + 4) = .ok () ∧
      insert t3 (fuel + 3) 0 = .error .assertion :=
  ⟨rfl, rfl, rfl, rfl, rfl⟩

/-! ### C19 -/

/-- C19, the code at the failing inputs.  After the splice of `remove(1)` on the
three black nodes, `x` is a left child, its sibling `w` is black and both
children of `w` are black, yet the loop body leaves the state and `x` unchanged
(the case-2 branch is not taken).  After the splice of `remove(7)` on the tree
holding 1..10, `w` is black with a black left and a red right child, and the
case-2 branch is taken: `w` is coloured red and `x` moves to its parent. -/
theorem case_two_fires_on_different_colours :
    (∃ s x, remove_splice t3 1 3 = .ok (s, x, true) ∧
      x = (s.mem (s.mem x).parent).left ∧
      (s.mem (s.mem (s.mem x).parent).right).color = .black ∧
      (s.mem (s.mem (s.mem (s.mem x).parent).right).left).color = .black ∧
      (s.mem (s.mem (s.mem (s.mem x).parent).right).right).color = .black ∧
      remove_step s x = .ok (s, x)) ∧
    (∃ s x, remove_splice t10 1 9 = .ok (s, x, true) ∧
      x = (s.mem (s.mem x).parent).left ∧
      (s.mem (s.mem (s.mem x).parent).right).color = .black ∧
      (s.mem (s.mem (s.mem (s.mem x).parent).right).left).color = .black ∧
      (s.mem (s.mem (s.mem (s.mem x).parent).right).right).color = .red ∧
      remove_step s x =
        .ok ({ s with mem := setColor s.mem (s.mem (s.mem x).parent).right .red },
          (s.mem x).parent)) :=
  ⟨⟨_, _, rfl, by decide, by decide, by decide, by decide, rfl⟩,
    ⟨_, _, rfl, by decide, by decide, by decide, by decide, rfl⟩⟩

/-! ### Consequences of a successful `validate` -/

theorem validate_ok_iff (s : rb_tree) (t : tree) (fuel : Nat) (hwf : well_formed s t)
    (hf : t.size < fuel) : validate s fuel = .ok () ↔ invariants s t := by
  have hbst := validate_bst_spec s t fuel hwf hf
  obtain ⟨hrec1, hrec2⟩ := validate_rec_spec s.mem t s.root empty_leaf fuel hwf.1 hwf.2 hf
  have hiff : ∀ (_ : (s.mem empty_leaf).color = .black),
      (tree.rb_ok (s.mem empty_leaf).color t ↔ t.no_red_red ∧ t.balanced) := by
    intro hb
    rw [rb_ok_iff, hb]
    simp
  constructor
  · intro hv
    by_cases hs : t.keys.Sorted (· < ·)
    · rw [if_pos hs] at hbst
      simp only [validate, hbst] at hv
      by_cases hsent : (s.mem empty_leaf).left ≠ empty_leaf ∨
          (s.mem empty_leaf).right ≠ empty_leaf ∨ (s.mem empty_leaf).color ≠ .black
      · rw [if_pos hsent] at hv
        cases hv
      · rw [if_neg hsent] at hv
        have hs1 : (s.mem empty_leaf).color = .black ∧ (s.mem empty_leaf).left = empty_leaf ∧
            (s.mem empty_leaf).right = empty_leaf := by
          refine ⟨?_, ?_, ?_⟩
          · by_contra h; exact hsent (Or.inr (Or.inr h))
          · by_contra h; exact hsent (Or.inl h)
          · by_contra h; exact hsent (Or.inr (Or.inl h))
        by_cases hroot : (s.mem s.root).color ≠ .black
        · rw [if_pos hroot] at hv
          cases hv
        · rw [if_neg hroot] at hv
          by_cases hok : tree.rb_ok (s.mem empty_leaf).color t
          · exact ⟨hs, hs1, not_not.1 hroot, ((hiff hs1.1).1 hok).1, ((hiff hs1.1).1 hok).2⟩
          · obtain ⟨msg, hmsg⟩ := hrec2 hok
            rw [hmsg] at hv
            cases hv
    · rw [if_neg hs] at hbst
      simp only [validate, hbst] at hv
      cases hv
  · rintro ⟨hs, hs1, hroot, hnrr, hbal⟩
    rw [if_pos hs] at hbst
    have hsent : ¬ ((s.mem empty_leaf).left ≠ empty_leaf ∨
        (s.mem empty_leaf).right ≠ empty_leaf ∨ (s.mem empty_leaf).color ≠ .black) := by
      rintro (h | h | h)
      · exact h hs1.2.1
      · exact h hs1.2.2
      · exact h hs1.1
    have hroot1 : ¬ (s.mem s.root).color ≠ .black := not_not.2 hroot
    simp only [validate, hbst, if_neg hsent, if_neg hroot1,
      hrec1 ((hiff hs1.1).2 ⟨hnrr, hbal⟩)]

theorem size_rec_spec (m : Nat → node) :
    ∀ (t : tree) (p G : Nat), is_tree m t p → t.size < G → _size m G p = .ok t.size := by
  intro t
  induction t with
  | nil =>
    intro p G hp hG
    obtain ⟨G1, rfl⟩ : ∃ G1, G = G1 + 1 := ⟨G - 1, by omega⟩
    have h0 : p = empty_leaf := hp
    simp only [_size, h0, if_true, tree.size]
  | node c l k r ihl ihr =>
    intro p G hp hG
    obtain ⟨G1, rfl⟩ : ∃ G1, G = G1 + 1 := ⟨G - 1, by omega⟩
    simp only [tree.size] at hG
    obtain ⟨hne, _, _, hl, hr⟩ := hp
    have h1 := ihl (m p).left G1 hl (by omega)
    have h2 := ihr (m p).right G1 hr (by omega)
    simp only [_size, if_neg hne, h1, h2, tree.size]
    rfl

/-! ### C14 -/

theorem height_le_black_height :
    ∀ (t : tree), t.no_red_red → t.balanced →
      t.height ≤ 2 * t.black_height + (if t.root_color = .red then 1 else 0) := by
  intro t
  induction t with
  | nil => intro _ _; simp [tree.height]
  | node c l k r ihl ihr =>
    intro hn hb
    obtain ⟨hc, hnl, hnr⟩ := hn
    obtain ⟨hbh, hbl, hbr⟩ := hb
    have h1 := ihl hnl hbl
    have h2 := ihr hnr hbr
    cases c with
    | black =>
      simp only [tree.height, tree.black_height, tree.root_color, if_true]
      have e1 : (if l.root_color = color_t.red then 1 else 0) ≤ 1 := by split <;> omega
      have e2 : (if r.root_color = color_t.red then 1 else 0) ≤ 1 := by split <;> omega
      have e3 : (if color_t.black = color_t.red then 1 else 0) = 0 := by simp
      rw [e3]
      have := max_le (a := l.height) (b := r.height) (c := 2 * l.black_height + 1)
        (by omega) (by omega)
      omega
    | red =>
      obtain ⟨hlc, hrc⟩ := hc rfl
      rw [hlc] at h1
      rw [hrc] at h2
      simp only [tree.height, tree.black_height, tree.root_color, if_true]
      have e3 : (if color_t.red = color_t.black then 1 else 0) = 0 := by simp
      have e4 : (if color_t.black = color_t.red then 1 else 0) = 0 := by simp
      rw [e3]
      rw [e4] at h1 h2
      have := max_le (a := l.height) (b := r.height) (c := 2 * l.black_height)
        (by omega) (by omega)
      omega

theorem pow_black_height_le_size :
    ∀ (t : tree), t.balanced → 2 ^ t.black_height ≤ t.size + 1 := by
  intro t
  induction t with
  | nil => intro _; simp [tree.black_height, tree.size]
  | node c l k r ihl ihr =>
    intro hb
    obtain ⟨hbh, hbl, hbr⟩ := hb
    have h1 := ihl hbl
    have h2 := ihr hbr
    rw [hbh] at h1
    simp only [tree.black_height, tree.size]
    have h3 : 2 ^ (l.black_height + (if c = color_t.black then 1 else 0))
        ≤ 2 ^ (l.black_height + 1) :=
      Nat.pow_le_pow_right (by omega) (by split <;> omega)
    rw [hbh] at h3 ⊢
    rw [Nat.pow_succ] at h3
    omega

theorem root_color_eq (m : Nat → node) (t : tree) (p : Nat) (h : is_tree m t p)
    (hs : (m empty_leaf).color = .black) : t.root_color = (m p).color := by
  cases t with
  | nil =>
    have h0 : p = empty_leaf := h
    rw [h0, hs]
    rfl
  | node c l k r => exact h.2.1.symm

/-- C14: on a well-formed tree on which `validate()` succeeds, `size()` returns
the number `n` of nodes, and with `h` the number of nodes on the longest path
from the root down to a leaf, `2 ^ ceil(h / 2) ≤ n + 1`. -/
theorem logarithmic_height (s : rb_tree) (t : tree) (fuel : Nat) (hwf : well_formed s t)
    (hf : t.size < fuel) (hv : validate s fuel = .ok ()) :
    size s fuel = .ok t.size ∧ 2 ^ ((t.height + 1) / 2) ≤ t.size + 1 := by
  obtain ⟨_, hs1, hroot, hnrr, hbal⟩ := (validate_ok_iff s t fuel hwf hf).1 hv
  refine ⟨size_rec_spec s.mem t s.root fuel hwf.1 hf, ?_⟩
  have hrc : t.root_color = .black := by
    rw [root_color_eq s.mem t s.root hwf.1 hs1.1, hroot]
  have hh := height_le_black_height t hnrr hbal
  rw [hrc] at hh
  have e4 : (if color_t.black = color_t.red then 1 else 0) = 0 := by simp
  rw [e4] at hh
  have hle : (t.height + 1) / 2 ≤ t.black_height := by omega
  exact le_trans (Nat.pow_le_pow_right (by omega) hle) (pow_black_height_le_size t hbal)

theorem logarithmic_height_witness :
    well_formed t10 t10_shape ∧ t10_shape.size < 11 ∧ validate t10 11 = .ok () ∧
      size t10 11 = .ok 10 ∧ 2 ^ ((t10_shape.height + 1) / 2) ≤ 10 + 1 :=
  ⟨by decide, by decide, rfl,
    logarithmic_height t10 t10_shape 11 (by decide) (by decide) rfl⟩

/-! ### C20: `_next` along the in-order list of nodes -/

theorem addrs_ne (m : Nat → node) :
    ∀ (t : tree) (p x : Nat), is_tree m t p → x ∈ addrs m t p → x ≠ empty_leaf := by
  intro t
  induction t with
  | nil => intro p x _ hx; cases hx
  | node c l k r ihl ihr =>
    intro p x hp hx
    simp only [addrs, List.mem_append, List.mem_cons] at hx
    rcases hx with h | h | h
    · exact ihl _ x hp.2.2.2.1 h
    · rw [h]; exact hp.1
    · exact ihr _ x hp.2.2.2.2 h

theorem addrs_keys (m : Nat → node) :
    ∀ (t : tree) (p : Nat), is_tree m t p →
      (addrs m t p).map (fun a => (m a).key) = t.keys := by
  intro t
  induction t with
  | nil => intro p _; rfl
  | node c l k r ihl ihr =>
    intro p hp
    simp only [addrs, tree.keys, List.map_append, List.map_cons, ihl _ hp.2.2.2.1,
      ihr _ hp.2.2.2.2, hp.2.2.1]

theorem addrs_length (m : Nat → node) :
    ∀ (t : tree) (p : Nat), (addrs m t p).length = t.size := by
  intro t
  induction t with
  | nil => intro p; rfl
  | node c l k r ihl ihr =>
    intro p
    simp only [addrs, tree.size, List.length_append, List.length_cons, ihl, ihr]
    omega

theorem addrs_first (m : Nat → node) :
    ∀ (t : tree) (p d : Nat), t ≠ .nil → ∃ tl, addrs m t p = first m t p d :: tl := by
  intro t
  induction t with
  | nil => intro p d h; exact absurd rfl h
  | node c l k r ihl _ =>
    intro p d _
    cases l with
    | nil => exact ⟨addrs m r (m p).right, rfl⟩
    | node c2 l2 k2 r2 =>
      obtain ⟨tl, htl⟩ := ihl (m p).left p (by simp)
      refine ⟨tl ++ p :: addrs m r (m p).right, ?_⟩
      have hfirst : first m (.node c (.node c2 l2 k2 r2) k r) p d
          = first m (.node c2 l2 k2 r2) (m p).left p := rfl
      have ha : addrs m (.node c (.node c2 l2 k2 r2) k r) p
          = addrs m (.node c2 l2 k2 r2) (m p).left ++ p :: addrs m r (m p).right := rfl
      rw [hfirst, ha, htl]
      rfl

theorem next_chain_append (m : Nat → node) (G : Nat) :
    ∀ (A : List Nat) (b : Nat) (B : List Nat) (q : Nat),
      next_chain m G A b → next_chain m G (b :: B) q → next_chain m G (A ++ b :: B) q := by
  intro A
  induction A with
  | nil => intro b B q _ h; exact h
  | cons a A ih =>
    intro b B q hA hB
    cases A with
    | nil => exact ⟨hA, hB⟩
    | cons a2 A2 => exact ⟨hA.1, ih b B q hA.2 hB⟩

theorem subtree_next_chain (m : Nat → node) (G : Nat) :
    ∀ (t : tree) (p par d q : Nat), is_tree m t p → linked m t p par → t ≠ .nil →
      t.size ≤ G → _next m G (last m t p d) = .ok q → next_chain m G (addrs m t p) q := by
  intro t
  induction t with
  | nil => intro p par d q _ _ h; exact absurd rfl h
  | node c l k r ihl ihr =>
    intro p par d q hp hlk _ hG hq
    simp only [tree.size] at hG
    have hlast : last m (.node c l k r) p d = last m r (m p).right p := rfl
    rw [hlast] at hq
    have hright : next_chain m G (p :: addrs m r (m p).right) q := by
      by_cases hr : r = .nil
      · subst hr
        exact hq
      · obtain ⟨tl, htl⟩ := addrs_first m r (m p).right p hr
        have hnext := next_of_node_right m c l r k p G hp hr (by omega)
        have hch := ihr (m p).right p p q hp.2.2.2.2 hlk.2.2.2 hr (by omega) hq
        rw [htl] at hch ⊢
        exact ⟨hnext, hch⟩
    by_cases hl : l = .nil
    · subst hl
      exact hright
    · have hnext := next_of_last_left m c l r k p par G hp hlk hl (by omega)
      have hch := ihl (m p).left p p p hp.2.2.2.1 hlk.2.2.1 hl (by omega) hnext
      exact next_chain_append m G _ p _ q hch hright

theorem next_chain_successor (m : Nat → node) (G : Nat) :
    ∀ (L : List Nat) (q : Nat), next_chain m G L q →
      (L.map (fun a => (m a).key)).Sorted (· < ·) →
      ∀ x ∈ L, ∃ y, _next m G x = .ok y ∧
        ((y = q ∧ ∀ z ∈ L, (m z).key ≤ (m x).key) ∨
          (y ∈ L ∧ (m x).key < (m y).key ∧
            ∀ z ∈ L, (m x).key < (m z).key → (m y).key ≤ (m z).key)) := by
  intro L
  induction L with
  | nil => intro q _ _ x hx; cases hx
  | cons a L ih =>
    intro q hch hs x hx
    have hs1 : ∀ z ∈ L, (m a).key < (m z).key := by
      intro z hz
      have := (List.pairwise_cons.1 hs).1 (m z).key (List.mem_map_of_mem _ hz)
      exact this
    have hs2 : (L.map (fun a => (m a).key)).Sorted (· < ·) := (List.pairwise_cons.1 hs).2
    rcases List.mem_cons.1 hx with hxa | hxL
    · subst hxa
      cases L with
      | nil =>
        refine ⟨q, hch, Or.inl ⟨rfl, ?_⟩⟩
        intro z hz
        rw [List.mem_singleton.1 hz]
      | cons b rest =>
        refine ⟨b, hch.1, Or.inr ⟨List.mem_cons_of_mem _ (List.mem_cons_self _ _),
          hs1 b (List.mem_cons_self _ _), ?_⟩⟩
        intro z hz hlt
        rcases List.mem_cons.1 hz with hzx | hzL
        · rw [hzx] at hlt
          exact absurd hlt (lt_irrefl _)
        · rcases List.mem_cons.1 hzL with hzb | hzr
          · rw [hzb]
          · have hsb : ∀ z ∈ rest, (m b).key < (m z).key := by
              intro z1 hz1
              exact (List.pairwise_cons.1 hs2).1 (m z1).key (List.mem_map_of_mem _ hz1)
            exact le_of_lt (hsb z hzr)
    · have hch2 : next_chain m G L q := by
        cases L with
        | nil => trivial
        | cons b rest => exact hch.2
      obtain ⟨y, hy, hcase⟩ := ih q hch2 hs2 x hxL
      refine ⟨y, hy, ?_⟩
      rcases hcase with ⟨hyq, hall⟩ | ⟨hyL, hlt, hall⟩
      · refine Or.inl ⟨hyq, ?_⟩
        intro z hz
        rcases List.mem_cons.1 hz with hza | hzL
        · rw [hza]; exact le_of_lt (hs1 x hxL)
        · exact hall z hzL
      · refine Or.inr ⟨List.mem_cons_of_mem _ hyL, hlt, ?_⟩
        intro z hz hzlt
        rcases List.mem_cons.1 hz with hza | hzL
        · rw [hza] at hzlt
          have := hs1 x hxL
          omega
        · exact hall z hzL hzlt

theorem walk_loop_chain (m : Nat → node) (G : Nat) :
    ∀ (L : List Nat) (x f : Nat), next_chain m G (x :: L) empty_leaf →
      (∀ z ∈ x :: L, z ≠ empty_leaf) → L.length + 1 < f →
      walk_loop m G f x = .ok (x :: L) := by
  intro L
  induction L with
  | nil =>
    intro x f hch hne hf
    obtain ⟨f1, rfl⟩ : ∃ f1, f = f1 + 2 := ⟨f - 2, by simp at hf; omega⟩
    have hx : x ≠ empty_leaf := hne x (List.mem_cons_self _ _)
    have hch1 : _next m G x = .ok empty_leaf := hch
    simp only [walk_loop, if_neg hx, hch1, if_true]
  | cons b L ih =>
    intro x f hch hne hf
    obtain ⟨f1, rfl⟩ : ∃ f1, f = f1 + 1 := ⟨f - 1, by simp at hf; omega⟩
    have hx : x ≠ empty_leaf := hne x (List.mem_cons_self _ _)
    have hrec := ih b f1 hch.2 (fun z hz => hne z (List.mem_cons_of_mem _ hz))
      (by simp at hf ⊢; omega)
    simp only [walk_loop, if_neg hx, hch.1, hrec]

/-- C20: on a well-formed tree with strictly increasing in-order keys, for
every node `x` of the tree `_next(x)` returns the sentinel if `x` holds the
maximum key, and otherwise the node holding the smallest key greater than the
key of `x`; and the walk that starts at `_min(root)` and applies `_next` until
the sentinel is reached visits exactly the nodes of the tree in in-order (their
keys are the in-order key sequence). -/
theorem next_is_successor (s : rb_tree) (t : tree) (fuel : Nat) (hwf : well_formed s t)
    (hs : t.keys.Sorted (· < ·)) (hf : t.size + 1 < fuel) :
    (∀ x ∈ addrs s.mem t s.root, ∃ y, _next s.mem fuel x = .ok y ∧
      ((y = empty_leaf ∧ ∀ z ∈ addrs s.mem t s.root, (s.mem z).key ≤ (s.mem x).key) ∨
        (y ∈ addrs s.mem t s.root ∧ (s.mem x).key < (s.mem y).key ∧
          ∀ z ∈ addrs s.mem t s.root, (s.mem x).key < (s.mem z).key →
            (s.mem y).key ≤ (s.mem z).key))) ∧
      walk s fuel = .ok (addrs s.mem t s.root) ∧
      walk_keys s fuel = .ok t.keys := by
  obtain ⟨hp, hlk⟩ := hwf
  have hkeys := addrs_keys s.mem t s.root hp
  by_cases ht : t = .nil
  · subst ht
    have h0 : s.root = empty_leaf := hp
    refine ⟨fun x hx => absurd hx (List.not_mem_nil x), ?_, ?_⟩
    · simp only [walk, h0, if_true, addrs]
    · simp only [walk_keys, walk, h0, if_true, tree.keys, List.map_nil]
  · have hroot : s.root ≠ empty_leaf := fun h => ht ((is_tree_root_eq_iff s.mem t _ hp).1 h)
    have hlast := next_of_last_root s.mem t s.root fuel hp hlk ht (by omega)
    have hch := subtree_next_chain s.mem fuel t s.root empty_leaf empty_leaf empty_leaf
      hp hlk ht (by omega) hlast
    have hmin := min_eq_first s.mem t s.root empty_leaf fuel hp ht (by omega)
    obtain ⟨tl, htl⟩ := addrs_first s.mem t s.root empty_leaf ht
    have hlen := addrs_length s.mem t s.root
    have hwalk : walk s fuel = .ok (addrs s.mem t s.root) := by
      simp only [walk, if_neg hroot, hmin]
      rw [htl]
      apply walk_loop_chain
      · rw [← htl]; exact hch
      · intro z hz
        rw [← htl] at hz
        exact addrs_ne s.mem t s.root z hp hz
      · rw [htl] at hlen
        simp only [List.length_cons] at hlen
        omega
    refine ⟨?_, hwalk, ?_⟩
    · rw [← hkeys] at hs
      exact next_chain_successor s.mem fuel _ empty_leaf hch hs
    · simp only [walk_keys, hwalk, hkeys]

theorem next_is_successor_witness :
    well_formed t10 t10_shape ∧ t10_shape.keys.Sorted (· < ·) ∧ t10_shape.size + 1 < 12 ∧
      walk t10 12 = .ok [3, 4, 5, 6, 7, 8, 9, 10, 11, 12] ∧
      walk_keys t10 12 = .ok [1, 2, 3, 4, 5, 6, 7, 8, 9, 10] :=
  ⟨by decide, by decide, by decide,
    (next_is_successor t10 t10_shape 12 (by decide) (by decide) (by decide)).2⟩

/-! ### Well-formed trees have pairwise different nodes -/

theorem is_tree_unique (m : Nat → node) :
    ∀ (t u : tree) (p : Nat), is_tree m t p → is_tree m u p → t = u := by
  intro t
  induction t with
  | nil =>
    intro u p ht hu
    cases u with
    | nil => rfl
    | node c l k r => exact absurd ht hu.1
  | node c l k r ihl ihr =>
    intro u p ht hu
    cases u with
    | nil => exact absurd hu ht.1
    | node c2 l2 k2 r2 =>
      obtain ⟨_, hc, hk, hl, hr⟩ := ht
      obtain ⟨_, hc2, hk2, hl2, hr2⟩ := hu
      rw [← hc, ← hk, ← hc2, ← hk2, ihl l2 _ hl hl2, ihr r2 _ hr hr2]

theorem root_mem_addrs (m : Nat → node) (t : tree) (p : Nat) (ht : t ≠ .nil) :
    p ∈ addrs m t p := by
  cases t with
  | nil => exact absurd rfl ht
  | node c l k r => simp [addrs]

theorem sub_of_mem (m : Nat → node) :
    ∀ (t : tree) (p par a : Nat), is_tree m t p → linked m t p par → a ∈ addrs m t p →
      ∃ ta, is_tree m ta a ∧ linked m ta a (m a).parent ∧ ta ≠ .nil ∧ ta.size ≤ t.size ∧
        ∀ b ∈ addrs m ta a, b ∈ addrs m t p := by
  intro t
  induction t with
  | nil => intro p par a _ _ ha; cases ha
  | node c l k r ihl ihr =>
    intro p par a hp hlk ha
    simp only [addrs, List.mem_append, List.mem_cons] at ha
    rcases ha with h | h | h
    · obtain ⟨ta, h1, h2, h3, h4, h5⟩ := ihl _ p a hp.2.2.2.1 hlk.2.2.1 h
      refine ⟨ta, h1, h2, h3, by simp only [tree.size]; omega, fun b hb => ?_⟩
      simp only [addrs, List.mem_append, List.mem_cons]
      exact Or.inl (h5 b hb)
    · subst h
      refine ⟨.node c l k r, hp, ?_, by simp, le_refl _, fun b hb => hb⟩
      rw [hlk.1]
      exact hlk
    · obtain ⟨ta, h1, h2, h3, h4, h5⟩ := ihr _ p a hp.2.2.2.2 hlk.2.2.2 h
      refine ⟨ta, h1, h2, h3, by simp only [tree.size]; omega, fun b hb => ?_⟩
      simp only [addrs, List.mem_append, List.mem_cons]
      exact Or.inr (Or.inr (h5 b hb))

theorem root_not_mem_children (m : Nat → node) (c : color_t) (l r : tree) (k : Int)
    (p par : Nat) (hp : is_tree m (.node c l k r) p) (hlk : linked m (.node c l k r) p par) :
    p ∉ addrs m l (m p).left ∧ p ∉ addrs m r (m p).right := by
  constructor
  · intro h
    obtain ⟨ta, h1, _, _, h4, _⟩ := sub_of_mem m l _ p p hp.2.2.2.1 hlk.2.2.1 h
    have := is_tree_unique m _ _ p h1 hp
    rw [this] at h4
    simp only [tree.size] at h4
    omega
  · intro h
    obtain ⟨ta, h1, _, _, h4, _⟩ := sub_of_mem m r _ p p hp.2.2.2.2 hlk.2.2.2 h
    have := is_tree_unique m _ _ p h1 hp
    rw [this] at h4
    simp only [tree.size] at h4
    omega

theorem parent_chain (m : Nat → node) :
    ∀ (t : tree) (p par a : Nat), is_tree m t p → linked m t p par → a ∈ addrs m t p →
      ∃ n, (fun b => (m b).parent)^[n] a = p ∧
        ∀ i, i ≤ n → (fun b => (m b).parent)^[i] a ∈ addrs m t p := by
  intro t
  induction t with
  | nil => intro p par a _ _ ha; cases ha
  | node c l k r ihl ihr =>
    intro p par a hp hlk ha
    have hmem : ∀ b, b ∈ addrs m (.node c l k r) p ↔
        b ∈ addrs m l (m p).left ∨ b = p ∨ b ∈ addrs m r (m p).right := by
      intro b
      simp only [addrs, List.mem_append, List.mem_cons]
    rcases (hmem a).1 ha with h | h | h
    · obtain ⟨n, hn, hall⟩ := ihl _ p a hp.2.2.2.1 hlk.2.2.1 h
      have hl : l ≠ .nil := by
        intro hl; rw [hl] at h; cases h
      have hpl : (m (m p).left).parent = p := by
        cases l with
        | nil => exact absurd rfl hl
        | node c2 l2 k2 r2 => exact hlk.2.2.1.1
      refine ⟨n + 1, ?_, ?_⟩
      · rw [Function.iterate_succ_apply', hn, hpl]
      · intro i hi
        rcases Nat.lt_or_ge i (n + 1) with h1 | h1
        · exact (hmem _).2 (Or.inl (hall i (by omega)))
        · have : i = n + 1 := by omega
          rw [this, Function.iterate_succ_apply', hn, hpl]
          exact (hmem _).2 (Or.inr (Or.inl rfl))
    · refine ⟨0, by simpa using h, ?_⟩
      intro i hi
      have : i = 0 := by omega
      rw [this]
      simpa using ha
    · obtain ⟨n, hn, hall⟩ := ihr _ p a hp.2.2.2.2 hlk.2.2.2 h
      have hr : r ≠ .nil := by
        intro hr; rw [hr] at h; cases h
      have hpr : (m (m p).right).parent = p := by
        cases r with
        | nil => exact absurd rfl hr
        | node c2 l2 k2 r2 => exact hlk.2.2.2.1
      refine ⟨n + 1, ?_, ?_⟩
      · rw [Function.iterate_succ_apply', hn, hpr]
      · intro i hi
        rcases Nat.lt_or_ge i (n + 1) with h1 | h1
        · exact (hmem _).2 (Or.inr (Or.inr (hall i (by omega))))
        · have : i = n + 1 := by omega
          rw [this, Function.iterate_succ_apply', hn, hpr]
          exact (hmem _).2 (Or.inr (Or.inl rfl))

theorem children_disjoint (m : Nat → node) (c : color_t) (l r : tree) (k : Int)
    (p par : Nat) (hp : is_tree m (.node c l k r) p) (hlk : linked m (.node c l k r) p par) :
    ∀ a, a ∈ addrs m l (m p).left → a ∉ addrs m r (m p).right := by
  intro a hal har
  obtain ⟨hnl, hnr⟩ := root_not_mem_children m c l r k p par hp hlk
  obtain ⟨n1, hn1, hall1⟩ := parent_chain m l _ p a hp.2.2.2.1 hlk.2.2.1 hal
  obtain ⟨n2, hn2, hall2⟩ := parent_chain m r _ p a hp.2.2.2.2 hlk.2.2.2 har
  have hl : l ≠ .nil := by
    intro hl; rw [hl] at hal; cases hal
  have hr : r ≠ .nil := by
    intro hr; rw [hr] at har; cases har
  have hpl : (m (m p).left).parent = p := by
    cases l with
    | nil => exact absurd rfl hl
    | node c2 l2 k2 r2 => exact hlk.2.2.1.1
  have hpr : (m (m p).right).parent = p := by
    cases r with
    | nil => exact absurd rfl hr
    | node c2 l2 k2 r2 => exact hlk.2.2.2.1
  have hlne : (m p).left ≠ empty_leaf :=
    fun h => hl ((is_tree_root_eq_iff m l _ hp.2.2.2.1).1 h)
  rcases Nat.lt_trichotomy n1 n2 with h | h | h
  · have h1 := hall2 (n1 + 1) (by omega)
    rw [Function.iterate_succ_apply', hn1, hpl] at h1
    exact hnr h1
  · rw [h] at hn1
    have : (m p).left = (m p).right := by rw [← hn1, ← hn2]
    exact hlne (hlk.2.1 this)
  · have h1 := hall1 (n2 + 1) (by omega)
    rw [Function.iterate_succ_apply', hn2, hpr] at h1
    exact hnl h1

theorem addrs_nodup (m : Nat → node) :
    ∀ (t : tree) (p par : Nat), is_tree m t p → linked m t p par → (addrs m t p).Nodup := by
  intro t
  induction t with
  | nil => intro p par _ _; exact List.nodup_nil
  | node c l k r ihl ihr =>
    intro p par hp hlk
    obtain ⟨hnl, hnr⟩ := root_not_mem_children m c l r k p par hp hlk
    have hdis := children_disjoint m c l r k p par hp hlk
    have h1 := ihl _ p hp.2.2.2.1 hlk.2.2.1
    have h2 := ihr _ p hp.2.2.2.2 hlk.2.2.2
    simp only [addrs]
    rw [List.nodup_append]
    refine ⟨h1, List.nodup_cons.2 ⟨hnr, h2⟩, ?_⟩
    intro a ha hb
    rcases List.mem_cons.1 hb with h | h
    · rw [h] at ha; exact hnl ha
    · exact hdis a ha h

/-! ### Frame lemmas: memory writes outside a subtree -/

theorem frame (m m1 : Nat → node) :
    ∀ (t : tree) (p par : Nat), is_tree m t p → linked m t p par →
      (∀ a ∈ addrs m t p, m1 a = m a) →
      is_tree m1 t p ∧ linked m1 t p par ∧ addrs m1 t p = addrs m t p := by
  intro t
  induction t with
  | nil => intro p par hp _ _; exact ⟨hp, trivial, rfl⟩
  | node c l k r ihl ihr =>
    intro p par hp hlk hag
    have hmem : ∀ b, b ∈ addrs m (.node c l k r) p ↔
        b ∈ addrs m l (m p).left ∨ b = p ∨ b ∈ addrs m r (m p).right := by
      intro b
      simp only [addrs, List.mem_append, List.mem_cons]
    have hpp : m1 p = m p := hag p ((hmem p).2 (Or.inr (Or.inl rfl)))
    obtain ⟨hl1, hl2, hl3⟩ := ihl (m p).left p hp.2.2.2.1 hlk.2.2.1
      (fun a ha => hag a ((hmem a).2 (Or.inl ha)))
    obtain ⟨hr1, hr2, hr3⟩ := ihr (m p).right p hp.2.2.2.2 hlk.2.2.2
      (fun a ha => hag a ((hmem a).2 (Or.inr (Or.inr ha))))
    refine ⟨?_, ?_, ?_⟩
    · refine ⟨hp.1, ?_, ?_, ?_, ?_⟩
      · rw [hpp]; exact hp.2.1
      · rw [hpp]; exact hp.2.2.1
      · rw [hpp]; exact hl1
      · rw [hpp]; exact hr1
    · refine ⟨?_, ?_, ?_, ?_⟩
      · rw [hpp]; exact hlk.1
      · rw [hpp]; exact hlk.2.1
      · rw [hpp]; exact hl2
      · rw [hpp]; exact hr2
    · simp only [addrs, hpp, hl3, hr3]

theorem frame_root (m m1 : Nat → node) (c : color_t) (l r : tree) (k : Int) (p par : Nat)
    (hp : is_tree m (.node c l k r) p) (hlk : linked m (.node c l k r) p par)
    (hl : ∀ a ∈ addrs m l (m p).left, m1 a = m a)
    (hr : ∀ a ∈ addrs m r (m p).right, m1 a = m a)
    (hleft : (m1 p).left = (m p).left) (hright : (m1 p).right = (m p).right) :
    is_tree m1 (.node (m1 p).color l (m1 p).key r) p ∧
      linked m1 (.node (m1 p).color l (m1 p).key r) p (m1 p).parent := by
  obtain ⟨hl1, hl2, _⟩ := frame m m1 l (m p).left p hp.2.2.2.1 hlk.2.2.1 hl
  obtain ⟨hr1, hr2, _⟩ := frame m m1 r (m p).right p hp.2.2.2.2 hlk.2.2.2 hr
  refine ⟨⟨hp.1, rfl, rfl, ?_, ?_⟩, ⟨rfl, ?_, ?_, ?_⟩⟩
  · rw [hleft]; exact hl1
  · rw [hright]; exact hr1
  · rw [hleft, hright]; exact hlk.2.1
  · rw [hleft]; exact hl2
  · rw [hright]; exact hr2

theorem frame_reparent (m m1 : Nat → node) (t : tree) (p par : Nat)
    (hp : is_tree m t p) (hlk : linked m t p par)
    (hag : ∀ a ∈ addrs m t p, a ≠ p → m1 a = m a)
    (hroot : t ≠ .nil → (m1 p).left = (m p).left ∧ (m1 p).right = (m p).right ∧
      (m1 p).color = (m p).color ∧ (m1 p).key = (m p).key) :
    is_tree m1 t p ∧ linked m1 t p (m1 p).parent := by
  cases t with
  | nil => exact ⟨hp, trivial⟩
  | node c l k r =>
    obtain ⟨h1, h2, h3, h4⟩ := hroot (by simp)
    obtain ⟨hnl, hnr⟩ := root_not_mem_children m c l r k p par hp hlk
    have hmem : ∀ b, b ∈ addrs m (.node c l k r) p ↔
        b ∈ addrs m l (m p).left ∨ b = p ∨ b ∈ addrs m r (m p).right := by
      intro b
      simp only [addrs, List.mem_append, List.mem_cons]
    have := frame_root m m1 c l r k p par hp hlk
      (fun a ha => hag a ((hmem a).2 (Or.inl ha)) (fun h => hnl (h ▸ ha)))
      (fun a ha => hag a ((hmem a).2 (Or.inr (Or.inr ha))) (fun h => hnr (h ▸ ha))) h1 h2
    rw [h3, h4, hp.2.1, hp.2.2.1] at this
    exact this

theorem parent_mem (m : Nat → node) :
    ∀ (t : tree) (p par a : Nat), is_tree m t p → linked m t p par → a ∈ addrs m t p →
      a ≠ p → (m a).parent ∈ addrs m t p := by
  intro t
  induction t with
  | nil => intro p par a _ _ ha; cases ha
  | node c l k r ihl ihr =>
    intro p par a hp hlk ha hne
    have hmem : ∀ b, b ∈ addrs m (.node c l k r) p ↔
        b ∈ addrs m l (m p).left ∨ b = p ∨ b ∈ addrs m r (m p).right := by
      intro b
      simp only [addrs, List.mem_append, List.mem_cons]
    rcases (hmem a).1 ha with h | h | h
    · by_cases hpl : a = (m p).left
      · have hl : l ≠ .nil := by
          intro hl; rw [hl] at h; cases h
        have : (m (m p).left).parent = p := by
          cases l with
          | nil => exact absurd rfl hl
          | node c2 l2 k2 r2 => exact hlk.2.2.1.1
        rw [hpl, this]
        exact (hmem p).2 (Or.inr (Or.inl rfl))
      · exact (hmem _).2 (Or.inl (ihl _ p a hp.2.2.2.1 hlk.2.2.1 h hpl))
    · exact absurd h hne
    · by_cases hpr : a = (m p).right
      · have hr : r ≠ .nil := by
          intro hr; rw [hr] at h; cases h
        have : (m (m p).right).parent = p := by
          cases r with
          | nil => exact absurd rfl hr
          | node c2 l2 k2 r2 => exact hlk.2.2.2.1
        rw [hpr, this]
        exact (hmem p).2 (Or.inr (Or.inl rfl))
      · exact (hmem _).2 (Or.inr (Or.inr (ihr _ p a hp.2.2.2.2 hlk.2.2.2 h hpr)))

theorem sub_addrs_subset (m : Nat → node) (t tx : tree) (p par x : Nat)
    (hp : is_tree m t p) (hlk : linked m t p par) (hx : x ∈ addrs m t p)
    (htx : is_tree m tx x) : ∀ b ∈ addrs m tx x, b ∈ addrs m t p := by
  obtain ⟨ta, h1, _, _, _, h5⟩ := sub_of_mem m t p par x hp hlk hx
  rw [is_tree_unique m tx ta x htx h1]
  exact h5

theorem replace_not_mem (m : Nat → node) (x : Nat) (u : tree) :
    ∀ (t : tree) (p : Nat), x ∉ addrs m t p → replace_at m x u t p = t := by
  intro t
  induction t with
  | nil => intro p _; rfl
  | node c l k r ihl ihr =>
    intro p hx
    simp only [addrs, List.mem_append, List.mem_cons, not_or] at hx
    have hpx : p ≠ x := fun h => hx.2.1 h.symm
    simp only [replace_at, if_neg hpx, ihl _ hx.1, ihr _ hx.2.2]

/-! ### Replacing a subtree -/

theorem replace_spec (m m1 : Nat → node) (x x1 : Nat) (tx u : tree)
    (htx : is_tree m tx x) (hu : is_tree m1 u x1) (hul : linked m1 u x1 (m x).parent)
    (hfresh : x1 = empty_leaf ∨ x1 ∈ addrs m tx x)
    (hq : ∀ (_ : (m x).parent ≠ empty_leaf),
      (m1 (m x).parent).parent = (m (m x).parent).parent ∧
      (m1 (m x).parent).color = (m (m x).parent).color ∧
      (m1 (m x).parent).key = (m (m x).parent).key ∧
      ((m (m x).parent).left = x →
        (m1 (m x).parent).left = x1 ∧ (m1 (m x).parent).right = (m (m x).parent).right) ∧
      ((m (m x).parent).left ≠ x →
        (m1 (m x).parent).left = (m (m x).parent).left ∧ (m1 (m x).parent).right = x1)) :
    ∀ (t : tree) (p par : Nat), is_tree m t p → linked m t p par → x ∈ addrs m t p →
      (∀ a ∈ addrs m t p, a ∉ addrs m tx x → a ≠ (m x).parent → m1 a = m a) →
      is_tree m1 (replace_at m x u t p) (if p = x then x1 else p) ∧
        linked m1 (replace_at m x u t p) (if p = x then x1 else p) par := by
  intro t
  induction t with
  | nil => intro p par _ _ hx; cases hx
  | node c l k r ihl ihr =>
    intro p par hp hlk hx hag
    have hmem : ∀ b, b ∈ addrs m (.node c l k r) p ↔
        b ∈ addrs m l (m p).left ∨ b = p ∨ b ∈ addrs m r (m p).right := by
      intro b
      simp only [addrs, List.mem_append, List.mem_cons]
    by_cases hpx : p = x
    · subst hpx
      simp only [replace_at, if_true]
      refine ⟨hu, ?_⟩
      rw [← hlk.1]
      exact hul
    · have hxp : x ≠ p := fun h => hpx h.symm
      simp only [replace_at, if_neg hpx]
      obtain ⟨hnl, hnr⟩ := root_not_mem_children m c l r k p par hp hlk
      have hdis := children_disjoint m c l r k p par hp hlk
      have hpne : p ≠ empty_leaf := hp.1
      rcases (hmem x).1 hx with hxl | hxe | hxr
      · -- `x` is in the left subtree
        have hxr : x ∉ addrs m r (m p).right := hdis x hxl
        have hsub := sub_addrs_subset m l tx (m p).left p x hp.2.2.2.1 hlk.2.2.1 hxl htx
        have hl : l ≠ .nil := by
          intro hl; rw [hl] at hxl; cases hxl
        have hplp : (m (m p).left).parent = p := by
          cases l with
          | nil => exact absurd rfl hl
          | node c2 l2 k2 r2 => exact hlk.2.2.1.1
        have hih := ihl (m p).left p hp.2.2.2.1 hlk.2.2.1 hxl
          (fun a ha h1 h2 => hag a ((hmem a).2 (Or.inl ha)) h1 h2)
        -- the parent of `x` is `p` or a node of the left subtree
        have hqcase : ((m p).left = x ∧ (m x).parent = p) ∨
            ((m p).left ≠ x ∧ (m x).parent ∈ addrs m l (m p).left) := by
          by_cases h : (m p).left = x
          · exact Or.inl ⟨h, by rw [← h]; exact hplp⟩
          · exact Or.inr ⟨h, parent_mem m l _ p x hp.2.2.2.1 hlk.2.2.1 hxl (fun h1 => h h1.symm)⟩
        have hrframe : ∀ a ∈ addrs m r (m p).right, m1 a = m a := by
          intro a ha
          refine hag a ((hmem a).2 (Or.inr (Or.inr ha))) (fun h => hdis a (hsub a h) ha) ?_
          rcases hqcase with ⟨_, h2⟩ | ⟨_, h2⟩
          · rw [h2]; intro h; exact hnr (h ▸ ha)
          · intro h; exact hdis _ h2 (h ▸ ha)
        obtain ⟨hr1, hr2, _⟩ := frame m m1 r (m p).right p hp.2.2.2.2 hlk.2.2.2 hrframe
        rw [replace_not_mem m x u r _ hxr]
        -- the fields of `p` in the new memory
        have hpf : (m1 p).parent = (m p).parent ∧ (m1 p).color = (m p).color ∧
            (m1 p).key = (m p).key ∧
            (m1 p).left = (if (m p).left = x then x1 else (m p).left) ∧
            (m1 p).right = (m p).right := by
          rcases hqcase with ⟨h1, h2⟩ | ⟨h1, h2⟩
          · have hq1 := hq (by rw [h2]; exact hpne)
            rw [h2] at hq1
            obtain ⟨e1, e2, e3, e4, _⟩ := hq1
            exact ⟨e1, e2, e3, by rw [if_pos h1]; exact (e4 h1).1, (e4 h1).2⟩
          · have : m1 p = m p := by
              refine hag p ((hmem p).2 (Or.inr (Or.inl rfl))) (fun h => hnl (hsub p h)) ?_
              intro h; exact hnl (h ▸ h2)
            rw [this, if_neg h1]
            exact ⟨rfl, rfl, rfl, rfl, rfl⟩
        obtain ⟨f1, f2, f3, f4, f5⟩ := hpf
        refine ⟨⟨hpne, ?_, ?_, ?_, ?_⟩, ⟨?_, ?_, ?_, ?_⟩⟩
        · rw [f2]; exact hp.2.1
        · rw [f3]; exact hp.2.2.1
        · rw [f4]; exact hih.1
        · rw [f5]; exact hr1
        · rw [f1]; exact hlk.1
        · rw [f4, f5]
          intro heq
          by_cases h : (m p).left = x
          · rw [if_pos h] at heq ⊢
            rcases hfresh with h3 | h3
            · exact h3
            · exfalso
              have hx1l := hsub x1 h3
              have hx1ne := addrs_ne m l _ x1 hp.2.2.2.1 hx1l
              have hrne : r ≠ .nil := by
                intro hr
                rw [hr] at hp
                have : (m p).right = empty_leaf := hp.2.2.2.2
                exact hx1ne (heq.trans this)
              have h0 := root_mem_addrs m r (m p).right hrne
              have : x1 ∈ addrs m r (m p).right := by rw [heq]; exact h0
              exact hdis x1 hx1l this
          · rw [if_neg h] at heq ⊢
            exact hlk.2.1 heq
        · rw [f4]; exact hih.2
        · rw [f5]; exact hr2
      · exact absurd hxe hxp
      · -- `x` is in the right subtree
        have hxl : x ∉ addrs m l (m p).left := fun h => hdis x h hxr
        have hsub := sub_addrs_subset m r tx (m p).right p x hp.2.2.2.2 hlk.2.2.2 hxr htx
        have hr : r ≠ .nil := by
          intro hr; rw [hr] at hxr; cases hxr
        have hprp : (m (m p).right).parent = p := by
          cases r with
          | nil => exact absurd rfl hr
          | node c2 l2 k2 r2 => exact hlk.2.2.2.1
        have hih := ihr (m p).right p hp.2.2.2.2 hlk.2.2.2 hxr
          (fun a ha h1 h2 => hag a ((hmem a).2 (Or.inr (Or.inr ha))) h1 h2)
        have hxne : x ≠ empty_leaf := addrs_ne m r _ x hp.2.2.2.2 hxr
        have hlx : (m p).left ≠ x := by
          intro h
          by_cases hl : l = .nil
          · rw [hl] at hp
            have : (m p).left = empty_leaf := hp.2.2.2.1
            exact hxne (h.symm.trans this)
          · have h0 := root_mem_addrs m l (m p).left hl
            have : x ∈ addrs m l (m p).left := by rw [← h]; exact h0
            exact hxl this
        have hqcase : ((m p).right = x ∧ (m x).parent = p) ∨
            ((m p).right ≠ x ∧ (m x).parent ∈ addrs m r (m p).right) := by
          by_cases h : (m p).right = x
          · exact Or.inl ⟨h, by rw [← h]; exact hprp⟩
          · exact Or.inr ⟨h, parent_mem m r _ p x hp.2.2.2.2 hlk.2.2.2 hxr (fun h1 => h h1.symm)⟩
        have hlframe : ∀ a ∈ addrs m l (m p).left, m1 a = m a := by
          intro a ha
          refine hag a ((hmem a).2 (Or.inl ha)) (fun h => hdis a ha (hsub a h)) ?_
          rcases hqcase with ⟨_, h2⟩ | ⟨_, h2⟩
          · rw [h2]; intro h; exact hnl (h ▸ ha)
          · intro h; exact hdis a ha (h ▸ h2)
        obtain ⟨hl1, hl2, _⟩ := frame m m1 l (m p).left p hp.2.2.2.1 hlk.2.2.1 hlframe
        rw [replace_not_mem m x u l _ hxl]
        have hpf : (m1 p).parent = (m p).parent ∧ (m1 p).color = (m p).color ∧
            (m1 p).key = (m p).key ∧ (m1 p).left = (m p).left ∧
            (m1 p).right = (if (m p).right = x then x1 else (m p).right) := by
          rcases hqcase with ⟨h1, h2⟩ | ⟨h1, h2⟩
          · have hq1 := hq (by rw [h2]; exact hpne)
            rw [h2] at hq1
            obtain ⟨e1, e2, e3, _, e5⟩ := hq1
            exact ⟨e1, e2, e3, (e5 hlx).1, by rw [if_pos h1]; exact (e5 hlx).2⟩
          · have : m1 p = m p := by
              refine hag p ((hmem p).2 (Or.inr (Or.inl rfl))) (fun h => hnr (hsub p h)) ?_
              intro h; exact hnr (h ▸ h2)
            rw [this, if_neg h1]
            exact ⟨rfl, rfl, rfl, rfl, rfl⟩
        obtain ⟨f1, f2, f3, f4, f5⟩ := hpf
        refine ⟨⟨hpne, ?_, ?_, ?_, ?_⟩, ⟨?_, ?_, ?_, ?_⟩⟩
        · rw [f2]; exact hp.2.1
        · rw [f3]; exact hp.2.2.1
        · rw [f4]; exact hl1
        · rw [f5]; exact hih.1
        · rw [f1]; exact hlk.1
        · rw [f4, f5]
          intro heq
          by_cases h : (m p).right = x
          · rw [if_pos h] at heq
            rcases hfresh with h3 | h3
            · rw [heq, h3]
            · exfalso
              have hx1r := hsub x1 h3
              have hx1ne := addrs_ne m r _ x1 hp.2.2.2.2 hx1r
              have hlne : l ≠ .nil := by
                intro hl
                rw [hl] at hp
                have : (m p).left = empty_leaf := hp.2.2.2.1
                exact hx1ne (heq.symm.trans this)
              have h0 := root_mem_addrs m l (m p).left hlne
              have : x1 ∈ addrs m l (m p).left := by rw [← heq]; exact h0
              exact hdis x1 this hx1r
          · rw [if_neg h] at heq
            exact hlk.2.1 heq
        · rw [f4]; exact hl2
        · rw [f5]; exact hih.2

/-! ### Memory writes -/

theorem setParent_same (m : Nat → node) (p v : Nat) :
    setParent m p v p = { m p with parent := v } := by
  simp only [setParent, if_true]

theorem setParent_other (m : Nat → node) (p v a : Nat) (h : a ≠ p) :
    setParent m p v a = m a := by
  simp only [setParent, if_neg h]

theorem setLeft_same (m : Nat → node) (p v : Nat) :
    setLeft m p v p = { m p with left := v } := by
  simp only [setLeft, if_true]

theorem setLeft_other (m : Nat → node) (p v a : Nat) (h : a ≠ p) :
    setLeft m p v a = m a := by
  simp only [setLeft, if_neg h]

theorem setRight_same (m : Nat → node) (p v : Nat) :
    setRight m p v p = { m p with right := v } := by
  simp only [setRight, if_true]

theorem setRight_other (m : Nat → node) (p v a : Nat) (h : a ≠ p) :
    setRight m p v a = m a := by
  simp only [setRight, if_neg h]

theorem setColor_same (m : Nat → node) (p : Nat) (c : color_t) :
    setColor m p c p = { m p with color := c } := by
  simp only [setColor, if_true]

theorem setColor_other (m : Nat → node) (p : Nat) (c : color_t) (a : Nat) (h : a ≠ p) :
    setColor m p c a = m a := by
  simp only [setColor, if_neg h]

theorem setKey_same (m : Nat → node) (p : Nat) (k : Int) :
    setKey m p k p = { m p with key := k } := by
  simp only [setKey, if_true]

theorem setKey_other (m : Nat → node) (p : Nat) (k : Int) (a : Nat) (h : a ≠ p) :
    setKey m p k a = m a := by
  simp only [setKey, if_neg h]

/-! ### C15: what a rotation writes -/

theorem rotate_left_form (s s1 : rb_tree) (x : Nat) (h : _rotate_left s x = .ok s1)
    (hxy : x ≠ (s.mem x).right)
    (hbx : (s.mem (s.mem x).right).left ≠ x)
    (hqx : (s.mem x).parent ≠ x) (hqy : (s.mem x).parent ≠ (s.mem x).right)
    (hqb : (s.mem x).parent ≠ (s.mem (s.mem x).right).left ∨
      (s.mem (s.mem x).right).left = empty_leaf) :
    x ≠ 0 ∧ (s.mem x).right ≠ empty_leaf ∧ s1.fresh = s.fresh ∧
    ∃ m2 m4, s1.mem = setParent (setLeft m4 (s.mem x).right x) x (s.mem x).right ∧
      (((s.mem (s.mem x).right).left ≠ empty_leaf ∧
          m2 = setParent (setRight s.mem x (s.mem (s.mem x).right).left)
            (s.mem (s.mem x).right).left x) ∨
        ((s.mem (s.mem x).right).left = empty_leaf ∧
          m2 = setRight s.mem x (s.mem (s.mem x).right).left)) ∧
      (((s.mem x).parent = empty_leaf ∧ s1.root = (s.mem x).right ∧
          m4 = setParent m2 (s.mem x).right (s.mem x).parent) ∨
        ((s.mem x).parent ≠ empty_leaf ∧ x = (s.mem (s.mem x).parent).left ∧
          s1.root = s.root ∧
          m4 = setLeft (setParent m2 (s.mem x).right (s.mem x).parent) (s.mem x).parent
            (s.mem x).right) ∨
        ((s.mem x).parent ≠ empty_leaf ∧ x ≠ (s.mem (s.mem x).parent).left ∧
          s1.root = s.root ∧
          m4 = setRight (setParent m2 (s.mem x).right (s.mem x).parent) (s.mem x).parent
            (s.mem x).right)) := by
  unfold _rotate_left at h
  split at h
  · cases h
  split at h
  · cases h
  rename_i hx0 hy
  injection h with h
  subst h
  generalize hyd : (s.mem x).right = y at *
  generalize hbd : (s.mem y).left = b at *
  generalize hqd : (s.mem x).parent = q at *
  have hyx : y ≠ x := fun h => hxy h.symm
  refine ⟨hx0, fun h => hy h.symm, ?_, ?_⟩
  · dsimp only
    repeat' split
    all_goals rfl
  have e1 : (setRight s.mem x b y).left = b := by
    rw [setRight_other _ _ _ _ hyx, hbd]
  -- second write
  have hm2 : ∃ m2, (if (setRight s.mem x b y).left ≠ empty_leaf then
        setParent (setRight s.mem x b) (setRight s.mem x b y).left x
      else setRight s.mem x b) = m2 ∧
      ((b ≠ empty_leaf ∧ m2 = setParent (setRight s.mem x b) b x) ∨
        (b = empty_leaf ∧ m2 = setRight s.mem x b)) ∧ (m2 x).parent = q ∧ m2 q = s.mem q := by
    rw [e1]
    by_cases hb : b = empty_leaf
    · refine ⟨_, rfl, Or.inr ⟨hb, by rw [if_neg (not_not.2 hb)]⟩, ?_, ?_⟩
      · rw [if_neg (not_not.2 hb), setRight_same]
        exact hqd
      · rw [if_neg (not_not.2 hb), setRight_other _ _ _ _ hqx]
    · have hqb1 : q ≠ b := by
        rcases hqb with h | h
        · exact h
        · exact absurd h hb
      refine ⟨_, rfl, Or.inl ⟨hb, by rw [if_pos hb]⟩, ?_, ?_⟩
      · rw [if_pos hb, setParent_other _ _ _ _ (fun h => hbx h.symm), setRight_same]
        exact hqd
      · rw [if_pos hb, setParent_other _ _ _ _ hqb1, setRight_other _ _ _ _ hqx]
  obtain ⟨m2, hm2e, hm2c, hm2x, hm2q⟩ := hm2
  dsimp only
  rw [hm2e]
  have e3 : (setParent m2 y (m2 x).parent x).parent = q := by
    rw [setParent_other _ _ _ _ hxy, hm2x]
  have e4 : (setParent m2 y (m2 x).parent q).left = (s.mem q).left := by
    rw [setParent_other _ _ _ _ hqy, hm2q]
  rw [e3, e4, hm2x]
  by_cases hq : q = empty_leaf
  · rw [if_pos hq]
    exact ⟨m2, _, rfl, hm2c, Or.inl ⟨hq, rfl, rfl⟩⟩
  · rw [if_neg hq]
    by_cases hc : x = (s.mem q).left
    · rw [if_pos hc]
      exact ⟨m2, _, rfl, hm2c, Or.inr (Or.inl ⟨hq, hc, rfl, rfl⟩)⟩
    · rw [if_neg hc]
      exact ⟨m2, _, rfl, hm2c, Or.inr (Or.inr ⟨hq, hc, rfl, rfl⟩)⟩

theorem rotate_left_mem (s s1 : rb_tree) (x : Nat) (h : _rotate_left s x = .ok s1)
    (hxy : x ≠ (s.mem x).right)
    (hbx : (s.mem (s.mem x).right).left ≠ x)
    (hby : (s.mem (s.mem x).right).left ≠ (s.mem x).right)
    (hqx : (s.mem x).parent ≠ x) (hqy : (s.mem x).parent ≠ (s.mem x).right)
    (hqb : (s.mem x).parent ≠ (s.mem (s.mem x).right).left ∨
      (s.mem (s.mem x).right).left = empty_leaf) :
    s1.root = (if (s.mem x).parent = empty_leaf then (s.mem x).right else s.root) ∧
      s1.mem x = { s.mem x with right := (s.mem (s.mem x).right).left,
                                parent := (s.mem x).right } ∧
      s1.mem (s.mem x).right = { s.mem (s.mem x).right with left := x,
                                                            parent := (s.mem x).parent } ∧
      ((s.mem (s.mem x).right).left ≠ empty_leaf →
        s1.mem (s.mem (s.mem x).right).left
          = { s.mem (s.mem (s.mem x).right).left with parent := x }) ∧
      ((s.mem x).parent ≠ empty_leaf →
        s1.mem (s.mem x).parent
          = (if x = (s.mem (s.mem x).parent).left then
              { s.mem (s.mem x).parent with left := (s.mem x).right }
            else { s.mem (s.mem x).parent with right := (s.mem x).right })) ∧
      (∀ a, a ≠ x → a ≠ (s.mem x).right →
        (a ≠ (s.mem (s.mem x).right).left ∨ (s.mem (s.mem x).right).left = empty_leaf) →
        (a ≠ (s.mem x).parent ∨ (s.mem x).parent = empty_leaf) → s1.mem a = s.mem a) := by
  obtain ⟨_, _, _, m2, m4, hmem, hm2c, hm4c⟩ := rotate_left_form s s1 x h hxy hbx hqx hqy hqb
  generalize hyd : (s.mem x).right = y at *
  generalize hbd : (s.mem y).left = b at *
  generalize hqd : (s.mem x).parent = q at *
  have hyx : y ≠ x := fun h => hxy h.symm
  have hxq : x ≠ q := fun h => hqx h.symm
  have hyq : y ≠ q := fun h => hqy h.symm
  have hxb : x ≠ b := fun h => hbx h.symm
  have hyb : y ≠ b := fun h => hby h.symm
  -- the memory after the first two writes
  have hm2x : m2 x = { s.mem x with right := b } := by
    rcases hm2c with ⟨_, h2⟩ | ⟨_, h2⟩
    · rw [h2, setParent_other _ _ _ _ hxb, setRight_same]
    · rw [h2, setRight_same]
  have hm2y : m2 y = s.mem y := by
    rcases hm2c with ⟨_, h2⟩ | ⟨_, h2⟩
    · rw [h2, setParent_other _ _ _ _ hyb, setRight_other _ _ _ _ hyx]
    · rw [h2, setRight_other _ _ _ _ hyx]
  have hm2b : b ≠ empty_leaf → m2 b = { s.mem b with parent := x } := by
    intro hb
    rcases hm2c with ⟨_, h2⟩ | ⟨h1, _⟩
    · rw [h2, setParent_same, setRight_other _ _ _ _ hbx]
    · exact absurd h1 hb
  have hm2a : ∀ a, a ≠ x → (a ≠ b ∨ b = empty_leaf) → m2 a = s.mem a := by
    intro a h1 h3
    rcases hm2c with ⟨hb, h2⟩ | ⟨_, h2⟩
    · have : a ≠ b := by
        rcases h3 with h | h
        · exact h
        · exact absurd h hb
      rw [h2, setParent_other _ _ _ _ this, setRight_other _ _ _ _ h1]
    · rw [h2, setRight_other _ _ _ _ h1]
  -- the memory after the writes to `y` and to the parent
  have hm4x : m4 x = m2 x := by
    rcases hm4c with ⟨_, _, h4⟩ | ⟨_, _, _, h4⟩ | ⟨_, _, _, h4⟩
    · rw [h4, setParent_other _ _ _ _ hxy]
    · rw [h4, setLeft_other _ _ _ _ hxq, setParent_other _ _ _ _ hxy]
    · rw [h4, setRight_other _ _ _ _ hxq, setParent_other _ _ _ _ hxy]
  have hm4y : m4 y = { m2 y with parent := q } := by
    rcases hm4c with ⟨_, _, h4⟩ | ⟨_, _, _, h4⟩ | ⟨_, _, _, h4⟩
    · rw [h4, setParent_same]
    · rw [h4, setLeft_other _ _ _ _ hyq, setParent_same]
    · rw [h4, setRight_other _ _ _ _ hyq, setParent_same]
  have hm4a : ∀ a, a ≠ y → (a ≠ q ∨ q = empty_leaf) → m4 a = m2 a := by
    intro a h2 h4
    rcases hm4c with ⟨_, _, h5⟩ | ⟨hq, _, _, h5⟩ | ⟨hq, _, _, h5⟩
    · rw [h5, setParent_other _ _ _ _ h2]
    · have : a ≠ q := by
        rcases h4 with h | h
        · exact h
        · exact absurd h hq
      rw [h5, setLeft_other _ _ _ _ this, setParent_other _ _ _ _ h2]
    · have : a ≠ q := by
        rcases h4 with h | h
        · exact h
        · exact absurd h hq
      rw [h5, setRight_other _ _ _ _ this, setParent_other _ _ _ _ h2]
  have hm4q : q ≠ empty_leaf → m4 q = (if x = (s.mem q).left then { m2 q with left := y }
      else { m2 q with right := y }) := by
    intro hq
    rcases hm4c with ⟨h1, _, _⟩ | ⟨_, hc, _, h4⟩ | ⟨_, hc, _, h4⟩
    · exact absurd h1 hq
    · rw [h4, setLeft_same, setParent_other _ _ _ _ hqy, if_pos hc]
    · rw [h4, setRight_same, setParent_other _ _ _ _ hqy, if_neg hc]
  refine ⟨?_, ?_, ?_, ?_, ?_, ?_⟩
  · rcases hm4c with ⟨hq, hr, _⟩ | ⟨hq, _, hr, _⟩ | ⟨hq, _, hr, _⟩
    · rw [if_pos hq, hr]
    · rw [if_neg hq, hr]
    · rw [if_neg hq, hr]
  · rw [hmem, setParent_same, setLeft_other _ _ _ _ hxy, hm4x, hm2x]
  · rw [hmem, setParent_other _ _ _ _ hyx, setLeft_same, hm4y, hm2y]
  · intro hb
    have hqb1 : b ≠ q ∨ q = empty_leaf := by
      rcases hqb with h | h
      · exact Or.inl (fun h1 => h h1.symm)
      · exact absurd h hb
    rw [hmem, setParent_other _ _ _ _ hbx, setLeft_other _ _ _ _ hby, hm4a b hby hqb1, hm2b hb]
  · intro hq
    have hqb1 : q ≠ b ∨ b = empty_leaf := hqb
    rw [hmem, setParent_other _ _ _ _ hqx, setLeft_other _ _ _ _ hqy, hm4q hq,
      hm2a q hqx hqb1]
  · intro a h1 h2 h3 h4
    rw [hmem, setParent_other _ _ _ _ h1, setLeft_other _ _ _ _ h2, hm4a a h2 h4, hm2a a h1 h3]

theorem setParent_key_color (m : Nat → node) (p v a : Nat) :
    (setParent m p v a).key = (m a).key ∧ (setParent m p v a).color = (m a).color := by
  unfold setParent
  split
  · rename_i h; rw [h]; exact ⟨rfl, rfl⟩
  · exact ⟨rfl, rfl⟩

theorem setLeft_key_color (m : Nat → node) (p v a : Nat) :
    (setLeft m p v a).key = (m a).key ∧ (setLeft m p v a).color = (m a).color := by
  unfold setLeft
  split
  · rename_i h; rw [h]; exact ⟨rfl, rfl⟩
  · exact ⟨rfl, rfl⟩

theorem setRight_key_color (m : Nat → node) (p v a : Nat) :
    (setRight m p v a).key = (m a).key ∧ (setRight m p v a).color = (m a).color := by
  unfold setRight
  split
  · rename_i h; rw [h]; exact ⟨rfl, rfl⟩
  · exact ⟨rfl, rfl⟩

theorem rotate_left_key_color (s s1 : rb_tree) (x : Nat) (h : _rotate_left s x = .ok s1) :
    ∀ a, (s1.mem a).key = (s.mem a).key ∧ (s1.mem a).color = (s.mem a).color := by
  unfold _rotate_left at h
  split at h
  · cases h
  split at h
  · cases h
  injection h with h
  subst h
  intro a
  dsimp only
  repeat' split
  all_goals
    simp only [(setParent_key_color _ _ _ _).1, (setParent_key_color _ _ _ _).2,
      (setLeft_key_color _ _ _ _).1, (setLeft_key_color _ _ _ _).2,
      (setRight_key_color _ _ _ _).1, (setRight_key_color _ _ _ _).2, and_self]

/-! ### C15: rotations on a well-formed tree -/

theorem parent_not_in_sub (m : Nat → node) :
    ∀ (t : tree) (p par : Nat), is_tree m t p → linked m t p par → par ∉ addrs m t p →
      ∀ a ∈ addrs m t p, ∀ ta, is_tree m ta a → (m a).parent ∉ addrs m ta a := by
  intro t
  induction t with
  | nil => intro p par _ _ _ a ha; cases ha
  | node c l k r ihl ihr =>
    intro p par hp hlk hpar a ha ta hta
    obtain ⟨hnl, hnr⟩ := root_not_mem_children m c l r k p par hp hlk
    simp only [addrs, List.mem_append, List.mem_cons] at ha
    rcases ha with h | h | h
    · exact ihl _ p hp.2.2.2.1 hlk.2.2.1 hnl a h ta hta
    · subst h
      rw [is_tree_unique m ta _ a hta hp, hlk.1]
      exact hpar
    · exact ihr _ p hp.2.2.2.2 hlk.2.2.2 hnr a h ta hta

theorem root_eq_or_mem (m : Nat → node) (t : tree) (p : Nat) (h : is_tree m t p) :
    p = empty_leaf ∨ p ∈ addrs m t p := by
  cases t with
  | nil => exact Or.inl h
  | node c l k r => exact Or.inr (root_mem_addrs m _ p (by simp))

theorem replace_keys (m : Nat → node) (x : Nat) (tx : tree) (htx : is_tree m tx x) :
    ∀ (t : tree) (p par : Nat), is_tree m t p → linked m t p par → x ∈ addrs m t p →
      ∃ pre post, t.keys = pre ++ tx.keys ++ post ∧
        ∀ u, (replace_at m x u t p).keys = pre ++ u.keys ++ post := by
  intro t
  induction t with
  | nil => intro p par _ _ hx; cases hx
  | node c l k r ihl ihr =>
    intro p par hp hlk hx
    by_cases hpx : p = x
    · subst hpx
      refine ⟨[], [], ?_, fun u => ?_⟩
      · rw [is_tree_unique m tx _ p htx hp]
        simp
      · simp [replace_at]
    · have hdis := children_disjoint m c l r k p par hp hlk
      simp only [addrs, List.mem_append, List.mem_cons] at hx
      rcases hx with h | h | h
      · obtain ⟨pre, post, h1, h2⟩ := ihl _ p hp.2.2.2.1 hlk.2.2.1 h
        refine ⟨pre, post ++ k :: r.keys, ?_, fun u => ?_⟩
        · simp only [tree.keys, h1, List.append_assoc]
        · simp only [replace_at, if_neg hpx, tree.keys, h2 u,
            replace_not_mem m x u r _ (hdis x h), List.append_assoc]
      · exact absurd h.symm hpx
      · obtain ⟨pre, post, h1, h2⟩ := ihr _ p hp.2.2.2.2 hlk.2.2.2 h
        refine ⟨l.keys ++ k :: pre, post, ?_, fun u => ?_⟩
        · simp only [tree.keys, h1, List.append_assoc, List.cons_append]
        · simp only [replace_at, if_neg hpx, tree.keys, h2 u,
            replace_not_mem m x u l _ (fun h3 => hdis x h3 h), List.append_assoc,
            List.cons_append]

theorem keys_length (t : tree) : t.keys.length = t.size := by
  induction t with
  | nil => rfl
  | node c l k r ihl ihr =>
    simp only [tree.keys, tree.size, List.length_append, List.length_cons, ihl, ihr]
    omega

theorem root_iff_parent_leaf (m : Nat → node) (t : tree) (p x : Nat) (hp : is_tree m t p)
    (hlk : linked m t p empty_leaf) (hx : x ∈ addrs m t p) :
    (m x).parent = empty_leaf ↔ p = x := by
  constructor
  · intro h
    by_contra hne
    have := parent_mem m t p empty_leaf x hp hlk hx (fun h1 => hne h1.symm)
    exact addrs_ne m t p _ hp this h
  · intro h
    subst h
    cases t with
    | nil => cases hx
    | node c l k r => exact hlk.1

theorem rotate_left_ok (s : rb_tree) (x : Nat) (hx0 : x ≠ 0)
    (hr : (s.mem x).right ≠ empty_leaf) : ∃ s1, _rotate_left s x = .ok s1 := by
  unfold _rotate_left
  rw [if_neg hx0, if_neg (fun h : empty_leaf = (s.mem x).right => hr h.symm)]
  exact ⟨_, rfl⟩

/-! ### C15: the rotated subtree -/

theorem rotated_subtree_left (m m1 : Nat → node) (x y a b c q : Nat) (cx cy : color_t)
    (A B C : tree) (kx ky : Int) (hxne : x ≠ empty_leaf) (hyne : y ≠ empty_leaf)
    (hA : is_tree m A a) (hlA : linked m A a x)
    (hB : is_tree m B b) (hlB : linked m B b y)
    (hC : is_tree m C c) (hlC : linked m C c y)
    (hxA : x ∉ addrs m A a) (hxB : x ∉ addrs m B b) (hxC : x ∉ addrs m C c)
    (hyA : y ∉ addrs m A a) (hyB : y ∉ addrs m B b) (hyC : y ∉ addrs m C c)
    (hAB : ∀ z ∈ addrs m A a, z ∉ addrs m B b) (hBC : ∀ z ∈ addrs m B b, z ∉ addrs m C c)
    (hm1x : m1 x = ⟨y, a, b, cx, kx⟩) (hm1y : m1 y = ⟨q, x, c, cy, ky⟩)
    (hm1b : B ≠ .nil → m1 b = { m b with parent := x })
    (hfr : ∀ z, z ≠ x → z ≠ y → (z ≠ b ∨ B = .nil) →
      (z ∈ addrs m A a ∨ z ∈ addrs m B b ∨ z ∈ addrs m C c) → m1 z = m z) :
    is_tree m1 (.node cy (.node cx A kx B) ky C) y ∧
      linked m1 (.node cy (.node cx A kx B) ky C) y q := by
  have hbB : B ≠ .nil → b ∈ addrs m B b := fun h => root_mem_addrs m B b h
  -- the three subtrees in the new memory
  obtain ⟨hA1, hlA1, _⟩ := frame m m1 A a x hA hlA (by
    intro z hz
    refine hfr z (fun h => hxA (h ▸ hz)) (fun h => hyA (h ▸ hz)) ?_ (Or.inl hz)
    by_cases hBn : B = .nil
    · exact Or.inr hBn
    · exact Or.inl (fun h => hAB z hz (h ▸ hbB hBn)))
  obtain ⟨hC1, hlC1, _⟩ := frame m m1 C c y hC hlC (by
    intro z hz
    refine hfr z (fun h => hxC (h ▸ hz)) (fun h => hyC (h ▸ hz)) ?_ (Or.inr (Or.inr hz))
    by_cases hBn : B = .nil
    · exact Or.inr hBn
    · exact Or.inl (fun h => hBC b (hbB hBn) (h ▸ hz)))
  have hB1 := frame_reparent m m1 B b y hB hlB (by
    intro z hz hzb
    exact hfr z (fun h => hxB (h ▸ hz)) (fun h => hyB (h ▸ hz)) (Or.inl hzb) (Or.inr (Or.inl hz)))
    (by
      intro hBn
      rw [hm1b hBn]
      exact ⟨rfl, rfl, rfl, rfl⟩)
  have hbpar : B ≠ .nil → (m1 b).parent = x := by
    intro hBn
    rw [hm1b hBn]
  have hlB1 : linked m1 B b x := by
    by_cases hBn : B = .nil
    · rw [hBn]; trivial
    · have := hB1.2
      rw [hbpar hBn] at this
      exact this
  have e1 : (m1 y).left = x := by rw [hm1y]
  have e2 : (m1 y).right = c := by rw [hm1y]
  have e3 : (m1 x).left = a := by rw [hm1x]
  have e4 : (m1 x).right = b := by rw [hm1x]
  have hacase := root_eq_or_mem m A a hA
  have hbcase := root_eq_or_mem m B b hB
  have hccase := root_eq_or_mem m C c hC
  refine ⟨⟨hyne, by rw [hm1y], by rw [hm1y], ?_, ?_⟩, ⟨by rw [hm1y], ?_, ?_, ?_⟩⟩
  · rw [e1]
    refine ⟨hxne, by rw [hm1x], by rw [hm1x], ?_, ?_⟩
    · rw [e3]; exact hA1
    · rw [e4]; exact hB1.1
  · rw [e2]; exact hC1
  · rw [e1, e2]
    intro h
    rcases hccase with h1 | h1
    · exact h.trans h1
    · exact absurd (h ▸ h1) hxC
  · rw [e1]
    refine ⟨by rw [hm1x], ?_, ?_, ?_⟩
    · rw [e3, e4]
      intro h
      rcases hacase with h1 | h1
      · exact h1
      · rcases hbcase with h2 | h2
        · exact h.trans h2
        · exact absurd (h ▸ h2) (hAB a h1)
    · rw [e3]; exact hlA1
    · rw [e4]; exact hlB1
  · rw [e2]; exact hlC1

theorem rotate_left_tree (s : rb_tree) (t : tree) (x : Nat) (hwf : well_formed s t)
    (hx : x ∈ addrs s.mem t s.root) (hx0 : x ≠ 0) (hr : (s.mem x).right ≠ empty_leaf) :
    ∃ s1 t1, _rotate_left s x = .ok s1 ∧ well_formed s1 t1 ∧ t1.keys = t.keys ∧
      s1.fresh = s.fresh := by
  obtain ⟨hp, hlk⟩ := hwf
  obtain ⟨tx, htx, hltx, _, _, hsub⟩ := sub_of_mem s.mem t s.root empty_leaf x hp hlk hx
  have hEn : empty_leaf ∉ addrs s.mem t s.root := fun h => addrs_ne s.mem t _ _ hp h rfl
  have hqn := parent_not_in_sub s.mem t s.root empty_leaf hp hlk hEn x hx tx htx
  have hrootiff := root_iff_parent_leaf s.mem t s.root x hp hlk hx
  obtain ⟨s1, hs1⟩ := rotate_left_ok s x hx0 hr
  have hform := rotate_left_form s s1 x hs1
  have hfacts := rotate_left_mem s s1 x hs1
  have hrep := replace_spec s.mem s1.mem x (s.mem x).right tx
  have hkeys := replace_keys s.mem x tx htx t s.root empty_leaf hp hlk hx
  -- the shape of the subtree at `x`
  cases tx with
  | nil => exact absurd htx (addrs_ne s.mem t _ x hp hx)
  | node cx A kx R =>
  cases R with
  | nil => exact absurd htx.2.2.2.2 hr
  | node cy B ky C =>
  have htx0 := htx
  have hltx0 := hltx
  obtain ⟨hxA, hxR⟩ := root_not_mem_children s.mem cx A _ kx x _ htx hltx
  have hAR := children_disjoint s.mem cx A _ kx x _ htx hltx
  obtain ⟨hxne, hcx, hkx, hA, hR⟩ := htx
  obtain ⟨hxpar, hxdist, hlA, hlR⟩ := hltx
  obtain ⟨hyB, hyC⟩ := root_not_mem_children s.mem cy B C ky _ x hR hlR
  have hBC := children_disjoint s.mem cy B C ky _ x hR hlR
  obtain ⟨hyne, hcy, hky, hB, hC⟩ := hR
  obtain ⟨hypar, hydist, hlB, hlC⟩ := hlR
  have hmemX : ∀ z, z ∈ addrs s.mem (.node cx A kx (.node cy B ky C)) x ↔
      z ∈ addrs s.mem A (s.mem x).left ∨ z = x ∨
        z ∈ addrs s.mem B (s.mem (s.mem x).right).left ∨ z = (s.mem x).right ∨
        z ∈ addrs s.mem C (s.mem (s.mem x).right).right := by
    intro z
    simp only [addrs, List.mem_append, List.mem_cons]
  have hmemR : ∀ z, z ∈ addrs s.mem (.node cy B ky C) (s.mem x).right ↔
      z ∈ addrs s.mem B (s.mem (s.mem x).right).left ∨ z = (s.mem x).right ∨
        z ∈ addrs s.mem C (s.mem (s.mem x).right).right := by
    intro z
    simp only [addrs, List.mem_append, List.mem_cons]
  generalize hyd : (s.mem x).right = y at *
  generalize hbd : (s.mem y).left = b at *
  generalize hcd : (s.mem y).right = c at *
  generalize had : (s.mem x).left = a at *
  generalize hqd : (s.mem x).parent = q at *
  -- the nodes involved are pairwise different
  have hxB : x ∉ addrs s.mem B b := fun h => hxR ((hmemR x).2 (Or.inl h))
  have hxC : x ∉ addrs s.mem C c := fun h => hxR ((hmemR x).2 (Or.inr (Or.inr h)))
  have hyA : y ∉ addrs s.mem A a := fun h => hAR y h ((hmemR y).2 (Or.inr (Or.inl rfl)))
  have hAB : ∀ z ∈ addrs s.mem A a, z ∉ addrs s.mem B b :=
    fun z hz h => hAR z hz ((hmemR z).2 (Or.inl h))
  have hxy : x ≠ y := fun h => hxR ((hmemR x).2 (Or.inr (Or.inl h)))
  have hbcase := root_eq_or_mem s.mem B b hB
  have hbx : b ≠ x := by
    intro h
    rcases hbcase with h1 | h1
    · exact hxne (h.symm.trans h1)
    · exact hxB (h ▸ h1)
  have hby : b ≠ y := by
    intro h
    rcases hbcase with h1 | h1
    · exact hyne (h.symm.trans h1)
    · exact hyB (h ▸ h1)
  have hqx : q ≠ x := fun h => hqn ((hmemX q).2 (Or.inr (Or.inl h)))
  have hqy : q ≠ y := fun h => hqn ((hmemX q).2 (Or.inr (Or.inr (Or.inr (Or.inl h)))))
  have hqb : q ≠ b ∨ b = empty_leaf := by
    rcases hbcase with h1 | h1
    · exact Or.inr h1
    · exact Or.inl (fun h => hqn ((hmemX q).2 (Or.inr (Or.inr (Or.inl (h ▸ h1))))))
  obtain ⟨_, _, hfresh, _⟩ := hform hxy hbx hqx hqy hqb
  obtain ⟨hroot1, hm1x, hm1y, hm1b, hm1q, hm1a⟩ := hfacts hxy hbx hby hqx hqy hqb
  have hBnil : B = .nil ↔ b = empty_leaf := (is_tree_root_eq_iff s.mem B b hB).symm
  -- the rotated subtree
  have hsubtree := rotated_subtree_left s.mem s1.mem x y a b c q cx cy A B C kx ky hxne hyne
    hA hlA hB hlB hC hlC hxA hxB hxC hyA hyB hyC hAB hBC
    (by rw [hm1x]; simp only [had, hcx, hkx])
    (by rw [hm1y]; simp only [hcd, hcy, hky])
    (fun h => hm1b (fun h1 => h (hBnil.2 h1)))
    (by
      intro z h1 h2 h3 h4
      refine hm1a z h1 h2 ?_ ?_
      · rcases h3 with h | h
        · exact Or.inl h
        · exact Or.inr (hBnil.1 h)
      · refine Or.inl (fun h => hqn ((hmemX q).2 ?_))
        rw [← h]
        rcases h4 with h5 | h5 | h5
        · exact Or.inl h5
        · exact Or.inr (Or.inr (Or.inl h5))
        · exact Or.inr (Or.inr (Or.inr (Or.inr h5))))
  obtain ⟨hu, hul⟩ := hsubtree
  have hrep1 := hrep (.node cy (.node cx A kx B) ky C) htx0 hu hul
    (Or.inr ((hmemX y).2 (Or.inr (Or.inr (Or.inr (Or.inl rfl))))))
    (by
      intro hq
      rw [hm1q hq]
      by_cases hc : x = (s.mem q).left
      · rw [if_pos hc]
        exact ⟨rfl, rfl, rfl, fun _ => ⟨rfl, rfl⟩, fun h => absurd hc.symm h⟩
      · rw [if_neg hc]
        exact ⟨rfl, rfl, rfl, fun h => absurd h.symm hc, fun _ => ⟨rfl, rfl⟩⟩)
    t s.root empty_leaf hp hlk hx
    (by
      intro z hz hzn hzq
      refine hm1a z (fun h => hzn ((hmemX z).2 (Or.inr (Or.inl h))))
        (fun h => hzn ((hmemX z).2 (Or.inr (Or.inr (Or.inr (Or.inl h)))))) ?_ (Or.inl hzq)
      rcases hbcase with h1 | h1
      · exact Or.inr h1
      · exact Or.inl (fun h => hzn ((hmemX z).2 (Or.inr (Or.inr (Or.inl (h ▸ h1)))))))
  have hroot2 : s1.root = (if s.root = x then y else s.root) := by
    rw [hroot1]
    by_cases h : s.root = x
    · rw [if_pos h, if_pos (hrootiff.2 h)]
    · rw [if_neg h, if_neg (fun h1 => h (hrootiff.1 h1))]
  obtain ⟨pre, post, hk1, hk2⟩ := hkeys
  refine ⟨s1, replace_at s.mem x (.node cy (.node cx A kx B) ky C) t s.root, hs1, ?_, ?_, hfresh⟩
  · unfold well_formed
    rw [hroot2]
    exact hrep1
  · rw [hk2, hk1]
    simp only [tree.keys, List.append_assoc, List.cons_append]

/-! ### C15: `_rotate_right` -/

theorem rotate_right_form (s s1 : rb_tree) (x : Nat) (h : _rotate_right s x = .ok s1)
    (hxy : x ≠ (s.mem x).left)
    (hbx : (s.mem (s.mem x).left).right ≠ x)
    (hqx : (s.mem x).parent ≠ x) (hqy : (s.mem x).parent ≠ (s.mem x).left)
    (hqb : (s.mem x).parent ≠ (s.mem (s.mem x).left).right ∨
      (s.mem (s.mem x).left).right = empty_leaf) :
    x ≠ 0 ∧ (s.mem x).left ≠ empty_leaf ∧ s1.fresh = s.fresh ∧
    ∃ m2 m4, s1.mem = setParent (setRight m4 (s.mem x).left x) x (s.mem x).left ∧
      (((s.mem (s.mem x).left).right ≠ empty_leaf ∧
          m2 = setParent (setLeft s.mem x (s.mem (s.mem x).left).right)
            (s.mem (s.mem x).left).right x) ∨
        ((s.mem (s.mem x).left).right = empty_leaf ∧
          m2 = setLeft s.mem x (s.mem (s.mem x).left).right)) ∧
      (((s.mem x).parent = empty_leaf ∧ s1.root = (s.mem x).left ∧
          m4 = setParent m2 (s.mem x).left (s.mem x).parent) ∨
        ((s.mem x).parent ≠ empty_leaf ∧ x = (s.mem (s.mem x).parent).left ∧
          s1.root = s.root ∧
          m4 = setLeft (setParent m2 (s.mem x).left (s.mem x).parent) (s.mem x).parent
            (s.mem x).left) ∨
        ((s.mem x).parent ≠ empty_leaf ∧ x ≠ (s.mem (s.mem x).parent).left ∧
          s1.root = s.root ∧
          m4 = setRight (setParent m2 (s.mem x).left (s.mem x).parent) (s.mem x).parent
            (s.mem x).left)) := by
  unfold _rotate_right at h
  split at h
  · cases h
  split at h
  · cases h
  rename_i hx0 hy
  injection h with h
  subst h
  generalize hyd : (s.mem x).left = y at *
  generalize hbd : (s.mem y).right = b at *
  generalize hqd : (s.mem x).parent = q at *
  have hyx : y ≠ x := fun h => hxy h.symm
  refine ⟨hx0, fun h => hy h.symm, ?_, ?_⟩
  · dsimp only
    repeat' split
    all_goals rfl
  have e1 : (setLeft s.mem x b y).right = b := by
    rw [setLeft_other _ _ _ _ hyx, hbd]
  -- second write
  have hm2 : ∃ m2, (if (setLeft s.mem x b y).right ≠ empty_leaf then
        setParent (setLeft s.mem x b) (setLeft s.mem x b y).right x
      else setLeft s.mem x b) = m2 ∧
      ((b ≠ empty_leaf ∧ m2 = setParent (setLeft s.mem x b) b x) ∨
        (b = empty_leaf ∧ m2 = setLeft s.mem x b)) ∧ (m2 x).parent = q ∧ m2 q = s.mem q := by
    rw [e1]
    by_cases hb : b = empty_leaf
    · refine ⟨_, rfl, Or.inr ⟨hb, by rw [if_neg (not_not.2 hb)]⟩, ?_, ?_⟩
      · rw [if_neg (not_not.2 hb), setLeft_same]
        exact hqd
      · rw [if_neg (not_not.2 hb), setLeft_other _ _ _ _ hqx]
    · have hqb1 : q ≠ b := by
        rcases hqb with h | h
        · exact h
        · exact absurd h hb
      refine ⟨_, rfl, Or.inl ⟨hb, by rw [if_pos hb]⟩, ?_, ?_⟩
      · rw [if_pos hb, setParent_other _ _ _ _ (fun h => hbx h.symm), setLeft_same]
        exact hqd
      · rw [if_pos hb, setParent_other _ _ _ _ hqb1, setLeft_other _ _ _ _ hqx]
  obtain ⟨m2, hm2e, hm2c, hm2x, hm2q⟩ := hm2
  dsimp only
  rw [hm2e]
  have e3 : (setParent m2 y (m2 x).parent x).parent = q := by
    rw [setParent_other _ _ _ _ hxy, hm2x]
  have e4 : (setParent m2 y (m2 x).parent q).left = (s.mem q).left := by
    rw [setParent_other _ _ _ _ hqy, hm2q]
  rw [e3, e4, hm2x]
  by_cases hq : q = empty_leaf
  · rw [if_pos hq]
    exact ⟨m2, _, rfl, hm2c, Or.inl ⟨hq, rfl, rfl⟩⟩
  · rw [if_neg hq]
    by_cases hc : x = (s.mem q).left
    · rw [if_pos hc]
      exact ⟨m2, _, rfl, hm2c, Or.inr (Or.inl ⟨hq, hc, rfl, rfl⟩)⟩
    · rw [if_neg hc]
      exact ⟨m2, _, rfl, hm2c, Or.inr (Or.inr ⟨hq, hc, rfl, rfl⟩)⟩

theorem rotate_right_mem (s s1 : rb_tree) (x : Nat) (h : _rotate_right s x = .ok s1)
    (hxy : x ≠ (s.mem x).left)
    (hbx : (s.mem (s.mem x).left).right ≠ x)
    (hby : (s.mem (s.mem x).left).right ≠ (s.mem x).left)
    (hqx : (s.mem x).parent ≠ x) (hqy : (s.mem x).parent ≠ (s.mem x).left)
    (hqb : (s.mem x).parent ≠ (s.mem (s.mem x).left).right ∨
      (s.mem (s.mem x).left).right = empty_leaf) :
    s1.root = (if (s.mem x).parent = empty_leaf then (s.mem x).left else s.root) ∧
      s1.mem x = { s.mem x with left := (s.mem (s.mem x).left).right,
                                parent := (s.mem x).left } ∧
      s1.mem (s.mem x).left = { s.mem (s.mem x).left with right := x,
                                                            parent := (s.mem x).parent } ∧
      ((s.mem (s.mem x).left).right ≠ empty_leaf →
        s1.mem (s.mem (s.mem x).left).right
          = { s.mem (s.mem (s.mem x).left).right with parent := x }) ∧
      ((s.mem x).parent ≠ empty_leaf →
        s1.mem (s.mem x).parent
          = (if x = (s.mem (s.mem x).parent).left then
              { s.mem (s.mem x).parent with left := (s.mem x).left }
            else { s.mem (s.mem x).parent with right := (s.mem x).left })) ∧
      (∀ a, a ≠ x → a ≠ (s.mem x).left →
        (a ≠ (s.mem (s.mem x).left).right ∨ (s.mem (s.mem x).left).right = empty_leaf) →
        (a ≠ (s.mem x).parent ∨ (s.mem x).parent = empty_leaf) → s1.mem a = s.mem a) := by
  obtain ⟨_, _, _, m2, m4, hmem, hm2c, hm4c⟩ := rotate_right_form s s1 x h hxy hbx hqx hqy hqb
  generalize hyd : (s.mem x).left = y at *
  generalize hbd : (s.mem y).right = b at *
  generalize hqd : (s.mem x).parent = q at *
  have hyx : y ≠ x := fun h => hxy h.symm
  have hxq : x ≠ q := fun h => hqx h.symm
  have hyq : y ≠ q := fun h => hqy h.symm
  have hxb : x ≠ b := fun h => hbx h.symm
  have hyb : y ≠ b := fun h => hby h.symm
  -- the memory after the first two writes
  have hm2x : m2 x = { s.mem x with left := b } := by
    rcases hm2c with ⟨_, h2⟩ | ⟨_, h2⟩
    · rw [h2, setParent_other _ _ _ _ hxb, setLeft_same]
    · rw [h2, setLeft_same]
  have hm2y : m2 y = s.mem y := by
    rcases hm2c with ⟨_, h2⟩ | ⟨_, h2⟩
    · rw [h2, setParent_other _ _ _ _ hyb, setLeft_other _ _ _ _ hyx]
    · rw [h2, setLeft_other _ _ _ _ hyx]
  have hm2b : b ≠ empty_leaf → m2 b = { s.mem b with parent := x } := by
    intro hb
    rcases hm2c with ⟨_, h2⟩ | ⟨h1, _⟩
    · rw [h2, setParent_same, setLeft_other _ _ _ _ hbx]
    · exact absurd h1 hb
  have hm2a : ∀ a, a ≠ x → (a ≠ b ∨ b = empty_leaf) → m2 a = s.mem a := by
    intro a h1 h3
    rcases hm2c with ⟨hb, h2⟩ | ⟨_, h2⟩
    · have : a ≠ b := by
        rcases h3 with h | h
        · exact h
        · exact absurd h hb
      rw [h2, setParent_other _ _ _ _ this, setLeft_other _ _ _ _ h1]
    · rw [h2, setLeft_other _ _ _ _ h1]
  -- the memory after the writes to `y` and to the parent
  have hm4x : m4 x = m2 x := by
    rcases hm4c with ⟨_, _, h4⟩ | ⟨_, _, _, h4⟩ | ⟨_, _, _, h4⟩
    · rw [h4, setParent_other _ _ _ _ hxy]
    · rw [h4, setLeft_other _ _ _ _ hxq, setParent_other _ _ _ _ hxy]
    · rw [h4, setRight_other _ _ _ _ hxq, setParent_other _ _ _ _ hxy]
  have hm4y : m4 y = { m2 y with parent := q } := by
    rcases hm4c with ⟨_, _, h4⟩ | ⟨_, _, _, h4⟩ | ⟨_, _, _, h4⟩
    · rw [h4, setParent_same]
    · rw [h4, setLeft_other _ _ _ _ hyq, setParent_same]
    · rw [h4, setRight_other _ _ _ _ hyq, setParent_same]
  have hm4a : ∀ a, a ≠ y → (a ≠ q ∨ q = empty_leaf) → m4 a = m2 a := by
    intro a h2 h4
    rcases hm4c with ⟨_, _, h5⟩ | ⟨hq, _, _, h5⟩ | ⟨hq, _, _, h5⟩
    · rw [h5, setParent_other _ _ _ _ h2]
    · have : a ≠ q := by
        rcases h4 with h | h
        · exact h
        · exact absurd h hq
      rw [h5, setLeft_other _ _ _ _ this, setParent_other _ _ _ _ h2]
    · have : a ≠ q := by
        rcases h4 with h | h
        · exact h
        · exact absurd h hq
      rw [h5, setRight_other _ _ _ _ this, setParent_other _ _ _ _ h2]
  have hm4q : q ≠ empty_leaf → m4 q = (if x = (s.mem q).left then { m2 q with left := y }
      else { m2 q with right := y }) := by
    intro hq
    rcases hm4c with ⟨h1, _, _⟩ | ⟨_, hc, _, h4⟩ | ⟨_, hc, _, h4⟩
    · exact absurd h1 hq
    · rw [h4, setLeft_same, setParent_other _ _ _ _ hqy, if_pos hc]
    · rw [h4, setRight_same, setParent_other _ _ _ _ hqy, if_neg hc]
  refine ⟨?_, ?_, ?_, ?_, ?_, ?_⟩
  · rcases hm4c with ⟨hq, hr, _⟩ | ⟨hq, _, hr, _⟩ | ⟨hq, _, hr, _⟩
    · rw [if_pos hq, hr]
    · rw [if_neg hq, hr]
    · rw [if_neg hq, hr]
  · rw [hmem, setParent_same, setRight_other _ _ _ _ hxy, hm4x, hm2x]
  · rw [hmem, setParent_other _ _ _ _ hyx, setRight_same, hm4y, hm2y]
  · intro hb
    have hqb1 : b ≠ q ∨ q = empty_leaf := by
      rcases hqb with h | h
      · exact Or.inl (fun h1 => h h1.symm)
      · exact absurd h hb
    rw [hmem, setParent_other _ _ _ _ hbx, setRight_other _ _ _ _ hby, hm4a b hby hqb1, hm2b hb]
  · intro hq
    have hqb1 : q ≠ b ∨ b = empty_leaf := hqb
    rw [hmem, setParent_other _ _ _ _ hqx, setRight_other _ _ _ _ hqy, hm4q hq,
      hm2a q hqx hqb1]
  · intro a h1 h2 h3 h4
    rw [hmem, setParent_other _ _ _ _ h1, setRight_other _ _ _ _ h2, hm4a a h2 h4, hm2a a h1 h3]


theorem rotate_right_key_color (s s1 : rb_tree) (x : Nat) (h : _rotate_right s x = .ok s1) :
    ∀ a, (s1.mem a).key = (s.mem a).key ∧ (s1.mem a).color = (s.mem a).color := by
  unfold _rotate_right at h
  split at h
  · cases h
  split at h
  · cases h
  injection h with h
  subst h
  intro a
  dsimp only
  repeat' split
  all_goals
    simp only [(setParent_key_color _ _ _ _).1, (setParent_key_color _ _ _ _).2,
      (setRight_key_color _ _ _ _).1, (setRight_key_color _ _ _ _).2,
      (setLeft_key_color _ _ _ _).1, (setLeft_key_color _ _ _ _).2, and_self]

theorem rotate_right_ok (s : rb_tree) (x : Nat) (hx0 : x ≠ 0)
    (hr : (s.mem x).left ≠ empty_leaf) : ∃ s1, _rotate_right s x = .ok s1 := by
  unfold _rotate_right
  rw [if_neg hx0, if_neg (fun h : empty_leaf = (s.mem x).left => hr h.symm)]
  exact ⟨_, rfl⟩

theorem rotated_subtree_right (m m1 : Nat → node) (x y a b c q : Nat) (cx cy : color_t)
    (A B C : tree) (kx ky : Int) (hxne : x ≠ empty_leaf) (hyne : y ≠ empty_leaf)
    (hA : is_tree m A a) (hlA : linked m A a y)
    (hB : is_tree m B b) (hlB : linked m B b y)
    (hC : is_tree m C c) (hlC : linked m C c x)
    (hxA : x ∉ addrs m A a) (hxB : x ∉ addrs m B b) (hxC : x ∉ addrs m C c)
    (hyA : y ∉ addrs m A a) (hyB : y ∉ addrs m B b) (hyC : y ∉ addrs m C c)
    (hAB : ∀ z ∈ addrs m A a, z ∉ addrs m B b) (hBC : ∀ z ∈ addrs m B b, z ∉ addrs m C c)
    (hm1x : m1 x = ⟨y, b, c, cx, kx⟩) (hm1y : m1 y = ⟨q, a, x, cy, ky⟩)
    (hm1b : B ≠ .nil → m1 b = { m b with parent := x })
    (hfr : ∀ z, z ≠ x → z ≠ y → (z ≠ b ∨ B = .nil) →
      (z ∈ addrs m A a ∨ z ∈ addrs m B b ∨ z ∈ addrs m C c) → m1 z = m z) :
    is_tree m1 (.node cy A ky (.node cx B kx C)) y ∧
      linked m1 (.node cy A ky (.node cx B kx C)) y q := by
  have hbB : B ≠ .nil → b ∈ addrs m B b := fun h => root_mem_addrs m B b h
  obtain ⟨hA1, hlA1, _⟩ := frame m m1 A a y hA hlA (by
    intro z hz
    refine hfr z (fun h => hxA (h ▸ hz)) (fun h => hyA (h ▸ hz)) ?_ (Or.inl hz)
    by_cases hBn : B = .nil
    · exact Or.inr hBn
    · exact Or.inl (fun h => hAB z hz (h ▸ hbB hBn)))
  obtain ⟨hC1, hlC1, _⟩ := frame m m1 C c x hC hlC (by
    intro z hz
    refine hfr z (fun h => hxC (h ▸ hz)) (fun h => hyC (h ▸ hz)) ?_ (Or.inr (Or.inr hz))
    by_cases hBn : B = .nil
    · exact Or.inr hBn
    · exact Or.inl (fun h => hBC b (hbB hBn) (h ▸ hz)))
  have hB1 := frame_reparent m m1 B b y hB hlB (by
    intro z hz hzb
    exact hfr z (fun h => hxB (h ▸ hz)) (fun h => hyB (h ▸ hz)) (Or.inl hzb) (Or.inr (Or.inl hz)))
    (by
      intro hBn
      rw [hm1b hBn]
      exact ⟨rfl, rfl, rfl, rfl⟩)
  have hbpar : B ≠ .nil → (m1 b).parent = x := by
    intro hBn
    rw [hm1b hBn]
  have hlB1 : linked m1 B b x := by
    by_cases hBn : B = .nil
    · rw [hBn]; trivial
    · have := hB1.2
      rw [hbpar hBn] at this
      exact this
  have e1 : (m1 y).left = a := by rw [hm1y]
  have e2 : (m1 y).right = x := by rw [hm1y]
  have e3 : (m1 x).left = b := by rw [hm1x]
  have e4 : (m1 x).right = c := by rw [hm1x]
  have hacase := root_eq_or_mem m A a hA
  have hbcase := root_eq_or_mem m B b hB
  have hccase := root_eq_or_mem m C c hC
  refine ⟨⟨hyne, by rw [hm1y], by rw [hm1y], ?_, ?_⟩, ⟨by rw [hm1y], ?_, ?_, ?_⟩⟩
  · rw [e1]; exact hA1
  · rw [e2]
    refine ⟨hxne, by rw [hm1x], by rw [hm1x], ?_, ?_⟩
    · rw [e3]; exact hB1.1
    · rw [e4]; exact hC1
  · rw [e1, e2]
    intro h
    rcases hacase with h1 | h1
    · exact h1
    · exact absurd (h ▸ h1) hxA
  · rw [e1]; exact hlA1
  · rw [e2]
    refine ⟨by rw [hm1x], ?_, ?_, ?_⟩
    · rw [e3, e4]
      intro h
      rcases hbcase with h1 | h1
      · exact h1
      · rcases hccase with h2 | h2
        · exact h.trans h2
        · exact absurd (h ▸ h2) (hBC b h1)
    · rw [e3]; exact hlB1
    · rw [e4]; exact hlC1

theorem rotate_right_tree (s : rb_tree) (t : tree) (x : Nat) (hwf : well_formed s t)
    (hx : x ∈ addrs s.mem t s.root) (hx0 : x ≠ 0) (hr : (s.mem x).left ≠ empty_leaf) :
    ∃ s1 t1, _rotate_right s x = .ok s1 ∧ well_formed s1 t1 ∧ t1.keys = t.keys ∧
      s1.fresh = s.fresh := by
  obtain ⟨hp, hlk⟩ := hwf
  obtain ⟨tx, htx, hltx, _, _, hsub⟩ := sub_of_mem s.mem t s.root empty_leaf x hp hlk hx
  have hEn : empty_leaf ∉ addrs s.mem t s.root := fun h => addrs_ne s.mem t _ _ hp h rfl
  have hqn := parent_not_in_sub s.mem t s.root empty_leaf hp hlk hEn x hx tx htx
  have hrootiff := root_iff_parent_leaf s.mem t s.root x hp hlk hx
  obtain ⟨s1, hs1⟩ := rotate_right_ok s x hx0 hr
  have hform := rotate_right_form s s1 x hs1
  have hfacts := rotate_right_mem s s1 x hs1
  have hrep := replace_spec s.mem s1.mem x (s.mem x).left tx
  have hkeys := replace_keys s.mem x tx htx t s.root empty_leaf hp hlk hx
  cases tx with
  | nil => exact absurd htx (addrs_ne s.mem t _ x hp hx)
  | node cx L kx C =>
  cases L with
  | nil => exact absurd htx.2.2.2.1 hr
  | node cy A ky B =>
  have htx0 := htx
  have hltx0 := hltx
  obtain ⟨hxL, hxC⟩ := root_not_mem_children s.mem cx _ C kx x _ htx hltx
  have hLC := children_disjoint s.mem cx _ C kx x _ htx hltx
  obtain ⟨hxne, hcx, hkx, hL, hC⟩ := htx
  obtain ⟨hxpar, hxdist, hlL, hlC⟩ := hltx
  obtain ⟨hyA, hyB⟩ := root_not_mem_children s.mem cy A B ky _ x hL hlL
  have hAB := children_disjoint s.mem cy A B ky _ x hL hlL
  obtain ⟨hyne, hcy, hky, hA, hB⟩ := hL
  obtain ⟨hypar, hydist, hlA, hlB⟩ := hlL
  have hmemX : ∀ z, z ∈ addrs s.mem (.node cx (.node cy A ky B) kx C) x ↔
      (z ∈ addrs s.mem A (s.mem (s.mem x).left).left ∨ z = (s.mem x).left ∨
        z ∈ addrs s.mem B (s.mem (s.mem x).left).right) ∨ z = x ∨
        z ∈ addrs s.mem C (s.mem x).right := by
    intro z
    simp only [addrs, List.mem_append, List.mem_cons]
  have hmemL : ∀ z, z ∈ addrs s.mem (.node cy A ky B) (s.mem x).left ↔
      z ∈ addrs s.mem A (s.mem (s.mem x).left).left ∨ z = (s.mem x).left ∨
        z ∈ addrs s.mem B (s.mem (s.mem x).left).right := by
    intro z
    simp only [addrs, List.mem_append, List.mem_cons]
  generalize hyd : (s.mem x).left = y at *
  generalize hbd : (s.mem y).right = b at *
  generalize had : (s.mem y).left = a at *
  generalize hcd : (s.mem x).right = c at *
  generalize hqd : (s.mem x).parent = q at *
  have hxA : x ∉ addrs s.mem A a := fun h => hxL ((hmemL x).2 (Or.inl h))
  have hxB : x ∉ addrs s.mem B b := fun h => hxL ((hmemL x).2 (Or.inr (Or.inr h)))
  have hyC : y ∉ addrs s.mem C c := fun h => hLC y ((hmemL y).2 (Or.inr (Or.inl rfl))) h
  have hBC : ∀ z ∈ addrs s.mem B b, z ∉ addrs s.mem C c :=
    fun z hz h => hLC z ((hmemL z).2 (Or.inr (Or.inr hz))) h
  have hxy : x ≠ y := fun h => hxL ((hmemL x).2 (Or.inr (Or.inl h)))
  have hbcase := root_eq_or_mem s.mem B b hB
  have hbx : b ≠ x := by
    intro h
    rcases hbcase with h1 | h1
    · exact hxne (h.symm.trans h1)
    · exact hxB (h ▸ h1)
  have hby : b ≠ y := by
    intro h
    rcases hbcase with h1 | h1
    · exact hyne (h.symm.trans h1)
    · exact hyB (h ▸ h1)
  have hqx : q ≠ x := fun h => hqn ((hmemX q).2 (Or.inr (Or.inl h)))
  have hqy : q ≠ y := fun h => hqn ((hmemX q).2 (Or.inl (Or.inr (Or.inl h))))
  have hqb : q ≠ b ∨ b = empty_leaf := by
    rcases hbcase with h1 | h1
    · exact Or.inr h1
    · exact Or.inl (fun h => hqn ((hmemX q).2 (Or.inl (Or.inr (Or.inr (h ▸ h1))))))
  obtain ⟨_, _, hfresh, _⟩ := hform hxy hbx hqx hqy hqb
  obtain ⟨hroot1, hm1x, hm1y, hm1b, hm1q, hm1a⟩ := hfacts hxy hbx hby hqx hqy hqb
  have hBnil : B = .nil ↔ b = empty_leaf := (is_tree_root_eq_iff s.mem B b hB).symm
  have hsubtree := rotated_subtree_right s.mem s1.mem x y a b c q cx cy A B C kx ky hxne hyne
    hA hlA hB hlB hC hlC hxA hxB hxC hyA hyB hyC hAB hBC
    (by rw [hm1x]; simp only [hcd, hcx, hkx])
    (by rw [hm1y]; simp only [had, hcy, hky])
    (fun h => hm1b (fun h1 => h (hBnil.2 h1)))
    (by
      intro z h1 h2 h3 h4
      refine hm1a z h1 h2 ?_ ?_
      · rcases h3 with h | h
        · exact Or.inl h
        · exact Or.inr (hBnil.1 h)
      · refine Or.inl (fun h => hqn ((hmemX q).2 ?_))
        rw [← h]
        rcases h4 with h5 | h5 | h5
        · exact Or.inl (Or.inl h5)
        · exact Or.inl (Or.inr (Or.inr h5))
        · exact Or.inr (Or.inr h5))
  obtain ⟨hu, hul⟩ := hsubtree
  have hrep1 := hrep (.node cy A ky (.node cx B kx C)) htx0 hu hul
    (Or.inr ((hmemX y).2 (Or.inl (Or.inr (Or.inl rfl)))))
    (by
      intro hq
      rw [hm1q hq]
      by_cases hc : x = (s.mem q).left
      · rw [if_pos hc]
        exact ⟨rfl, rfl, rfl, fun _ => ⟨rfl, rfl⟩, fun h => absurd hc.symm h⟩
      · rw [if_neg hc]
        exact ⟨rfl, rfl, rfl, fun h => absurd h.symm hc, fun _ => ⟨rfl, rfl⟩⟩)
    t s.root empty_leaf hp hlk hx
    (by
      intro z hz hzn hzq
      refine hm1a z (fun h => hzn ((hmemX z).2 (Or.inr (Or.inl h))))
        (fun h => hzn ((hmemX z).2 (Or.inl (Or.inr (Or.inl h))))) ?_ (Or.inl hzq)
      rcases hbcase with h1 | h1
      · exact Or.inr h1
      · exact Or.inl (fun h => hzn ((hmemX z).2 (Or.inl (Or.inr (Or.inr (h ▸ h1)))))))
  have hroot2 : s1.root = (if s.root = x then y else s.root) := by
    rw [hroot1]
    by_cases h : s.root = x
    · rw [if_pos h, if_pos (hrootiff.2 h)]
    · rw [if_neg h, if_neg (fun h1 => h (hrootiff.1 h1))]
  obtain ⟨pre, post, hk1, hk2⟩ := hkeys
  refine ⟨s1, replace_at s.mem x (.node cy A ky (.node cx B kx C)) t s.root, hs1, ?_, ?_, hfresh⟩
  · unfold well_formed
    rw [hroot2]
    exact hrep1
  · rw [hk2, hk1]
    simp only [tree.keys, List.append_assoc, List.cons_append]

theorem walk_keys_spec (s : rb_tree) (t : tree) (fuel : Nat) (hwf : well_formed s t)
    (hf : t.size + 1 < fuel) : walk_keys s fuel = .ok t.keys := by
  obtain ⟨hp, hlk⟩ := hwf
  have hkeys := addrs_keys s.mem t s.root hp
  by_cases ht : t = .nil
  · subst ht
    have h0 : s.root = empty_leaf := hp
    simp only [walk_keys, walk, h0, if_true, tree.keys, List.map_nil]
  · have hroot : s.root ≠ empty_leaf := fun h => ht ((is_tree_root_eq_iff s.mem t _ hp).1 h)
    have hlast := next_of_last_root s.mem t s.root fuel hp hlk ht (by omega)
    have hch := subtree_next_chain s.mem fuel t s.root empty_leaf empty_leaf empty_leaf
      hp hlk ht (by omega) hlast
    have hmin := min_eq_first s.mem t s.root empty_leaf fuel hp ht (by omega)
    obtain ⟨tl, htl⟩ := addrs_first s.mem t s.root empty_leaf ht
    have hlen := addrs_length s.mem t s.root
    have hwalk : walk s fuel = .ok (addrs s.mem t s.root) := by
      simp only [walk, if_neg hroot, hmin]
      rw [htl]
      apply walk_loop_chain
      · rw [← htl]; exact hch
      · intro z hz
        rw [← htl] at hz
        exact addrs_ne s.mem t s.root z hp hz
      · rw [htl] at hlen
        simp only [List.length_cons] at hlen
        omega
    simp only [walk_keys, hwalk, hkeys]

/-- C15: on a well-formed tree, for a node `x` of the tree (a non-null
address) whose right child is not the sentinel, `_rotate_left(x)` returns, the
result is again a well-formed tree, its in-order key sequence and hence its
`size()` are those of the old tree, and no node's key or colour has changed;
the same holds for `_rotate_right(x)` when the left child of `x` is not the
sentinel. -/
theorem rotations_preserve_inorder (s : rb_tree) (t : tree) (x fuel : Nat)
    (hwf : well_formed s t) (hx : x ∈ addrs s.mem t s.root) (hx0 : x ≠ 0)
    (hf : t.size < fuel) :
    ((s.mem x).right ≠ empty_leaf →
      ∃ s1 t1, _rotate_left s x = .ok s1 ∧ well_formed s1 t1 ∧ t1.keys = t.keys ∧
        walk_keys s1 (fuel + 1) = walk_keys s (fuel + 1) ∧ size s1 fuel = size s fuel ∧
        ∀ a, (s1.mem a).key = (s.mem a).key ∧ (s1.mem a).color = (s.mem a).color) ∧
    ((s.mem x).left ≠ empty_leaf →
      ∃ s1 t1, _rotate_right s x = .ok s1 ∧ well_formed s1 t1 ∧ t1.keys = t.keys ∧
        walk_keys s1 (fuel + 1) = walk_keys s (fuel + 1) ∧ size s1 fuel = size s fuel ∧
        ∀ a, (s1.mem a).key = (s.mem a).key ∧ (s1.mem a).color = (s.mem a).color) := by
  have hws := walk_keys_spec s t (fuel + 1) hwf (by omega)
  have hss := size_rec_spec s.mem t s.root fuel hwf.1 hf
  constructor
  · intro hr
    obtain ⟨s1, t1, h1, hwf1, hk, _⟩ := rotate_left_tree s t x hwf hx hx0 hr
    have hsz : t1.size = t.size := by rw [← keys_length, ← keys_length, hk]
    refine ⟨s1, t1, h1, hwf1, hk, ?_, ?_, rotate_left_key_color s s1 x h1⟩
    · rw [hws, walk_keys_spec s1 t1 (fuel + 1) hwf1 (by omega), hk]
    · unfold size
      rw [hss, size_rec_spec s1.mem t1 s1.root fuel hwf1.1 (by omega), hsz]
  · intro hr
    obtain ⟨s1, t1, h1, hwf1, hk, _⟩ := rotate_right_tree s t x hwf hx hx0 hr
    have hsz : t1.size = t.size := by rw [← keys_length, ← keys_length, hk]
    refine ⟨s1, t1, h1, hwf1, hk, ?_, ?_, rotate_right_key_color s s1 x h1⟩
    · rw [hws, walk_keys_spec s1 t1 (fuel + 1) hwf1 (by omega), hk]
    · unfold size
      rw [hss, size_rec_spec s1.mem t1 s1.root fuel hwf1.1 (by omega), hsz]

theorem rotations_preserve_inorder_witness :
    well_formed t10 t10_shape ∧ 8 ∈ addrs t10.mem t10_shape t10.root ∧
      (t10.mem 8).right ≠ empty_leaf ∧ (t10.mem 8).left ≠ empty_leaf ∧
      (∃ s1 t1, _rotate_left t10 8 = .ok s1 ∧ well_formed s1 t1 ∧ t1.keys = t10_shape.keys ∧
        walk_keys s1 12 = walk_keys t10 12 ∧ size s1 11 = size t10 11 ∧
        ∀ a, (s1.mem a).key = (t10.mem a).key ∧ (s1.mem a).color = (t10.mem a).color) ∧
      (∃ s1 t1, _rotate_right t10 8 = .ok s1 ∧ well_formed s1 t1 ∧ t1.keys = t10_shape.keys ∧
        walk_keys s1 12 = walk_keys t10 12 ∧ size s1 11 = size t10 11 ∧
        ∀ a, (s1.mem a).key = (t10.mem a).key ∧ (s1.mem a).color = (t10.mem a).color) :=
  ⟨by decide, by decide, by decide, by decide,
    (rotations_preserve_inorder t10 t10_shape 8 11 (by decide) (by decide) (by decide)
      (by decide)).1 (by decide),
    (rotations_preserve_inorder t10 t10_shape 8 11 (by decide) (by decide) (by decide)
      (by decide)).2 (by decide)⟩

/-! ### C17, C18: what the splice of `remove` writes -/

theorem setKey_color (m : Nat → node) (p : Nat) (k : Int) (a : Nat) :
    (setKey m p k a).color = (m a).color := by
  unfold setKey
  split
  · rename_i h; rw [h]
  · rfl

theorem splice_form (s s3 : rb_tree) (fuel z y x : Nat) (yb : Bool)
    (hy : (if (s.mem z).left = empty_leaf ∨ (s.mem z).right = empty_leaf then Except.ok z
      else _next s.mem fuel z) = .ok y)
    (h : remove_splice s fuel z = .ok (s3, x, yb))
    (hxy : (if (s.mem y).left ≠ empty_leaf then (s.mem y).left else (s.mem y).right) ≠ y)
    (hqx : (s.mem y).parent ≠
        (if (s.mem y).left ≠ empty_leaf then (s.mem y).left else (s.mem y).right) ∨
      (s.mem y).parent = empty_leaf) :
    x = (if (s.mem y).left ≠ empty_leaf then (s.mem y).left else (s.mem y).right) ∧
      yb = decide ((s.mem y).color = .black) ∧ s3.fresh = s.fresh ∧
      ∃ m2, (((s.mem y).parent = empty_leaf ∧ s3.root = x ∧
            m2 = setParent s.mem x (s.mem y).parent) ∨
          ((s.mem y).parent ≠ empty_leaf ∧ y = (s.mem (s.mem y).parent).left ∧
            s3.root = s.root ∧
            m2 = setLeft (setParent s.mem x (s.mem y).parent) (s.mem y).parent x) ∨
          ((s.mem y).parent ≠ empty_leaf ∧ y ≠ (s.mem (s.mem y).parent).left ∧
            s3.root = s.root ∧
            m2 = setRight (setParent s.mem x (s.mem y).parent) (s.mem y).parent x)) ∧
        ((y = z ∧ s3.mem = m2) ∨ (y ≠ z ∧ s3.mem = setKey m2 z (s.mem y).key)) := by
  unfold remove_splice at h
  simp only [hy] at h
  generalize hxd : (if (s.mem y).left ≠ empty_leaf then (s.mem y).left else (s.mem y).right)
    = x0 at *
  generalize hqd : (s.mem y).parent = q at *
  have hyx : y ≠ x0 := fun h => hxy h.symm
  have e1 : (setParent s.mem x0 q y).parent = q := by
    rw [setParent_other _ _ _ _ hyx, hqd]
  rw [e1] at h
  injection h with h
  injection h with h1 h2
  injection h2 with h2 h3
  subst h2
  have hcol : yb = decide ((s.mem y).color = .black) := by
    rw [← h3]
    congr 1
    dsimp only
    repeat' split
    all_goals
      simp only [setKey_color, (setParent_key_color _ _ _ _).2, (setLeft_key_color _ _ _ _).2,
        (setRight_key_color _ _ _ _).2]
  refine ⟨rfl, hcol, ?_, ?_⟩
  · rw [← h1]
    dsimp only
    repeat' split
    all_goals rfl
  by_cases hq : q = empty_leaf
  · rw [if_pos hq] at h1
    dsimp only at h1
    refine ⟨_, Or.inl ⟨hq, by rw [← h1], rfl⟩, ?_⟩
    by_cases hyz : y = z
    · rw [if_neg (not_not.2 hyz)] at h1
      exact Or.inl ⟨hyz, by rw [← h1]⟩
    · rw [if_pos hyz] at h1
      refine Or.inr ⟨hyz, ?_⟩
      rw [← h1, (setParent_key_color _ _ _ _).1]
  · rw [if_neg hq] at h1
    have hqx1 : q ≠ x0 := by
      rcases hqx with h1 | h1
      · exact h1
      · exact absurd h1 hq
    have e4 : (setParent s.mem x0 q q).left = (s.mem q).left := by
      rw [setParent_other _ _ _ _ hqx1]
    rw [e4] at h1
    by_cases hc : y = (s.mem q).left
    · rw [if_pos hc] at h1
      dsimp only at h1
      refine ⟨_, Or.inr (Or.inl ⟨hq, hc, by rw [← h1], rfl⟩), ?_⟩
      by_cases hyz : y = z
      · rw [if_neg (not_not.2 hyz)] at h1
        exact Or.inl ⟨hyz, by rw [← h1]⟩
      · rw [if_pos hyz] at h1
        refine Or.inr ⟨hyz, ?_⟩
        rw [← h1, (setLeft_key_color _ _ _ _).1, (setParent_key_color _ _ _ _).1]
    · rw [if_neg hc] at h1
      dsimp only at h1
      refine ⟨_, Or.inr (Or.inr ⟨hq, hc, by rw [← h1], rfl⟩), ?_⟩
      by_cases hyz : y = z
      · rw [if_neg (not_not.2 hyz)] at h1
        exact Or.inl ⟨hyz, by rw [← h1]⟩
      · rw [if_pos hyz] at h1
        refine Or.inr ⟨hyz, ?_⟩
        rw [← h1, (setRight_key_color _ _ _ _).1, (setParent_key_color _ _ _ _).1]

theorem splice_mem (s s3 : rb_tree) (z y x q : Nat)
    (hform : ∃ m2, ((q = empty_leaf ∧ s3.root = x ∧ m2 = setParent s.mem x q) ∨
          (q ≠ empty_leaf ∧ y = (s.mem q).left ∧ s3.root = s.root ∧
            m2 = setLeft (setParent s.mem x q) q x) ∨
          (q ≠ empty_leaf ∧ y ≠ (s.mem q).left ∧ s3.root = s.root ∧
            m2 = setRight (setParent s.mem x q) q x)) ∧
        ((y = z ∧ s3.mem = m2) ∨ (y ≠ z ∧ s3.mem = setKey m2 z (s.mem y).key))) :
    s3.root = (if q = empty_leaf then x else s.root) ∧
      (∀ a, a ≠ x → (a ≠ q ∨ q = empty_leaf) → (a ≠ z ∨ y = z) → s3.mem a = s.mem a) ∧
      ((x ≠ q ∨ q = empty_leaf) → (x ≠ z ∨ y = z) → s3.mem x = { s.mem x with parent := q }) ∧
      (q ≠ empty_leaf → q ≠ x → (q ≠ z ∨ y = z) →
        s3.mem q = (if y = (s.mem q).left then { s.mem q with left := x }
          else { s.mem q with right := x })) ∧
      (y ≠ z → z ≠ x → (z ≠ q ∨ q = empty_leaf) →
        s3.mem z = { s.mem z with key := (s.mem y).key }) ∧
      (y ≠ z → z = q → q ≠ empty_leaf → q ≠ x →
        s3.mem z = (if y = (s.mem q).left then
            { s.mem q with left := x, key := (s.mem y).key }
          else { s.mem q with right := x, key := (s.mem y).key })) := by
  obtain ⟨m2, hm2, hm3⟩ := hform
  have hroot : s3.root = (if q = empty_leaf then x else s.root) := by
    rcases hm2 with ⟨hq, hr, _⟩ | ⟨hq, _, hr, _⟩ | ⟨hq, _, hr, _⟩
    · rw [if_pos hq, hr]
    · rw [if_neg hq, hr]
    · rw [if_neg hq, hr]
  have h2a : ∀ a, a ≠ x → (a ≠ q ∨ q = empty_leaf) → m2 a = s.mem a := by
    intro a h1 h2
    rcases hm2 with ⟨_, _, h5⟩ | ⟨hq, _, _, h5⟩ | ⟨hq, _, _, h5⟩
    · rw [h5, setParent_other _ _ _ _ h1]
    · have : a ≠ q := by
        rcases h2 with h | h
        · exact h
        · exact absurd h hq
      rw [h5, setLeft_other _ _ _ _ this, setParent_other _ _ _ _ h1]
    · have : a ≠ q := by
        rcases h2 with h | h
        · exact h
        · exact absurd h hq
      rw [h5, setRight_other _ _ _ _ this, setParent_other _ _ _ _ h1]
  have h2x : (x ≠ q ∨ q = empty_leaf) → m2 x = { s.mem x with parent := q } := by
    intro h2
    rcases hm2 with ⟨_, _, h5⟩ | ⟨hq, _, _, h5⟩ | ⟨hq, _, _, h5⟩
    · rw [h5, setParent_same]
    · have : x ≠ q := by
        rcases h2 with h | h
        · exact h
        · exact absurd h hq
      rw [h5, setLeft_other _ _ _ _ this, setParent_same]
    · have : x ≠ q := by
        rcases h2 with h | h
        · exact h
        · exact absurd h hq
      rw [h5, setRight_other _ _ _ _ this, setParent_same]
  have h2q : q ≠ empty_leaf → q ≠ x →
      m2 q = (if y = (s.mem q).left then { s.mem q with left := x }
        else { s.mem q with right := x }) := by
    intro hq hqx
    rcases hm2 with ⟨h1, _, _⟩ | ⟨_, hc, _, h5⟩ | ⟨_, hc, _, h5⟩
    · exact absurd h1 hq
    · rw [h5, setLeft_same, setParent_other _ _ _ _ hqx, if_pos hc]
    · rw [h5, setRight_same, setParent_other _ _ _ _ hqx, if_neg hc]
  have h3a : ∀ a, (a ≠ z ∨ y = z) → s3.mem a = m2 a := by
    intro a h1
    rcases hm3 with ⟨_, h5⟩ | ⟨hyz, h5⟩
    · rw [h5]
    · have : a ≠ z := by
        rcases h1 with h | h
        · exact h
        · exact absurd h hyz
      rw [h5, setKey_other _ _ _ _ this]
  have h3z : y ≠ z → s3.mem z = { m2 z with key := (s.mem y).key } := by
    intro hyz
    rcases hm3 with ⟨h1, _⟩ | ⟨_, h5⟩
    · exact absurd h1 hyz
    · rw [h5, setKey_same]
  refine ⟨hroot, ?_, ?_, ?_, ?_, ?_⟩
  · intro a h1 h2 h3
    rw [h3a a h3, h2a a h1 h2]
  · intro h1 h2
    rw [h3a x h2, h2x h1]
  · intro hq hqx h3
    rw [h3a q h3, h2q hq hqx]
  · intro hyz hzx hzq
    rw [h3z hyz, h2a z hzx hzq]
  · intro hyz hzq hq hqx
    rw [h3z hyz, hzq, h2q hq hqx]
    split <;> rfl

/-! ### C17, C18: abstract facts about replacing a subtree -/

theorem replace_at_node (m : Nat → node) (x : Nat) (u : tree) (c : color_t) (l r : tree)
    (k : Int) (p : Nat) :
    replace_at m x u (.node c l k r) p = (if p = x then u
      else .node c (replace_at m x u l (m p).left) k (replace_at m x u r (m p).right)) := rfl

theorem mem_addrs_node (m : Nat → node) (c : color_t) (l r : tree) (k : Int) (p a : Nat) :
    a ∈ addrs m (.node c l k r) p ↔
      a ∈ addrs m l (m p).left ∨ a = p ∨ a ∈ addrs m r (m p).right := by
  simp only [addrs, List.mem_append, List.mem_cons]

theorem first_mem (m : Nat → node) :
    ∀ (t : tree) (p d : Nat), t ≠ .nil → first m t p d ∈ addrs m t p := by
  intro t p d ht
  obtain ⟨tl, htl⟩ := addrs_first m t p d ht
  rw [htl]
  exact List.mem_cons_self _ _

theorem first_left_nil (m : Nat → node) :
    ∀ (t : tree) (p d : Nat), is_tree m t p → t ≠ .nil →
      (m (first m t p d)).left = empty_leaf := by
  intro t
  induction t with
  | nil => intro p d _ h; exact absurd rfl h
  | node c l k r ihl _ =>
    intro p d hp _
    cases l with
    | nil => exact hp.2.2.2.1
    | node c2 l2 k2 r2 => exact ihl (m p).left p hp.2.2.2.1 (by simp)

theorem replace_first_keys (m : Nat → node) (ty : tree) :
    ∀ (t : tree) (p par d : Nat), is_tree m t p → linked m t p par → t ≠ .nil →
      is_tree m ty (first m t p d) →
      ∃ post, t.keys = ty.keys ++ post ∧
        ∀ u, (replace_at m (first m t p d) u t p).keys = u.keys ++ post := by
  intro t
  induction t with
  | nil => intro p par d _ _ h; exact absurd rfl h
  | node c l k r ihl _ =>
    intro p par d hp hlk _ hty
    cases l with
    | nil =>
      have hf : first m (.node c .nil k r) p d = p := rfl
      rw [hf] at hty ⊢
      refine ⟨[], ?_, fun u => ?_⟩
      · rw [is_tree_unique m ty _ p hty hp]; simp
      · simp [replace_at]
    | node c2 l2 k2 r2 =>
      have hf : first m (.node c (.node c2 l2 k2 r2) k r) p d
          = first m (.node c2 l2 k2 r2) (m p).left p := rfl
      rw [hf] at hty ⊢
      obtain ⟨post, h1, h2⟩ := ihl (m p).left p p hp.2.2.2.1 hlk.2.2.1 (by simp) hty
      have hfm := first_mem m (.node c2 l2 k2 r2) (m p).left p (by simp)
      obtain ⟨hnl, _⟩ := root_not_mem_children m c _ r k p par hp hlk
      have hdis := children_disjoint m c _ r k p par hp hlk
      have hpf : p ≠ first m (.node c2 l2 k2 r2) (m p).left p := by
        intro h
        have h0 := hfm
        rw [← h] at h0
        exact hnl h0
      refine ⟨post ++ k :: r.keys, ?_, fun u => ?_⟩
      · have hk : (tree.node c (.node c2 l2 k2 r2) k r).keys
            = (tree.node c2 l2 k2 r2).keys ++ k :: r.keys := rfl
        rw [hk, h1, List.append_assoc]
      · rw [replace_at_node, if_neg hpf, replace_not_mem m _ u r _ (hdis _ hfm)]
        have hk : ∀ (a b : tree), (tree.node c a k b).keys = a.keys ++ k :: b.keys :=
          fun _ _ => rfl
        rw [hk, h2 u, List.append_assoc]

theorem color_cases (c : color_t) : c = .black ∨ c = .red := by
  cases c
  · exact Or.inl rfl
  · exact Or.inr rfl

theorem replace_rb (m : Nat → node) (x : Nat) (tx u : tree) (htx : is_tree m tx x)
    (hbh : u.black_height = tx.black_height)
    (hcol : u.root_color = .red → tx.root_color = .red)
    (hn : tx.no_red_red → u.no_red_red) (hb : tx.balanced → u.balanced) :
    ∀ (t : tree) (p par : Nat), is_tree m t p → linked m t p par → x ∈ addrs m t p →
      (replace_at m x u t p).black_height = t.black_height ∧
        ((replace_at m x u t p).root_color = .red → t.root_color = .red) ∧
        (t.no_red_red → (replace_at m x u t p).no_red_red) ∧
        (t.balanced → (replace_at m x u t p).balanced) := by
  intro t
  induction t with
  | nil => intro p par _ _ hx; cases hx
  | node c l k r ihl ihr =>
    intro p par hp hlk hx
    by_cases hpx : p = x
    · subst hpx
      have := is_tree_unique m tx _ p htx hp
      subst this
      simp only [replace_at, if_true]
      exact ⟨hbh, hcol, hn, hb⟩
    · have hdis := children_disjoint m c l r k p par hp hlk
      simp only [addrs, List.mem_append, List.mem_cons] at hx
      simp only [replace_at, if_neg hpx]
      rcases hx with h | h | h
      · obtain ⟨h1, h2, h3, h4⟩ := ihl _ p hp.2.2.2.1 hlk.2.2.1 h
        rw [replace_not_mem m x u r _ (hdis x h)]
        refine ⟨?_, fun hc => hc, ?_, ?_⟩
        · simp only [tree.black_height, h1]
        · rintro ⟨g1, g2, g3⟩
          refine ⟨fun hc => ⟨?_, (g1 hc).2⟩, h3 g2, g3⟩
          rcases color_cases (replace_at m x u l (m p).left).root_color with e | e
          · exact e
          · have := h2 e
            rw [(g1 hc).1] at this
            cases this
        · rintro ⟨g1, g2, g3⟩
          exact ⟨by rw [h1]; exact g1, h4 g2, g3⟩
      · exact absurd h.symm hpx
      · obtain ⟨h1, h2, h3, h4⟩ := ihr _ p hp.2.2.2.2 hlk.2.2.2 h
        rw [replace_not_mem m x u l _ (fun h5 => hdis x h5 h)]
        refine ⟨?_, fun hc => hc, ?_, ?_⟩
        · simp only [tree.black_height]
        · rintro ⟨g1, g2, g3⟩
          refine ⟨fun hc => ⟨(g1 hc).1, ?_⟩, g2, h3 g3⟩
          rcases color_cases (replace_at m x u r (m p).right).root_color with e | e
          · exact e
          · have := h2 e
            rw [(g1 hc).2] at this
            cases this
        · rintro ⟨g1, g2, g3⟩
          exact ⟨by rw [h1]; exact g1, g2, h4 g3⟩

theorem black_leaf_of_height_zero (t : tree) (hb : t.black_height = 0)
    (hc : t.root_color = .black) : t = .nil := by
  cases t with
  | nil => rfl
  | node c l k r =>
    have : c = .black := hc
    subst this
    simp [tree.black_height] at hb

theorem search_loop_addr (m : Nat → node) (k : Int) :
    ∀ (t : tree) (p fuel z : Nat), is_tree m t p → search_loop m k fuel p = .ok z →
      z ≠ empty_leaf → z ∈ addrs m t p ∧ (m z).key = k := by
  intro t
  induction t with
  | nil =>
    intro p fuel z hp hz hne
    have h0 : p = empty_leaf := hp
    cases fuel with
    | zero => cases hz
    | succ f =>
      simp only [search_loop, h0, ne_eq, not_true_eq_false, false_and, if_false] at hz
      injection hz with hz
      exact absurd hz.symm hne
  | node c l kk r ihl ihr =>
    intro p fuel z hp hz hne
    cases fuel with
    | zero => cases hz
    | succ f =>
      simp only [search_loop] at hz
      split at hz
      · split at hz
        · have := ihl _ f z hp.2.2.2.1 hz hne
          exact ⟨(mem_addrs_node _ _ _ _ _ _ _).2 (Or.inl this.1), this.2⟩
        · have := ihr _ f z hp.2.2.2.2 hz hne
          exact ⟨(mem_addrs_node _ _ _ _ _ _ _).2 (Or.inr (Or.inr this.1)), this.2⟩
      · rename_i hcond
        injection hz with hz
        subst hz
        refine ⟨(mem_addrs_node _ _ _ _ _ _ _).2 (Or.inr (Or.inl rfl)), ?_⟩
        by_contra hk
        exact hcond ⟨hp.1, fun h => hk h.symm⟩

/-! ### C17, C18: the tree after the splice -/

theorem recol_keys (c : color_t) (t : tree) : (recol c t).keys = t.keys := by
  cases t <;> rfl

theorem height_le_size (t : tree) : t.height ≤ t.size := by
  induction t with
  | nil => exact Nat.le_refl _
  | node c l k r ihl ihr =>
    simp only [tree.height, tree.size]
    omega

theorem parent_child (m : Nat → node) :
    ∀ (t : tree) (p par a : Nat), is_tree m t p → linked m t p par → a ∈ addrs m t p →
      a ≠ p → (m (m a).parent).left = a ∨ (m (m a).parent).right = a := by
  intro t
  induction t with
  | nil => intro p par a _ _ ha; cases ha
  | node c l k r ihl ihr =>
    intro p par a hp hlk ha hne
    rcases (mem_addrs_node m c l r k p a).1 ha with h | h | h
    · by_cases hc : a = (m p).left
      · cases l with
        | nil => cases h
        | node c2 l2 k2 r2 =>
          have h1 : (m (m p).left).parent = p := hlk.2.2.1.1
          rw [← hc] at h1
          rw [h1]
          exact Or.inl hc.symm
      · exact ihl _ p a hp.2.2.2.1 hlk.2.2.1 h hc
    · exact absurd h hne
    · by_cases hc : a = (m p).right
      · cases r with
        | nil => cases h
        | node c2 l2 k2 r2 =>
          have h1 : (m (m p).right).parent = p := hlk.2.2.2.1
          rw [← hc] at h1
          rw [h1]
          exact Or.inr hc.symm
      · exact ihr _ p a hp.2.2.2.2 hlk.2.2.2 h hc

theorem sub_rb (m : Nat → node) :
    ∀ (t : tree) (p a : Nat) (ta : tree), is_tree m t p → a ∈ addrs m t p → is_tree m ta a →
      (t.no_red_red → ta.no_red_red) ∧ (t.balanced → ta.balanced) := by
  intro t
  induction t with
  | nil => intro p a ta _ ha; cases ha
  | node c l k r ihl ihr =>
    intro p a ta hp ha hta
    rcases (mem_addrs_node m c l r k p a).1 ha with h | h | h
    · have := ihl _ a ta hp.2.2.2.1 h hta
      exact ⟨fun g => this.1 g.2.1, fun g => this.2 g.2.1⟩
    · subst h
      have := is_tree_unique m ta _ a hta hp
      subst this
      exact ⟨fun g => g, fun g => g⟩
    · have := ihr _ a ta hp.2.2.2.2 h hta
      exact ⟨fun g => this.1 g.2.2, fun g => this.2 g.2.2⟩

theorem moved_child (m m1 : Nat → node) (X : tree) (x par q : Nat) (hX : is_tree m X x)
    (hl : linked m X x par) (hag : ∀ a ∈ addrs m X x, a ≠ x → m1 a = m a)
    (hf : x ≠ empty_leaf → (m1 x).left = (m x).left ∧ (m1 x).right = (m x).right ∧
      (m1 x).key = (m x).key ∧ (m1 x).parent = q) :
    is_tree m1 (recol (m1 x).color X) x ∧ linked m1 (recol (m1 x).color X) x q := by
  cases X with
  | nil => exact ⟨hX, trivial⟩
  | node c l k r =>
    obtain ⟨f1, f2, f3, f4⟩ := hf hX.1
    obtain ⟨n1, n2⟩ := root_not_mem_children m c l r k x par hX hl
    have h := frame_root m m1 c l r k x par hX hl
      (fun a ha => hag a ((mem_addrs_node m c l r k x a).2 (Or.inl ha))
        (fun e => n1 (by rw [e] at ha; exact ha)))
      (fun a ha => hag a ((mem_addrs_node m c l r k x a).2 (Or.inr (Or.inr ha)))
        (fun e => n2 (by rw [e] at ha; exact ha)))
      f1 f2
    rw [f3, hX.2.2.1, f4] at h
    exact h

theorem splice_one_child (m m1 : Nat → node) (t : tree) (root z x : Nat) (cz : color_t)
    (L R X : tree) (kz : Int)
    (ht : is_tree m t root) (hlk : linked m t root empty_leaf) (hz : z ∈ addrs m t root)
    (htz : is_tree m (.node cz L kz R) z)
    (hone : (L = .nil ∧ X = R) ∨ (R = .nil ∧ X = L ∧ L ≠ .nil))
    (hx : x = (if (m z).left ≠ empty_leaf then (m z).left else (m z).right))
    (hsp : splice_spec m m1 z z x (m z).parent)
    (hbh : (recol (m1 x).color X).black_height = (tree.node cz L kz R).black_height)
    (hcol : (recol (m1 x).color X).root_color = .red → cz = .red)
    (hn : (tree.node cz L kz R).no_red_red → (recol (m1 x).color X).no_red_red)
    (hb : (tree.node cz L kz R).balanced → (recol (m1 x).color X).balanced) :
    ∃ t1, is_tree m1 t1 (if (m z).parent = empty_leaf then x else root) ∧
      linked m1 t1 (if (m z).parent = empty_leaf then x else root) empty_leaf ∧
      t1.keys.Sublist t.keys ∧ (t1.root_color = .red → t.root_color = .red) ∧
      (t.no_red_red → t1.no_red_red) ∧ (t.balanced → t1.balanced) := by
  obtain ⟨ta, hta, hlta, _, _, _⟩ := sub_of_mem m t root empty_leaf z ht hlk hz
  have := is_tree_unique m ta _ z hta htz
  subst this
  have hXx : is_tree m X x ∧ linked m X x z ∧
      (∀ a ∈ addrs m X x, a ∈ addrs m (.node cz L kz R) z) ∧
      X.keys.Sublist (tree.node cz L kz R).keys := by
    rcases hone with ⟨hL, hXR⟩ | ⟨hR, hXL, hL⟩
    · subst hL
      subst hXR
      have h0 : (m z).left = empty_leaf := hta.2.2.2.1
      rw [if_neg (not_not.2 h0)] at hx
      subst hx
      exact ⟨hta.2.2.2.2, hlta.2.2.2,
        fun a ha => (mem_addrs_node m cz _ _ kz z a).2 (Or.inr (Or.inr ha)),
        List.sublist_cons_self _ _⟩
    · subst hR
      subst hXL
      have h0 : (m z).left ≠ empty_leaf := by
        cases X with
        | nil => exact absurd rfl hL
        | node c2 l2 k2 r2 => exact hta.2.2.2.1.1
      rw [if_pos h0] at hx
      subst hx
      exact ⟨hta.2.2.2.1, hlta.2.2.1,
        fun a ha => (mem_addrs_node m cz _ _ kz z a).2 (Or.inl ha),
        List.sublist_append_left _ _⟩
  obtain ⟨hX, hlX, hXsub, hXkeys⟩ := hXx
  have hEnot : empty_leaf ∉ addrs m t root := fun h => addrs_ne m t root _ ht h rfl
  have hq : (m z).parent ∉ addrs m (.node cz L kz R) z :=
    parent_not_in_sub m t root empty_leaf ht hlk hEnot z hz _ hta
  have hxE : x = empty_leaf ∨ x ∈ addrs m X x := root_eq_or_mem m X x hX
  have hnx : ∀ a, a ∉ addrs m (.node cz L kz R) z → a ≠ empty_leaf → a ≠ x := by
    intro a ha hae e
    rcases hxE with h1 | h1
    · exact hae (e.trans h1)
    · exact ha (by rw [e]; exact hXsub x h1)
  have hu := moved_child m m1 X x z (m z).parent hX hlX
    (fun a ha hne => hsp.1 a hne (Or.inl (fun e => hq (by rw [← e]; exact hXsub a ha)))
      (Or.inr rfl))
    (fun hxne => hsp.2.1 (Or.inl (fun e => by
      rcases hxE with h1 | h1
      · exact hxne h1
      · exact hq (by rw [← e]; exact hXsub x h1))) (Or.inr rfl))
  have hfresh : x = empty_leaf ∨ x ∈ addrs m (.node cz L kz R) z := by
    rcases hxE with h1 | h1
    · exact Or.inl h1
    · exact Or.inr (hXsub x h1)
  have hq1 : ∀ (_ : (m z).parent ≠ empty_leaf),
      (m1 (m z).parent).parent = (m (m z).parent).parent ∧
      (m1 (m z).parent).color = (m (m z).parent).color ∧
      (m1 (m z).parent).key = (m (m z).parent).key ∧
      ((m (m z).parent).left = z →
        (m1 (m z).parent).left = x ∧ (m1 (m z).parent).right = (m (m z).parent).right) ∧
      ((m (m z).parent).left ≠ z →
        (m1 (m z).parent).left = (m (m z).parent).left ∧ (m1 (m z).parent).right = x) := by
    intro hqE
    have e := hsp.2.2.1 hqE (hnx _ hq hqE) (Or.inr rfl)
    by_cases hc : z = (m (m z).parent).left
    · rw [if_pos hc] at e
      rw [e]
      exact ⟨rfl, rfl, rfl, fun _ => ⟨rfl, rfl⟩, fun h => absurd hc.symm h⟩
    · rw [if_neg hc] at e
      rw [e]
      exact ⟨rfl, rfl, rfl, fun h => absurd h.symm hc, fun _ => ⟨rfl, rfl⟩⟩
  have hrs := replace_spec m m1 z x _ (recol (m1 x).color X) hta hu.1 hu.2 hfresh hq1
    t root empty_leaf ht hlk hz
    (fun a ha hna hne => hsp.1 a (hnx a hna (addrs_ne m t root a ht ha)) (Or.inl hne)
      (Or.inr rfl))
  have hroot : (if (m z).parent = empty_leaf then x else root)
      = (if root = z then x else root) := by
    have hi := root_iff_parent_leaf m t root z ht hlk hz
    by_cases h : root = z
    · rw [if_pos h, if_pos (hi.2 h)]
    · rw [if_neg h, if_neg (fun g => h (hi.1 g))]
  rw [hroot]
  refine ⟨_, hrs.1, hrs.2, ?_, ?_⟩
  · obtain ⟨pre, post, h1, h2⟩ := replace_keys m z _ hta t root empty_leaf ht hlk hz
    rw [h2, h1, recol_keys]
    exact List.Sublist.append (List.Sublist.append (List.Sublist.refl _) hXkeys)
      (List.Sublist.refl _)
  · obtain ⟨_, h2, h3, h4⟩ := replace_rb m z _ (recol (m1 x).color X) hta hbh hcol hn hb
      t root empty_leaf ht hlk hz
    exact ⟨h2, h3, h4⟩

theorem mem_of_eq (l : List Nat) (a b : Nat) (e : a = b) (h : a ∈ l) : b ∈ l := by
  rw [← e]
  exact h

theorem splice_two_children (m m1 : Nat → node) (t : tree) (root z y x : Nat)
    (cz cy : color_t) (L R X : tree) (kz ky : Int)
    (ht : is_tree m t root) (hlk : linked m t root empty_leaf) (hz : z ∈ addrs m t root)
    (htz : is_tree m (.node cz L kz R) z) (hL : L ≠ .nil) (hR : R ≠ .nil)
    (hy : y = first m R (m z).right z)
    (hty : is_tree m (.node cy .nil ky X) y)
    (hx : x = (m y).right)
    (hsp : splice_spec m m1 z y x (m y).parent)
    (hbh : (recol (m1 x).color X).black_height = (tree.node cy .nil ky X).black_height)
    (hcol : (recol (m1 x).color X).root_color = .red → cy = .red)
    (hn : (tree.node cy .nil ky X).no_red_red → (recol (m1 x).color X).no_red_red)
    (hb : (tree.node cy .nil ky X).balanced → (recol (m1 x).color X).balanced) :
    ∃ t1, is_tree m1 t1 root ∧ linked m1 t1 root empty_leaf ∧
      t1.keys.Sublist t.keys ∧ (t1.root_color = .red → t.root_color = .red) ∧
      (t.no_red_red → t1.no_red_red) ∧ (t.balanced → t1.balanced) := by
  obtain ⟨ta, hta, hlta, _, _, _⟩ := sub_of_mem m t root empty_leaf z ht hlk hz
  have := is_tree_unique m ta _ z hta htz
  subst this
  obtain ⟨hzL, hzR⟩ := root_not_mem_children m cz L R kz z _ hta hlta
  have hdis := children_disjoint m cz L R kz z _ hta hlta
  have hRt : is_tree m R (m z).right := hta.2.2.2.2
  have hlR : linked m R (m z).right z := hlta.2.2.2
  have hyR : y ∈ addrs m R (m z).right := by
    rw [hy]
    exact first_mem m R _ z hR
  have hyz : y ≠ z := fun e => hzR (mem_of_eq _ _ _ e hyR)
  obtain ⟨ty, hty1, hlty, _, _, _⟩ := sub_of_mem m R _ z y hRt hlR hyR
  have := is_tree_unique m ty _ y hty1 hty
  subst this
  have hX : is_tree m X x := by rw [hx]; exact hty.2.2.2.2
  have hlX : linked m X x y := by rw [hx]; exact hlty.2.2.2
  have hXsub : ∀ a ∈ addrs m X x, a ∈ addrs m (.node cy .nil ky X) y := by
    intro a ha
    rw [hx] at ha
    exact (mem_addrs_node m cy _ _ ky y a).2 (Or.inr (Or.inr ha))
  have hysub := sub_addrs_subset m R _ _ z y hRt hlR hyR hty
  have hRsub : ∀ a ∈ addrs m R (m z).right, a ∈ addrs m (.node cz L kz R) z :=
    fun a ha => (mem_addrs_node m cz _ _ kz z a).2 (Or.inr (Or.inr ha))
  have hLsub : ∀ a ∈ addrs m L (m z).left, a ∈ addrs m (.node cz L kz R) z :=
    fun a ha => (mem_addrs_node m cz _ _ kz z a).2 (Or.inl ha)
  have hzmem : z ∈ addrs m (.node cz L kz R) z :=
    (mem_addrs_node m cz _ _ kz z z).2 (Or.inr (Or.inl rfl))
  have hq : (m y).parent ∉ addrs m (.node cy .nil ky X) y :=
    parent_not_in_sub m R _ z hRt hlR hzR y hyR _ hty
  have hqz : ((m z).right = y ∧ (m y).parent = z) ∨
      ((m z).right ≠ y ∧ (m y).parent ∈ addrs m R (m z).right) := by
    by_cases hc : (m z).right = y
    · refine Or.inl ⟨hc, ?_⟩
      cases R with
      | nil => exact absurd rfl hR
      | node c2 l2 k2 r2 =>
        have h1 : (m (m z).right).parent = z := hlR.1
        rw [hc] at h1
        exact h1
    · exact Or.inr ⟨hc, parent_mem m R _ z y hRt hlR hyR (fun e => hc e.symm)⟩
  have hqtz : (m y).parent ∈ addrs m (.node cz L kz R) z := by
    rcases hqz with ⟨_, h⟩ | ⟨_, h⟩
    · rw [h]; exact hzmem
    · exact hRsub _ h
  have hzE : z ≠ empty_leaf := hta.1
  have hqE : (m y).parent ≠ empty_leaf := addrs_ne m _ z _ hta hqtz
  have hxE : x = empty_leaf ∨ x ∈ addrs m X x := root_eq_or_mem m X x hX
  -- no node outside the subtree of `y` is `x`
  have hnx : ∀ a, a ∉ addrs m (.node cy .nil ky X) y → a ≠ empty_leaf → a ≠ x := by
    intro a ha hae e
    rcases hxE with h1 | h1
    · exact hae (e.trans h1)
    · exact ha (by rw [e]; exact hXsub x h1)
  have hzy : z ∉ addrs m (.node cy .nil ky X) y := fun h => hzR (hysub z h)
  have hLy : ∀ a ∈ addrs m L (m z).left, a ∉ addrs m (.node cy .nil ky X) y :=
    fun a ha h => hdis a ha (hysub a h)
  have hLq : ∀ a ∈ addrs m L (m z).left, a ≠ (m y).parent := by
    intro a ha e
    rcases hqz with ⟨_, h⟩ | ⟨_, h⟩
    · exact hzL (mem_of_eq _ _ _ (e.trans h) ha)
    · exact hdis a ha (by rw [e]; exact h)
  have hu := moved_child m m1 X x y (m y).parent hX hlX
    (fun a ha hne => hsp.1 a hne (Or.inl (fun e => hq (by rw [← e]; exact hXsub a ha)))
      (Or.inl (fun e => hzy (by rw [← e]; exact hXsub a ha))))
    (fun _ => hsp.2.1 (Or.inl (fun e => (hnx _ hq hqE) e.symm))
      (Or.inl (fun e => (hnx z hzy hzE) e.symm)))
  have hL1 := frame m m1 L (m z).left z hta.2.2.2.1 hlta.2.2.1
    (fun a ha => hsp.1 a (hnx a (hLy a ha) (addrs_ne m L _ a hta.2.2.2.1 ha))
      (Or.inl (hLq a ha)) (Or.inl (fun e => hzL (mem_of_eq _ _ _ e ha))))
  -- the right subtree of `z` after the splice
  have hin : is_tree m1 (replace_at m y (recol (m1 x).color X) R (m z).right)
        (if (m z).right = y then x else (m z).right) ∧
      linked m1 (replace_at m y (recol (m1 x).color X) R (m z).right)
        (if (m z).right = y then x else (m z).right) z := by
    rcases hqz with ⟨hc, hpz⟩ | ⟨hc, hpR⟩
    · cases R with
      | nil => exact absurd rfl hR
      | node c2 l2 k2 r2 =>
        rw [replace_at_node, if_pos hc, if_pos hc]
        rw [hpz] at hu
        exact hu
    · have hfresh : x = empty_leaf ∨ x ∈ addrs m (.node cy .nil ky X) y := by
        rcases hxE with h1 | h1
        · exact Or.inl h1
        · exact Or.inr (hXsub x h1)
      have hq1 : ∀ (_ : (m y).parent ≠ empty_leaf),
          (m1 (m y).parent).parent = (m (m y).parent).parent ∧
          (m1 (m y).parent).color = (m (m y).parent).color ∧
          (m1 (m y).parent).key = (m (m y).parent).key ∧
          ((m (m y).parent).left = y →
            (m1 (m y).parent).left = x ∧ (m1 (m y).parent).right = (m (m y).parent).right) ∧
          ((m (m y).parent).left ≠ y →
            (m1 (m y).parent).left = (m (m y).parent).left ∧ (m1 (m y).parent).right = x) := by
        intro _
        have e := hsp.2.2.1 hqE (hnx _ hq hqE)
          (Or.inl (fun e => hzR (mem_of_eq _ _ _ e hpR)))
        by_cases hc2 : y = (m (m y).parent).left
        · rw [if_pos hc2] at e
          rw [e]
          exact ⟨rfl, rfl, rfl, fun _ => ⟨rfl, rfl⟩, fun h => absurd hc2.symm h⟩
        · rw [if_neg hc2] at e
          rw [e]
          exact ⟨rfl, rfl, rfl, fun h => absurd h.symm hc2, fun _ => ⟨rfl, rfl⟩⟩
      exact replace_spec m m1 y x _ (recol (m1 x).color X) hty hu.1 hu.2 hfresh hq1
        R (m z).right z hRt hlR hyR
        (fun a ha hna hne => hsp.1 a (hnx a hna (addrs_ne m R _ a hRt ha)) (Or.inl hne)
          (Or.inl (fun e => hzR (mem_of_eq _ _ _ e ha))))
  -- the node `z` after the splice
  have hm1z : (m1 z).color = cz ∧ (m1 z).key = ky ∧ (m1 z).left = (m z).left ∧
      (m1 z).right = (if (m z).right = y then x else (m z).right) ∧
      (m1 z).parent = (m z).parent := by
    rcases hqz with ⟨hc, hpz⟩ | ⟨hc, hpR⟩
    · have e := hsp.2.2.2.2 hyz hpz.symm hqE (hnx _ hq hqE)
      rw [hpz] at e
      have hyl : y ≠ (m z).left := by
        intro e2
        have h0 := root_mem_addrs m L (m z).left hL
        exact hdis y (mem_of_eq _ _ _ e2.symm h0) hyR
      rw [if_neg hyl] at e
      rw [e, if_pos hc]
      exact ⟨hta.2.1, hty.2.2.1, rfl, rfl, rfl⟩
    · have e := hsp.2.2.2.1 hyz (fun e => (hnx z hzy hzE) e)
        (Or.inl (fun e => hzR (mem_of_eq _ _ _ e.symm hpR)))
      rw [e, if_neg hc]
      exact ⟨hta.2.1, hty.2.2.1, rfl, rfl, rfl⟩
  obtain ⟨z1, z2, z3, z4, z5⟩ := hm1z
  have huz : is_tree m1 (.node cz L ky (replace_at m y (recol (m1 x).color X) R (m z).right)) z ∧
      linked m1 (.node cz L ky (replace_at m y (recol (m1 x).color X) R (m z).right)) z
        (m z).parent := by
    refine ⟨⟨hzE, z1, z2, ?_, ?_⟩, z5, ?_, ?_, ?_⟩
    · rw [z3]; exact hL1.1
    · rw [z4]; exact hin.1
    · intro h
      exfalso
      rw [z3, z4] at h
      have h0 := root_mem_addrs m L (m z).left hL
      by_cases hc : (m z).right = y
      · rw [if_pos hc] at h
        exact hnx _ (hLy _ h0) (addrs_ne m L _ _ hta.2.2.2.1 h0) h
      · rw [if_neg hc] at h
        have h1 := root_mem_addrs m R (m z).right hR
        exact hdis _ h0 (mem_of_eq _ _ _ h.symm h1)
    · rw [z3]; exact hL1.2.1
    · rw [z4]; exact hin.2
  have hEnot : empty_leaf ∉ addrs m t root := fun h => addrs_ne m t root _ ht h rfl
  have hzq : (m z).parent ∉ addrs m (.node cz L kz R) z :=
    parent_not_in_sub m t root empty_leaf ht hlk hEnot z hz _ hta
  -- no node outside the subtree of `z` is `x`, the parent of `y` or `z`
  have hout : ∀ a, a ∉ addrs m (.node cz L kz R) z → a ≠ empty_leaf →
      a ≠ x ∧ a ≠ (m y).parent ∧ a ≠ z := by
    intro a ha hae
    refine ⟨hnx a (fun h => ha (hRsub a (hysub a h))) hae, ?_, ?_⟩
    · intro e
      exact ha (by rw [e]; exact hqtz)
    · intro e
      exact ha (by rw [e]; exact hzmem)
  have hq2 : ∀ (_ : (m z).parent ≠ empty_leaf),
      (m1 (m z).parent).parent = (m (m z).parent).parent ∧
      (m1 (m z).parent).color = (m (m z).parent).color ∧
      (m1 (m z).parent).key = (m (m z).parent).key ∧
      ((m (m z).parent).left = z →
        (m1 (m z).parent).left = z ∧ (m1 (m z).parent).right = (m (m z).parent).right) ∧
      ((m (m z).parent).left ≠ z →
        (m1 (m z).parent).left = (m (m z).parent).left ∧ (m1 (m z).parent).right = z) := by
    intro hzqE
    obtain ⟨o1, o2, o3⟩ := hout _ hzq hzqE
    have e := hsp.1 _ o1 (Or.inl o2) (Or.inl o3)
    rw [e]
    refine ⟨rfl, rfl, rfl, fun h => ⟨h, rfl⟩, fun h => ⟨rfl, ?_⟩⟩
    have hrz : z ≠ root := fun g =>
      hzqE ((root_iff_parent_leaf m t root z ht hlk hz).2 g.symm)
    rcases parent_child m t root empty_leaf z ht hlk hz hrz with g | g
    · exact absurd g h
    · exact g
  have hrs := replace_spec m m1 z z _
    (.node cz L ky (replace_at m y (recol (m1 x).color X) R (m z).right)) hta huz.1 huz.2
    (Or.inr hzmem) hq2 t root empty_leaf ht hlk hz
    (fun a ha hna hne =>
      hsp.1 a (hout a hna (addrs_ne m t root a ht ha)).1
        (Or.inl (hout a hna (addrs_ne m t root a ht ha)).2.1)
        (Or.inl (hout a hna (addrs_ne m t root a ht ha)).2.2))
  have hroot : (if root = z then z else root) = root := by
    by_cases h : root = z
    · rw [if_pos h, h]
    · rw [if_neg h]
  rw [hroot] at hrs
  obtain ⟨i1, i2, i3, i4⟩ := replace_rb m y _ (recol (m1 x).color X) hty hbh hcol hn hb
    R (m z).right z hRt hlR hyR
  refine ⟨_, hrs.1, hrs.2, ?_, ?_⟩
  · obtain ⟨pre, post, h1, h2⟩ := replace_keys m z _ hta t root empty_leaf ht hlk hz
    rw [h2, h1]
    refine List.Sublist.append (List.Sublist.append (List.Sublist.refl _) ?_)
      (List.Sublist.refl _)
    have hty2 := hty
    rw [hy] at hty2
    obtain ⟨post2, h3, h4⟩ := replace_first_keys m _ R (m z).right z z hRt hlR hR hty2
    rw [← hy] at h4
    have k1 : ∀ (a b : tree) (c : color_t) (k : Int),
        (tree.node c a k b).keys = a.keys ++ k :: b.keys := fun _ _ _ _ => rfl
    rw [k1, k1, h4, recol_keys, h3, k1]
    refine List.Sublist.append (List.Sublist.refl _) ?_
    have k2 : tree.nil.keys = [] := rfl
    rw [k2, List.nil_append, List.cons_append]
    exact List.sublist_cons_self _ _
  · obtain ⟨_, h2, h3, h4⟩ := replace_rb m z _
      (.node cz L ky (replace_at m y (recol (m1 x).color X) R (m z).right)) hta rfl
      (fun h => h)
      (fun g => ⟨fun hc => ⟨(g.1 hc).1, by
          rcases color_cases
            (replace_at m y (recol (m1 x).color X) R (m z).right).root_color with e | e
          · exact e
          · have := i2 e
            rw [(g.1 hc).2] at this
            cases this⟩, g.2.1, i3 g.2.2⟩)
      (fun g => ⟨g.1.trans i1.symm, g.2.1, i4 g.2.2⟩)
      t root empty_leaf ht hlk hz
    exact ⟨h2, h3, h4⟩

/-! ### C17, C18: from the code of the splice to the tree after it -/

theorem setColor_fields (m : Nat → node) (p : Nat) (c : color_t) (a : Nat) :
    (setColor m p c a).left = (m a).left ∧ (setColor m p c a).right = (m a).right ∧
      (setColor m p c a).key = (m a).key ∧ (setColor m p c a).parent = (m a).parent := by
  unfold setColor
  split
  · rename_i h
    rw [h]
    exact ⟨rfl, rfl, rfl, rfl⟩
  · exact ⟨rfl, rfl, rfl, rfl⟩

theorem splice_spec_setColor (m m1 : Nat → node) (z y x q : Nat) (c : color_t)
    (h : splice_spec m m1 z y x q) : splice_spec m (setColor m1 x c) z y x q := by
  obtain ⟨h1, h2, h3, h4, h5⟩ := h
  refine ⟨fun a ha hq hz => ?_, fun hq hz => ?_, fun a b c => ?_, fun a b c => ?_,
    fun a b c d => ?_⟩
  · rw [setColor_other _ _ _ _ ha]
    exact h1 a ha hq hz
  · obtain ⟨f1, f2, f3, f4⟩ := setColor_fields m1 x c x
    rw [f1, f2, f3, f4]
    exact h2 hq hz
  · rw [setColor_other _ _ _ _ b]
    exact h3 a b c
  · rw [setColor_other _ _ _ _ b]
    exact h4 a b c
  · rw [setColor_other _ _ _ _ (fun e => d (b.symm.trans e))]
    exact h5 a b c d

theorem splice_returns (s : rb_tree) (fuel z y : Nat) (hy : removed_node s fuel z = .ok y) :
    ∃ s3 x yb, remove_splice s fuel z = .ok (s3, x, yb) := by
  unfold removed_node at hy
  unfold remove_splice
  simp only [hy]
  exact ⟨_, _, _, rfl⟩

theorem splice_facts (s s3 : rb_tree) (fuel z y x : Nat) (yb : Bool) (hzE : z ≠ empty_leaf)
    (hy : removed_node s fuel z = .ok y)
    (h : remove_splice s fuel z = .ok (s3, x, yb))
    (hxy : (if (s.mem y).left ≠ empty_leaf then (s.mem y).left else (s.mem y).right) ≠ y)
    (hqx : (s.mem y).parent ≠
        (if (s.mem y).left ≠ empty_leaf then (s.mem y).left else (s.mem y).right) ∨
      (s.mem y).parent = empty_leaf) :
    x = (if (s.mem y).left ≠ empty_leaf then (s.mem y).left else (s.mem y).right) ∧
      yb = decide ((s.mem y).color = .black) ∧
      s3.root = (if (s.mem y).parent = empty_leaf then x else s.root) ∧
      splice_spec s.mem s3.mem z y x (s.mem y).parent ∧
      (∀ a, (s3.mem a).color = (s.mem a).color) ∧
      (s3.mem empty_leaf).left = (s.mem empty_leaf).left ∧
      (s3.mem empty_leaf).right = (s.mem empty_leaf).right := by
  obtain ⟨hx, hyb, _, m2, hm2, hm3⟩ := splice_form s s3 fuel z y x yb hy h hxy hqx
  have hc2 : ∀ a, (m2 a).color = (s.mem a).color := by
    intro a
    rcases hm2 with ⟨_, _, e⟩ | ⟨_, _, _, e⟩ | ⟨_, _, _, e⟩
    · rw [e, (setParent_key_color _ _ _ _).2]
    · rw [e, (setLeft_key_color _ _ _ _).2, (setParent_key_color _ _ _ _).2]
    · rw [e, (setRight_key_color _ _ _ _).2, (setParent_key_color _ _ _ _).2]
  have hc3 : ∀ a, (s3.mem a).color = (s.mem a).color := by
    intro a
    rcases hm3 with ⟨_, e⟩ | ⟨_, e⟩
    · rw [e]; exact hc2 a
    · rw [e, setKey_color]; exact hc2 a
  obtain ⟨r, p1, p2, p3, p4, p5⟩ := splice_mem s s3 z y x (s.mem y).parent ⟨m2, hm2, hm3⟩
  have hq0 : ∀ a, a = empty_leaf → (a ≠ (s.mem y).parent ∨ (s.mem y).parent = empty_leaf) := by
    intro a ha
    by_cases hq : (s.mem y).parent = empty_leaf
    · exact Or.inr hq
    · exact Or.inl (fun e => hq (e.symm.trans ha))
  have hsent : (s3.mem empty_leaf).left = (s.mem empty_leaf).left ∧
      (s3.mem empty_leaf).right = (s.mem empty_leaf).right := by
    by_cases hxE : x = empty_leaf
    · have e := p2 (hq0 x hxE) (Or.inl (fun e => hzE (e.symm.trans hxE)))
      rw [← hxE, e]
      exact ⟨rfl, rfl⟩
    · have e := p1 empty_leaf (fun e => hxE e.symm) (hq0 _ rfl) (Or.inl (fun e => hzE e.symm))
      rw [e]
      exact ⟨rfl, rfl⟩
  refine ⟨hx, hyb, r, ⟨p1, fun hq hz => ?_, p3, p4, p5⟩, hc3, hsent.1, hsent.2⟩
  rw [p2 hq hz]
  exact ⟨rfl, rfl, rfl, rfl⟩

theorem is_tree_leaf (m : Nat → node) (t : tree) (p : Nat) (h : is_tree m t p)
    (hp : p = empty_leaf) : t = .nil := by
  cases t with
  | nil => rfl
  | node c l k r => exact absurd hp h.1

theorem is_tree_ne (m : Nat → node) (t : tree) (p : Nat) (h : is_tree m t p)
    (ht : t ≠ .nil) : p ≠ empty_leaf := by
  cases t with
  | nil => exact absurd rfl ht
  | node c l k r => exact h.1

theorem splice_tree (s s3 : rb_tree) (t : tree) (fuel z y x : Nat) (yb : Bool)
    (m1 : Nat → node) (hwf : well_formed s t) (hnrr : t.no_red_red) (hbal : t.balanced)
    (hf : t.size < fuel) (hz : z ∈ addrs s.mem t s.root)
    (hy : removed_node s fuel z = .ok y)
    (hsp : remove_splice s fuel z = .ok (s3, x, yb))
    (hm1 : m1 = s3.mem ∨ m1 = setColor s3.mem x .black)
    (hU : ∀ (cy : color_t) (YL YR X : tree) (ky : Int), (s.mem y).color = cy →
      is_tree s.mem X x → ((YL = .nil ∧ X = YR) ∨ (YR = .nil ∧ X = YL ∧ YL ≠ .nil)) →
      (tree.node cy YL ky YR).no_red_red → (tree.node cy YL ky YR).balanced →
      (recol (m1 x).color X).black_height = (tree.node cy YL ky YR).black_height ∧
        ((recol (m1 x).color X).root_color = .red → cy = .red) ∧
        (recol (m1 x).color X).no_red_red ∧ (recol (m1 x).color X).balanced) :
    x = (if (s.mem y).left ≠ empty_leaf then (s.mem y).left else (s.mem y).right) ∧
      yb = decide ((s.mem y).color = .black) ∧
      (∀ a, (s3.mem a).color = (s.mem a).color) ∧
      (s3.mem empty_leaf).left = (s.mem empty_leaf).left ∧
      (s3.mem empty_leaf).right = (s.mem empty_leaf).right ∧
      ∃ t1, is_tree m1 t1 s3.root ∧ linked m1 t1 s3.root empty_leaf ∧
        t1.keys.Sublist t.keys ∧ (t1.root_color = .red → t.root_color = .red) ∧
        t1.no_red_red ∧ t1.balanced := by
  obtain ⟨ht, hlk⟩ := hwf
  obtain ⟨tz, htz, hltz, hne, hsz, hsubz⟩ := sub_of_mem s.mem t s.root empty_leaf z ht hlk hz
  have hEnot : empty_leaf ∉ addrs s.mem t s.root := fun h => addrs_ne _ t _ _ ht h rfl
  cases tz with
  | nil => exact absurd rfl hne
  | node cz L kz R =>
    have hzE : z ≠ empty_leaf := htz.1
    by_cases hone : L = .nil ∨ R = .nil
    · -- at most one real child: `y` is `z`
      have hcond : (s.mem z).left = empty_leaf ∨ (s.mem z).right = empty_leaf := by
        rcases hone with h | h
        · subst h; exact Or.inl htz.2.2.2.1
        · subst h; exact Or.inr htz.2.2.2.2
      have hyz : z = y := by
        unfold removed_node at hy
        rw [if_pos hcond] at hy
        injection hy
      subst hyz
      have hX : ∃ X, is_tree s.mem X
            (if (s.mem z).left ≠ empty_leaf then (s.mem z).left else (s.mem z).right) ∧
          ((L = .nil ∧ X = R) ∨ (R = .nil ∧ X = L ∧ L ≠ .nil)) ∧
          (∀ a ∈ addrs s.mem X
              (if (s.mem z).left ≠ empty_leaf then (s.mem z).left else (s.mem z).right),
            a ∈ addrs s.mem (.node cz L kz R) z ∧ a ≠ z) := by
        obtain ⟨n1, n2⟩ := root_not_mem_children s.mem cz L R kz z _ htz hltz
        by_cases hL : L = .nil
        · subst hL
          have h0 : (s.mem z).left = empty_leaf := htz.2.2.2.1
          rw [if_neg (not_not.2 h0)]
          exact ⟨R, htz.2.2.2.2, Or.inl ⟨rfl, rfl⟩, fun a ha =>
            ⟨(mem_addrs_node _ cz _ _ kz z a).2 (Or.inr (Or.inr ha)),
              fun e => n2 (mem_of_eq _ _ _ e ha)⟩⟩
        · have hR : R = .nil := by
            rcases hone with h | h
            · exact absurd h hL
            · exact h
          subst hR
          rw [if_pos (is_tree_ne _ L _ htz.2.2.2.1 hL)]
          exact ⟨L, htz.2.2.2.1, Or.inr ⟨rfl, rfl, hL⟩, fun a ha =>
            ⟨(mem_addrs_node _ cz _ _ kz z a).2 (Or.inl ha),
              fun e => n1 (mem_of_eq _ _ _ e ha)⟩⟩
      obtain ⟨X, hXt, hcase, hXsub⟩ := hX
      have hq : (s.mem z).parent ∉ addrs s.mem (.node cz L kz R) z :=
        parent_not_in_sub s.mem t s.root empty_leaf ht hlk hEnot z hz _ htz
      have hxE := root_eq_or_mem s.mem X _ hXt
      have hxy : (if (s.mem z).left ≠ empty_leaf then (s.mem z).left else (s.mem z).right)
          ≠ z := by
        rcases hxE with h | h
        · rw [h]; exact fun e => hzE e.symm
        · exact (hXsub _ h).2
      have hqx : (s.mem z).parent ≠
            (if (s.mem z).left ≠ empty_leaf then (s.mem z).left else (s.mem z).right) ∨
          (s.mem z).parent = empty_leaf := by
        rcases hxE with h | h
        · by_cases hqE : (s.mem z).parent = empty_leaf
          · exact Or.inr hqE
          · rw [h]; exact Or.inl hqE
        · exact Or.inl (fun e => hq (mem_of_eq _ _ _ e.symm (hXsub _ h).1))
      obtain ⟨hx, hyb, hroot, hspec, hcol, hl, hr⟩ :=
        splice_facts s s3 fuel z z x yb hzE hy hsp hxy hqx
      have hspec1 : splice_spec s.mem m1 z z x (s.mem z).parent := by
        rcases hm1 with e | e
        · rw [e]; exact hspec
        · rw [e]; exact splice_spec_setColor _ _ _ _ _ _ _ hspec
      have hrb := sub_rb s.mem t s.root z _ ht hz htz
      rw [← hx] at hXt
      obtain ⟨u1, u2, u3, u4⟩ := hU cz L R X kz htz.2.1 hXt hcase (hrb.1 hnrr) (hrb.2 hbal)
      obtain ⟨t1, a1, a2, a3, a4, a5, a6⟩ := splice_one_child s.mem m1 t s.root z x cz L R X kz
        ht hlk hz htz hcase hx hspec1 u1 u2 (fun _ => u3) (fun _ => u4)
      rw [← hroot] at a1 a2
      exact ⟨hx, hyb, hcol, hl, hr, t1, a1, a2, a3, a4, a5 hnrr, a6 hbal⟩
    · -- two real children: `y` is the successor of `z`
      have hL : L ≠ .nil := fun h => hone (Or.inl h)
      have hR : R ≠ .nil := fun h => hone (Or.inr h)
      have hRt : is_tree s.mem R (s.mem z).right := htz.2.2.2.2
      have hlR : linked s.mem R (s.mem z).right z := hltz.2.2.2
      have hcond : ¬ ((s.mem z).left = empty_leaf ∨ (s.mem z).right = empty_leaf) := by
        intro h
        rcases h with h | h
        · exact is_tree_ne _ L _ htz.2.2.2.1 hL h
        · exact is_tree_ne _ R _ hRt hR h
      have hRs : R.size ≤ fuel := by
        simp only [tree.size] at hsz
        omega
      have hnext := next_of_node_right s.mem cz L R kz z fuel htz hR hRs
      have hyd : y = first s.mem R (s.mem z).right z := by
        unfold removed_node at hy
        rw [if_neg hcond, hnext] at hy
        injection hy with hy
        exact hy.symm
      have hyR : y ∈ addrs s.mem R (s.mem z).right := by
        rw [hyd]
        exact first_mem _ R _ z hR
      have hyt : y ∈ addrs s.mem t s.root :=
        hsubz y ((mem_addrs_node _ cz _ _ kz z y).2 (Or.inr (Or.inr hyR)))
      obtain ⟨ty, hty, hlty, hnty, _, _⟩ := sub_of_mem s.mem R _ z y hRt hlR hyR
      cases ty with
      | nil => exact absurd rfl hnty
      | node cy YL ky YR =>
        have hleft : (s.mem y).left = empty_leaf := by
          rw [hyd]
          exact first_left_nil _ R _ z hRt hR
        have hYL := is_tree_leaf _ YL _ hty.2.2.2.1 hleft
        subst hYL
        have hxd : (if (s.mem y).left ≠ empty_leaf then (s.mem y).left else (s.mem y).right)
            = (s.mem y).right := if_neg (not_not.2 hleft)
        obtain ⟨_, n2⟩ := root_not_mem_children s.mem cy _ YR ky y _ hty hlty
        have hq : (s.mem y).parent ∉ addrs s.mem (.node cy .nil ky YR) y :=
          parent_not_in_sub s.mem t s.root empty_leaf ht hlk hEnot y hyt _ hty
        have hqE : (s.mem y).parent ≠ empty_leaf := by
          by_cases hc : (s.mem z).right = y
          · cases R with
            | nil => exact absurd rfl hR
            | node c2 l2 k2 r2 =>
              have h1 : (s.mem (s.mem z).right).parent = z := hlR.1
              rw [hc] at h1
              rw [h1]
              exact hzE
          · exact addrs_ne _ R _ _ hRt (parent_mem _ R _ z y hRt hlR hyR (fun e => hc e.symm))
        have hxE := root_eq_or_mem s.mem YR _ hty.2.2.2.2
        have hxy : (if (s.mem y).left ≠ empty_leaf then (s.mem y).left else (s.mem y).right)
            ≠ y := by
          rw [hxd]
          rcases hxE with h | h
          · rw [h]; exact fun e => hty.1 e.symm
          · exact fun e => n2 (mem_of_eq _ _ _ e h)
        have hqx : (s.mem y).parent ≠
              (if (s.mem y).left ≠ empty_leaf then (s.mem y).left else (s.mem y).right) ∨
            (s.mem y).parent = empty_leaf := by
          rw [hxd]
          rcases hxE with h | h
          · rw [h]; exact Or.inl hqE
          · exact Or.inl (fun e => hq (mem_of_eq _ _ _ e.symm
              ((mem_addrs_node _ cy _ _ ky y _).2 (Or.inr (Or.inr h)))))
        obtain ⟨hx, hyb, hroot, hspec, hcol, hl, hr⟩ :=
          splice_facts s s3 fuel z y x yb hzE hy hsp hxy hqx
        have hspec1 : splice_spec s.mem m1 z y x (s.mem y).parent := by
          rcases hm1 with e | e
          · rw [e]; exact hspec
          · rw [e]; exact splice_spec_setColor _ _ _ _ _ _ _ hspec
        have hrb := sub_rb s.mem t s.root y _ ht hyt hty
        have hx1 : x = (s.mem y).right := hx.trans hxd
        have hXt : is_tree s.mem YR x := by rw [hx1]; exact hty.2.2.2.2
        obtain ⟨u1, u2, u3, u4⟩ := hU cy .nil YR YR ky hty.2.1 hXt (Or.inl ⟨rfl, rfl⟩)
          (hrb.1 hnrr) (hrb.2 hbal)
        obtain ⟨t1, a1, a2, a3, a4, a5, a6⟩ := splice_two_children s.mem m1 t s.root z y x
          cz cy L R YR kz ky ht hlk hz htz hL hR hyd hty hx1 hspec1 u1 u2
          (fun _ => u3) (fun _ => u4)
        rw [if_neg hqE] at hroot
        rw [← hroot] at a1 a2
        exact ⟨hx, hyb, hcol, hl, hr, t1, a1, a2, a3, a4, a5 hnrr, a6 hbal⟩

theorem splice_validates (s s3 : rb_tree) (t : tree) (fuel z y x : Nat) (yb : Bool)
    (m1 : Nat → node) (hwf : well_formed s t) (hinv : invariants s t)
    (hf : t.size < fuel) (hz : z ∈ addrs s.mem t s.root)
    (hy : removed_node s fuel z = .ok y)
    (hsp : remove_splice s fuel z = .ok (s3, x, yb))
    (hm1 : m1 = s3.mem ∨ m1 = setColor s3.mem x .black)
    (hU : ∀ (cy : color_t) (YL YR X : tree) (ky : Int), (s.mem y).color = cy →
      is_tree s.mem X x → ((YL = .nil ∧ X = YR) ∨ (YR = .nil ∧ X = YL ∧ YL ≠ .nil)) →
      (tree.node cy YL ky YR).no_red_red → (tree.node cy YL ky YR).balanced →
      (recol (m1 x).color X).black_height = (tree.node cy YL ky YR).black_height ∧
        ((recol (m1 x).color X).root_color = .red → cy = .red) ∧
        (recol (m1 x).color X).no_red_red ∧ (recol (m1 x).color X).balanced) :
    x = (if (s.mem y).left ≠ empty_leaf then (s.mem y).left else (s.mem y).right) ∧
      yb = decide ((s.mem y).color = .black) ∧
      (s3.mem x).color = (s.mem x).color ∧
      validate { s3 with mem := m1 } fuel = .ok () := by
  obtain ⟨hsorted, ⟨hs1, hs2, hs3⟩, hrb, hnrr, hbal⟩ := hinv
  obtain ⟨hx, hyb, hcol, hl, hr, t1, a1, a2, a3, a4, a5, a6⟩ :=
    splice_tree s s3 t fuel z y x yb m1 hwf hnrr hbal hf hz hy hsp hm1 hU
  refine ⟨hx, hyb, hcol x, ?_⟩
  have hwf1 : well_formed { s3 with mem := m1 } t1 := ⟨a1, a2⟩
  have hsize : t1.size < fuel := by
    have := a3.length_le
    rw [keys_length, keys_length] at this
    omega
  have hm1E : (m1 empty_leaf).color = .black ∧ (m1 empty_leaf).left = empty_leaf ∧
      (m1 empty_leaf).right = empty_leaf := by
    rcases hm1 with e | e
    · rw [e, hcol, hl, hr]
      exact ⟨hs1, hs2, hs3⟩
    · obtain ⟨f1, f2, _, _⟩ := setColor_fields s3.mem x .black empty_leaf
      rw [e, f1, f2, hl, hr]
      refine ⟨?_, hs2, hs3⟩
      by_cases hxE : empty_leaf = x
      · rw [hxE, setColor_same]
      · rw [setColor_other _ _ _ _ hxE, hcol]
        exact hs1
  have hroot : t1.root_color = .black := by
    rcases color_cases t1.root_color with e | e
    · exact e
    · have h1 := a4 e
      rw [root_color_eq s.mem t s.root hwf.1 hs1, hrb] at h1
      cases h1
  have hroot1 : (m1 s3.root).color = .black := by
    rw [← root_color_eq m1 t1 s3.root a1 hm1E.1]
    exact hroot
  exact (validate_ok_iff _ t1 fuel hwf1 hsize).2
    ⟨List.Pairwise.sublist a3 hsorted, hm1E, hroot1, a5, a6⟩

theorem black_ne_red : color_t.black ≠ color_t.red := fun h => by cases h

theorem fixup_red (s : rb_tree) (x f : Nat) (h : (s.mem x).color = .red) :
    _rebalance_after_remove (f + 1) s x = .ok { s with mem := setColor s.mem x .black } := by
  simp only [_rebalance_after_remove]
  rw [if_neg (fun g => g.2 h)]

theorem search_lands (s : rb_tree) (t : tree) (fuel : Nat) (k : Int) (z : Nat)
    (hwf : well_formed s t) (hs : t.keys.Sorted (· < ·)) (hf : t.size < fuel)
    (hk : k ∈ t.keys) (hz : search_loop s.mem k fuel s.root = .ok z) :
    z ≠ empty_leaf ∧ z ∈ addrs s.mem t s.root := by
  obtain ⟨z1, hz1, hiff⟩ := search_loop_spec s.mem k t s.root fuel hwf.1 hs
    (lt_of_le_of_lt (height_le_size t) hf)
  rw [hz] at hz1
  injection hz1 with e
  subst e
  have hzE := hiff.2 hk
  exact ⟨hzE, (search_loop_addr s.mem k t s.root fuel z hwf.1 hz hzE).1⟩

/-- C17: removing a red node needs no fixup.  On a well-formed tree that passes
`validate`, for a present key `k` whose search ends at `z` and whose physically
removed node `y` (`z` itself if it has at most one real child, otherwise its
successor) is red, the splice returns with `y_black` false, `remove(k)` returns
the state the splice left, without calling the fixup, and that state passes
`validate`. -/
theorem remove_red_no_fixup (s : rb_tree) (t : tree) (fuel : Nat) (k : Int) (z y : Nat)
    (hwf : well_formed s t) (hv : validate s fuel = .ok ()) (hf : t.size < fuel)
    (hk : k ∈ t.keys) (hz : search_loop s.mem k fuel s.root = .ok z)
    (hy : removed_node s fuel z = .ok y) (hred : (s.mem y).color = .red) :
    ∃ s3 x, remove_splice s fuel z = .ok (s3, x, false) ∧ remove s fuel k = .ok s3 ∧
      validate s3 fuel = .ok () := by
  have hinv := (validate_ok_iff s t fuel hwf hf).1 hv
  obtain ⟨hzE, hza⟩ := search_lands s t fuel k z hwf hinv.1 hf hk hz
  obtain ⟨s3, x, yb, hsp⟩ := splice_returns s fuel z y hy
  obtain ⟨_, hyb, _, hval⟩ := splice_validates s s3 t fuel z y x yb s3.mem hwf hinv hf hza
    hy hsp (Or.inl rfl) (by
      intro cy YL YR X ky hc hX hcase hn hb
      rw [hred] at hc
      subst hc
      obtain ⟨c1, c2⟩ := hn.1 rfl
      have hb1 : YL.black_height = YR.black_height := hb.1
      rcases hcase with ⟨h1, h2⟩ | ⟨h1, h2, h3⟩
      · subst h1
        subst h2
        have := black_leaf_of_height_zero X hb1.symm c2
        subst this
        exact ⟨rfl, fun _ => rfl, trivial, trivial⟩
      · subst h1
        exact absurd (black_leaf_of_height_zero YL hb1 c1) h3)
  have hyb0 : yb = false := by
    rw [hyb, hred]
    rfl
  subst hyb0
  refine ⟨s3, x, hsp, ?_, hval⟩
  simp [remove, hz, hzE, hsp]

theorem remove_red_no_fixup_witness :
    well_formed t10 t10_shape ∧ (10 : Int) ∈ t10_shape.keys ∧
      removed_node t10 11 12 = .ok 12 ∧ (t10.mem 12).color = .red ∧
      ∃ s3 x, remove_splice t10 11 12 = .ok (s3, x, false) ∧ remove t10 11 10 = .ok s3 ∧
        validate s3 11 = .ok () :=
  ⟨by decide, by decide, rfl, rfl,
    remove_red_no_fixup t10 t10_shape 11 10 12 12 (by decide) rfl (by decide) (by decide)
      rfl rfl rfl⟩

/-- C18: removing a black node that has a red child is repaired by one
recolouring.  On a well-formed tree that passes `validate`, for a present key
`k` whose physically removed node `y` is black and whose child `x`, the node
that takes the place of `y`, is red, the splice returns with `y_black` true, the
fixup leaves its loop at the first test (one unit of fuel is enough, so the
loop body and its rotations never run) and only writes the colour black into
`x`, `remove(k)` returns that state, and that state passes `validate`. -/
theorem remove_black_red_child (s : rb_tree) (t : tree) (fuel : Nat) (k : Int)
    (z y x : Nat) (hwf : well_formed s t) (hv : validate s fuel = .ok ())
    (hf : t.size < fuel) (hk : k ∈ t.keys)
    (hz : search_loop s.mem k fuel s.root = .ok z)
    (hy : removed_node s fuel z = .ok y) (hblack : (s.mem y).color = .black)
    (hx : x = (if (s.mem y).left ≠ empty_leaf then (s.mem y).left else (s.mem y).right))
    (hxred : (s.mem x).color = .red) :
    ∃ s3, remove_splice s fuel z = .ok (s3, x, true) ∧
      _rebalance_after_remove 1 s3 x = .ok { s3 with mem := setColor s3.mem x .black } ∧
      remove s fuel k = .ok { s3 with mem := setColor s3.mem x .black } ∧
      validate { s3 with mem := setColor s3.mem x .black } fuel = .ok () := by
  have hinv := (validate_ok_iff s t fuel hwf hf).1 hv
  obtain ⟨hzE, hza⟩ := search_lands s t fuel k z hwf hinv.1 hf hk hz
  obtain ⟨s3, x1, yb, hsp⟩ := splice_returns s fuel z y hy
  have hx1 : x1 = x := by
    have h := hsp
    unfold remove_splice at h
    unfold removed_node at hy
    simp only [hy] at h
    injection h with h
    injection h with _ h
    injection h with h _
    rw [hx, ← h]
  subst hx1
  have hsE : (s.mem empty_leaf).color = .black := hinv.2.1.1
  obtain ⟨_, hyb, hcx, hval⟩ := splice_validates s s3 t fuel z y x1 yb
    (setColor s3.mem x1 .black) hwf hinv hf hza hy hsp (Or.inr rfl) (by
      intro cy YL YR X ky hc hX hcase hn hb
      rw [hblack] at hc
      subst hc
      have hc1 : (setColor s3.mem x1 .black x1).color = .black := by rw [setColor_same]
      rw [hc1]
      cases X with
      | nil =>
        have h0 : x1 = empty_leaf := hX
        rw [h0, hsE] at hxred
        cases hxred
      | node cX XL kX XR =>
        have hcX : cX = .red := by
          rw [← hxred]
          exact hX.2.1.symm
        subst hcX
        have hb1 : YL.black_height = YR.black_height := hb.1
        rcases hcase with ⟨h1, h2⟩ | ⟨h1, h2, h3⟩
        · subst h1
          subst h2
          refine ⟨?_, fun h => h,
            ⟨fun h => absurd h black_ne_red, hn.2.2.2.1, hn.2.2.2.2⟩, hb.2.2⟩
          simp [tree.black_height] at hb1 ⊢
          omega
        · subst h1
          subst h2
          refine ⟨?_, fun h => h,
            ⟨fun h => absurd h black_ne_red, hn.2.1.2.1, hn.2.1.2.2⟩, hb.2.1⟩
          simp [tree.black_height])
  have hyb1 : yb = true := by
    rw [hyb, hblack]
    rfl
  subst hyb1
  have hred3 : (s3.mem x1).color = .red := by rw [hcx, hxred]
  obtain ⟨f, hfuel⟩ : ∃ f, fuel = f + 1 := ⟨fuel - 1, by omega⟩
  refine ⟨s3, hsp, fixup_red s3 x1 0 hred3, ?_, hval⟩
  have hfix := fixup_red s3 x1 f hred3
  rw [← hfuel] at hfix
  simp [remove, hz, hzE, hsp, hfix]

theorem remove_black_red_child_witness :
    well_formed t10 t10_shape ∧ (9 : Int) ∈ t10_shape.keys ∧
      removed_node t10 11 11 = .ok 11 ∧ (t10.mem 11).color = .black ∧
      (t10.mem 12).color = .red ∧
      ∃ s3, remove_splice t10 11 11 = .ok (s3, 12, true) ∧
        _rebalance_after_remove 1 s3 12 = .ok { s3 with mem := setColor s3.mem 12 .black } ∧
        remove t10 11 9 = .ok { s3 with mem := setColor s3.mem 12 .black } ∧
        validate { s3 with mem := setColor s3.mem 12 .black } 11 = .ok () :=
  ⟨by decide, by decide, rfl, rfl, rfl,
    remove_black_red_child t10 t10_shape 11 9 11 11 12 (by decide) rfl (by decide) (by decide)
      rfl rfl rfl rfl rfl⟩

/-! ### C21: a rotation followed by the opposite rotation -/

theorem rb_tree_ext (a b : rb_tree) (h1 : a.mem = b.mem) (h2 : a.root = b.root)
    (h3 : a.fresh = b.fresh) : a = b := by
  cases a
  cases b
  dsimp only at h1 h2 h3
  subst h1
  subst h2
  subst h3
  rfl

theorem node_ext5 (a b : node) (h1 : a.parent = b.parent) (h2 : a.left = b.left)
    (h3 : a.right = b.right) (h4 : a.color = b.color) (h5 : a.key = b.key) : a = b := by
  cases a
  cases b
  dsimp only at h1 h2 h3 h4 h5
  subst h1
  subst h2
  subst h3
  subst h4
  subst h5
  rfl

theorem rotate_left_right (s : rb_tree) (x y b q : Nat)
    (hyd : (s.mem x).right = y) (hbd : (s.mem y).left = b) (hqd : (s.mem x).parent = q)
    (hx0 : x ≠ 0) (hy0 : y ≠ 0) (hxE : x ≠ empty_leaf) (hyE : y ≠ empty_leaf)
    (hxy : x ≠ y) (hbx : b ≠ x) (hby : b ≠ y) (hqx : q ≠ x) (hqy : q ≠ y)
    (hqb : q ≠ b ∨ b = empty_leaf)
    (hyp : (s.mem y).parent = x) (hbp : b ≠ empty_leaf → (s.mem b).parent = y)
    (hroot : q = empty_leaf → s.root = x)
    (hqc : q ≠ empty_leaf → x ≠ (s.mem q).left →
      (s.mem q).right = x ∧ y ≠ (s.mem q).left) :
    ∃ s1, _rotate_left s x = .ok s1 ∧ _rotate_right s1 y = .ok s := by
  obtain ⟨s1, h1⟩ := rotate_left_ok s x hx0 (by rw [hyd]; exact hyE)
  have g1 := rotate_left_mem s s1 x h1
  have k1 := rotate_left_form s s1 x h1
  rw [hyd, hbd, hqd] at g1 k1
  obtain ⟨r1, m1x, m1y, m1b, m1q, m1a⟩ := g1 hxy hbx hby hqx hqy hqb
  have fr1 : s1.fresh = s.fresh := (k1 hxy hbx hqx hqy hqb).2.2.1
  have e1 : (s1.mem y).left = x := by rw [m1y]
  have e2 : (s1.mem x).right = b := by rw [m1x]
  have e3 : (s1.mem y).parent = q := by rw [m1y]
  obtain ⟨s2, h2⟩ := rotate_right_ok s1 y hy0 (by rw [e1]; exact hxE)
  have g2 := rotate_right_mem s1 s2 y h2
  have k2 := rotate_right_form s1 s2 y h2
  rw [e1, e2, e3] at g2 k2
  obtain ⟨r2, m2y, m2x, m2b, m2q, m2a⟩ := g2 hxy.symm hby hbx hqy hqx hqb
  have fr2 : s2.fresh = s1.fresh := (k2 hxy.symm hby hqy hqx hqb).2.2.1
  refine ⟨s1, h1, ?_⟩
  rw [h2]
  congr 1
  apply rb_tree_ext
  · funext a
    by_cases hax : a = x
    · rw [hax, m2x, m1x]
      exact node_ext5 _ _ hqd.symm rfl hyd.symm rfl rfl
    by_cases hay : a = y
    · rw [hay, m2y, m1y]
      exact node_ext5 _ _ hyp.symm hbd.symm rfl rfl rfl
    by_cases hab : a = b ∧ b ≠ empty_leaf
    · rw [hab.1, m2b hab.2, m1b hab.2]
      exact node_ext5 _ _ (hbp hab.2).symm rfl rfl rfl rfl
    have hb1 : a ≠ b ∨ b = empty_leaf := by
      by_cases h : b = empty_leaf
      · exact Or.inr h
      · exact Or.inl (fun e => hab ⟨e, h⟩)
    by_cases haq : a = q ∧ q ≠ empty_leaf
    · rw [haq.1, m2q haq.2, m1q haq.2]
      by_cases hc : x = (s.mem q).left
      · rw [if_pos hc]
        split
        · exact node_ext5 _ _ rfl hc rfl rfl rfl
        · rename_i h
          exact absurd rfl h
      · rw [if_neg hc]
        obtain ⟨hr, hl⟩ := hqc haq.2 hc
        split
        · rename_i h
          exact absurd h hl
        · exact node_ext5 _ _ rfl rfl hr.symm rfl rfl
    have hq1 : a ≠ q ∨ q = empty_leaf := by
      by_cases h : q = empty_leaf
      · exact Or.inr h
      · exact Or.inl (fun e => haq ⟨e, h⟩)
    rw [m2a a hay hax hb1 hq1, m1a a hax hay hb1 hq1]
  · rw [r2, r1]
    by_cases hq : q = empty_leaf
    · rw [if_pos hq]
      exact (hroot hq).symm
    · rw [if_neg hq, if_neg hq]
  · rw [fr2, fr1]

theorem rotate_right_left (s : rb_tree) (x y b q : Nat)
    (hyd : (s.mem x).left = y) (hbd : (s.mem y).right = b) (hqd : (s.mem x).parent = q)
    (hx0 : x ≠ 0) (hy0 : y ≠ 0) (hxE : x ≠ empty_leaf) (hyE : y ≠ empty_leaf)
    (hxy : x ≠ y) (hbx : b ≠ x) (hby : b ≠ y) (hqx : q ≠ x) (hqy : q ≠ y)
    (hqb : q ≠ b ∨ b = empty_leaf)
    (hyp : (s.mem y).parent = x) (hbp : b ≠ empty_leaf → (s.mem b).parent = y)
    (hroot : q = empty_leaf → s.root = x)
    (hqc : q ≠ empty_leaf → x ≠ (s.mem q).left →
      (s.mem q).right = x ∧ y ≠ (s.mem q).left) :
    ∃ s1, _rotate_right s x = .ok s1 ∧ _rotate_left s1 y = .ok s := by
  obtain ⟨s1, h1⟩ := rotate_right_ok s x hx0 (by rw [hyd]; exact hyE)
  have g1 := rotate_right_mem s s1 x h1
  have k1 := rotate_right_form s s1 x h1
  rw [hyd, hbd, hqd] at g1 k1
  obtain ⟨r1, m1x, m1y, m1b, m1q, m1a⟩ := g1 hxy hbx hby hqx hqy hqb
  have fr1 : s1.fresh = s.fresh := (k1 hxy hbx hqx hqy hqb).2.2.1
  have e1 : (s1.mem y).right = x := by rw [m1y]
  have e2 : (s1.mem x).left = b := by rw [m1x]
  have e3 : (s1.mem y).parent = q := by rw [m1y]
  obtain ⟨s2, h2⟩ := rotate_left_ok s1 y hy0 (by rw [e1]; exact hxE)
  have g2 := rotate_left_mem s1 s2 y h2
  have k2 := rotate_left_form s1 s2 y h2
  rw [e1, e2, e3] at g2 k2
  obtain ⟨r2, m2y, m2x, m2b, m2q, m2a⟩ := g2 hxy.symm hby hbx hqy hqx hqb
  have fr2 : s2.fresh = s1.fresh := (k2 hxy.symm hby hqy hqx hqb).2.2.1
  refine ⟨s1, h1, ?_⟩
  rw [h2]
  congr 1
  apply rb_tree_ext
  · funext a
    by_cases hax : a = x
    · rw [hax, m2x, m1x]
      exact node_ext5 _ _ hqd.symm hyd.symm rfl rfl rfl
    by_cases hay : a = y
    · rw [hay, m2y, m1y]
      exact node_ext5 _ _ hyp.symm rfl hbd.symm rfl rfl
    by_cases hab : a = b ∧ b ≠ empty_leaf
    · rw [hab.1, m2b hab.2, m1b hab.2]
      exact node_ext5 _ _ (hbp hab.2).symm rfl rfl rfl rfl
    have hb1 : a ≠ b ∨ b = empty_leaf := by
      by_cases h : b = empty_leaf
      · exact Or.inr h
      · exact Or.inl (fun e => hab ⟨e, h⟩)
    by_cases haq : a = q ∧ q ≠ empty_leaf
    · rw [haq.1, m2q haq.2, m1q haq.2]
      by_cases hc : x = (s.mem q).left
      · rw [if_pos hc]
        split
        · exact node_ext5 _ _ rfl hc rfl rfl rfl
        · rename_i h
          exact absurd rfl h
      · rw [if_neg hc]
        obtain ⟨hr, hl⟩ := hqc haq.2 hc
        split
        · rename_i h
          exact absurd h hl
        · exact node_ext5 _ _ rfl rfl hr.symm rfl rfl
    have hq1 : a ≠ q ∨ q = empty_leaf := by
      by_cases h : q = empty_leaf
      · exact Or.inr h
      · exact Or.inl (fun e => haq ⟨e, h⟩)
    rw [m2a a hay hax hb1 hq1, m1a a hax hay hb1 hq1]
  · rw [r2, r1]
    by_cases hq : q = empty_leaf
    · rw [if_pos hq]
      exact (hroot hq).symm
    · rw [if_neg hq, if_neg hq]
  · rw [fr2, fr1]

theorem child_parent (m : Nat → node) (t : tree) (p par q : Nat) (hp : is_tree m t p)
    (hlk : linked m t p par) (hq : q ∈ addrs m t p) :
    ((m q).left ≠ empty_leaf → (m (m q).left).parent = q) ∧
      ((m q).right ≠ empty_leaf → (m (m q).right).parent = q) := by
  obtain ⟨tq, htq, hltq, hne, _, _⟩ := sub_of_mem m t p par q hp hlk hq
  cases tq with
  | nil => exact absurd rfl hne
  | node cq QL kq QR =>
    constructor
    · intro h
      cases QL with
      | nil => exact absurd htq.2.2.2.1 h
      | node c2 l2 k2 r2 => exact hltq.2.2.1.1
    · intro h
      cases QR with
      | nil => exact absurd htq.2.2.2.2 h
      | node c2 l2 k2 r2 => exact hltq.2.2.2.1

theorem parent_other_child (m : Nat → node) (t : tree) (root x y : Nat)
    (hp : is_tree m t root) (hlk : linked m t root empty_leaf) (hx : x ∈ addrs m t root)
    (hyE : y ≠ empty_leaf) (hyp : (m y).parent = x) (hqx : (m x).parent ≠ x)
    (hq : (m x).parent ≠ empty_leaf) (hc : x ≠ (m (m x).parent).left) :
    (m (m x).parent).right = x ∧ y ≠ (m (m x).parent).left := by
  have hxr : x ≠ root := fun e =>
    hq ((root_iff_parent_leaf m t root x hp hlk hx).2 e.symm)
  constructor
  · rcases parent_child m t root empty_leaf x hp hlk hx hxr with g | g
    · exact absurd g.symm hc
    · exact g
  · intro e
    have hqm := parent_mem m t root empty_leaf x hp hlk hx hxr
    have h1 := (child_parent m t root empty_leaf _ hp hlk hqm).1 (by rw [← e]; exact hyE)
    rw [← e, hyp] at h1
    exact hqx h1.symm

theorem children_mem (m : Nat → node) (tx : tree) (x : Nat) (htx : is_tree m tx x)
    (hne : tx ≠ .nil) :
    ((m x).left ≠ empty_leaf → (m x).left ∈ addrs m tx x) ∧
      ((m x).right ≠ empty_leaf → (m x).right ∈ addrs m tx x) := by
  cases tx with
  | nil => exact absurd rfl hne
  | node c l k r =>
    constructor
    · intro h
      rcases root_eq_or_mem m l _ htx.2.2.2.1 with g | g
      · exact absurd g h
      · exact (mem_addrs_node m c l r k x _).2 (Or.inl g)
    · intro h
      rcases root_eq_or_mem m r _ htx.2.2.2.2 with g | g
      · exact absurd g h
      · exact (mem_addrs_node m c l r k x _).2 (Or.inr (Or.inr g))

theorem rotation_nodes (m : Nat → node) (t : tree) (root x y b : Nat)
    (hp : is_tree m t root) (hlk : linked m t root empty_leaf) (hx : x ∈ addrs m t root)
    (h0 : 0 ∉ addrs m t root) (hy : (m x).left = y ∨ (m x).right = y)
    (hb : (m y).left = b ∨ (m y).right = b) (hyE : y ≠ empty_leaf) :
    x ≠ 0 ∧ y ≠ 0 ∧ x ≠ empty_leaf ∧ x ≠ y ∧ b ≠ x ∧ b ≠ y ∧ (m x).parent ≠ x ∧
      (m x).parent ≠ y ∧ ((m x).parent ≠ b ∨ b = empty_leaf) ∧ (m y).parent = x ∧
      (b ≠ empty_leaf → (m b).parent = y) ∧ ((m x).parent = empty_leaf → root = x) ∧
      ((m x).parent ≠ empty_leaf → x ≠ (m (m x).parent).left →
        (m (m x).parent).right = x ∧ y ≠ (m (m x).parent).left) := by
  obtain ⟨tx, htx, hltx, hnx, _, hsubx⟩ := sub_of_mem m t root empty_leaf x hp hlk hx
  have hEn : empty_leaf ∉ addrs m t root := fun h => addrs_ne m t _ _ hp h rfl
  have hqn := parent_not_in_sub m t root empty_leaf hp hlk hEn x hx tx htx
  have hxtx : x ∈ addrs m tx x := root_mem_addrs m tx x hnx
  have hytx : y ∈ addrs m tx x := by
    rcases hy with h | h
    · rw [← h]
      exact (children_mem m tx x htx hnx).1 (by rw [h]; exact hyE)
    · rw [← h]
      exact (children_mem m tx x htx hnx).2 (by rw [h]; exact hyE)
  have hyt : y ∈ addrs m t root := hsubx y hytx
  have hyp : (m y).parent = x := by
    rcases hy with h | h
    · rw [← h]
      exact (child_parent m t root empty_leaf x hp hlk hx).1 (by rw [h]; exact hyE)
    · rw [← h]
      exact (child_parent m t root empty_leaf x hp hlk hx).2 (by rw [h]; exact hyE)
  obtain ⟨ty, hty, hlty, hny, _, _⟩ := sub_of_mem m t root empty_leaf y hp hlk hyt
  have hbp : b ≠ empty_leaf → (m b).parent = y := by
    intro hbE
    rcases hb with h | h
    · rw [← h]
      exact (child_parent m t root empty_leaf y hp hlk hyt).1 (by rw [h]; exact hbE)
    · rw [← h]
      exact (child_parent m t root empty_leaf y hp hlk hyt).2 (by rw [h]; exact hbE)
  have hbty : b ≠ empty_leaf → b ∈ addrs m ty y := by
    intro hbE
    rcases hb with h | h
    · rw [← h]
      exact (children_mem m ty y hty hny).1 (by rw [h]; exact hbE)
    · rw [← h]
      exact (children_mem m ty y hty hny).2 (by rw [h]; exact hbE)
  have hytysub := sub_addrs_subset m tx ty x _ y htx hltx hytx hty
  have hqx : (m x).parent ≠ x := fun e => hqn (mem_of_eq _ _ _ e.symm hxtx)
  have hqy : (m x).parent ≠ y := fun e => hqn (mem_of_eq _ _ _ e.symm hytx)
  have hxE : x ≠ empty_leaf := addrs_ne m t root x hp hx
  have hxy : x ≠ y := fun e =>
    hqx ((congrArg (fun a => (m a).parent) e).trans hyp)
  have hbx : b ≠ x := fun e =>
    hqy ((congrArg (fun a => (m a).parent) e.symm).trans
      (hbp (fun g => hxE (e.symm.trans g))))
  have hby : b ≠ y := fun e =>
    hxy (hyp.symm.trans ((congrArg (fun a => (m a).parent) e).symm.trans
      (hbp (fun g => hyE (e.symm.trans g)))))
  have hqb : (m x).parent ≠ b ∨ b = empty_leaf := by
    by_cases hbE : b = empty_leaf
    · exact Or.inr hbE
    · exact Or.inl (fun e => hqn (mem_of_eq _ _ _ e.symm (hytysub b (hbty hbE))))
  exact ⟨fun e => h0 (mem_of_eq _ _ _ e hx), fun e => h0 (mem_of_eq _ _ _ e hyt), hxE, hxy,
    hbx, hby, hqx, hqy, hqb, hyp, hbp,
    fun e => (root_iff_parent_leaf m t root x hp hlk hx).1 e,
    fun hq hc => parent_other_child m t root x y hp hlk hx hyE hyp hqx hq hc⟩

/-- C21: left and right rotations are mutually inverse.  On a well-formed tree
none of whose nodes lives at the null address, for a node `x` with a real right
child `y`, `_rotate_left(x)` returns and `_rotate_right(y)` on its result
returns exactly the state before the two calls: the same root and the same
node (parent, left, right, colour, key) at every address, the sentinel
included; and for a node `x` with a real left child `y`, `_rotate_right(x)`
followed by `_rotate_left(y)` returns the state before the two calls. -/
theorem rotations_mutually_inverse (s : rb_tree) (t : tree) (x : Nat)
    (hwf : well_formed s t) (hx : x ∈ addrs s.mem t s.root)
    (h0 : 0 ∉ addrs s.mem t s.root) :
    ((s.mem x).right ≠ empty_leaf →
      ∃ s1, _rotate_left s x = .ok s1 ∧ _rotate_right s1 (s.mem x).right = .ok s) ∧
    ((s.mem x).left ≠ empty_leaf →
      ∃ s1, _rotate_right s x = .ok s1 ∧ _rotate_left s1 (s.mem x).left = .ok s) := by
  constructor
  · intro hr
    obtain ⟨a1, a2, a3, a4, a5, a6, a7, a8, a9, a10, a11, a12, a13⟩ :=
      rotation_nodes s.mem t s.root x _ _ hwf.1 hwf.2 hx h0 (Or.inr rfl) (Or.inl rfl) hr
    exact rotate_left_right s x _ _ _ rfl rfl rfl a1 a2 a3 hr a4 a5 a6 a7 a8 a9 a10 a11 a12 a13
  · intro hl
    obtain ⟨a1, a2, a3, a4, a5, a6, a7, a8, a9, a10, a11, a12, a13⟩ :=
      rotation_nodes s.mem t s.root x _ _ hwf.1 hwf.2 hx h0 (Or.inl rfl) (Or.inr rfl) hl
    exact rotate_right_left s x _ _ _ rfl rfl rfl a1 a2 a3 hl a4 a5 a6 a7 a8 a9 a10 a11 a12 a13

theorem rotations_mutually_inverse_witness :
    well_formed t10 t10_shape ∧ 8 ∈ addrs t10.mem t10_shape t10.root ∧
      0 ∉ addrs t10.mem t10_shape t10.root ∧
      (t10.mem 8).right ≠ empty_leaf ∧ (t10.mem 8).left ≠ empty_leaf ∧
      (∃ s1, _rotate_left t10 8 = .ok s1 ∧ _rotate_right s1 (t10.mem 8).right = .ok t10) ∧
      (∃ s1, _rotate_right t10 8 = .ok s1 ∧ _rotate_left s1 (t10.mem 8).left = .ok t10) :=
  ⟨by decide, by decide, by decide, by decide, by decide,
    (rotations_mutually_inverse t10 t10_shape 8 (by decide) (by decide) (by decide)).1
      (by decide),
    (rotations_mutually_inverse t10 t10_shape 8 (by decide) (by decide) (by decide)).2
      (by decide)⟩

end rb_tree
